import Mathlib

/-!
Verification of the fecmagic forward-error-correction library.

This file gives a shallow embedding, over Nat, of the components of the
fecmagic C++ library (src/): the bit utilities of fecmagic-global.h, the
finite sequence cursor of sequence.h, the CRC generator of crc.h, the
bitmask-combination enumerator of bitmaskcombination.h, the GF(2) matrix
operations of binarymatrix.h, the generic block code of blockcode.h with
its Hamming and Golay instantiations, the punctured convolutional encoder
of convolutional-encoder.h, the Viterbi decoder of convolutional-decoder.h
and the bit packer/unpacker of bitpacker.h.  Machine integers are modelled
as Nat with explicit reductions mod 2^w where the C++ type width matters.
Unsigned C++ arithmetic that can only be reached with in-range operands is
modelled by plain Nat arithmetic at those call sites.
-/

set_option maxRecDepth 100000

namespace Fecmagic

/-! ### Bit utilities (fecmagic-global.h)

computeParity and computePopcount operate on C++ `unsigned` values; we
model them as a fold over the low `w` binary digits, with `w = 32` at the
call sites that take `unsigned`. -/

/-- Parity (XOR) of the low `w` bits of `x`; models `computeParity` for
any `x < 2^w`. -/
def parityN : Nat → Nat → Nat
| 0, _ => 0
| w + 1, x => (x % 2) ^^^ parityN w (x / 2)

/-- Number of set bits among the low `w` bits of `x`; models
`computePopcount` for any `x < 2^w`. -/
def popcountN : Nat → Nat → Nat
| 0, _ => 0
| w + 1, x => (x % 2) + popcountN w (x / 2)

/-- Models `computeParity` from fecmagic-global.h (argument is `unsigned`,
32 bits). -/
def computeParity (x : Nat) : Nat := parityN 32 x

/-- Models `computeHammingDistance` from fecmagic-global.h. -/
def computeHammingDistance (x y : Nat) : Nat := popcountN 32 (x ^^^ y)

theorem parityN_le_one : ∀ w x, parityN w x ≤ 1
| 0, _ => Nat.zero_le 1
| w + 1, x => by
  have h1 : x % 2 ≤ 1 := Nat.le_of_lt_succ (Nat.mod_lt x (by decide))
  have h2 := parityN_le_one w (x / 2)
  unfold parityN
  interval_cases h : (x % 2) <;> interval_cases h2 : parityN w (x / 2) <;> simp

theorem parityN_zero (w : Nat) : parityN w 0 = 0 := by
  induction w with
  | zero => rfl
  | succ w ih => simp [parityN, ih]

/-! ### Finite sequence cursor (sequence.h)

`Sequence<T, Numbers...>` keeps a cursor `index` into the static list
`numbers`.  We model the static list and the cursor separately. -/

/-- State of a `Sequence`: just the cursor, as in the C++ class. -/
structure SeqState where
  index : Nat
deriving Repr, DecidableEq

/-- Models `Sequence::reset`: `index = count - 1`. -/
def seqReset (numbers : List Nat) : SeqState := ⟨numbers.length - 1⟩

/-- Models `Sequence::current`: `numbers[index]`. -/
def seqCurrent (numbers : List Nat) (s : SeqState) : Nat :=
  numbers.getD s.index 0

/-- Models `Sequence::next`: increment the cursor, wrap at `count`, and
return the new current element. -/
def seqNext (numbers : List Nat) (s : SeqState) : Nat × SeqState :=
  let i := s.index + 1
  let i := if i = numbers.length then 0 else i
  (seqCurrent numbers ⟨i⟩, ⟨i⟩)

/-- Models `Sequence::nonZeroes`. -/
def seqNonZeroes (numbers : List Nat) : Nat :=
  numbers.length - (numbers.filter (· = 0)).length

/-- Claim C10: after `reset()` (and hence after construction, which calls
`reset()`), `current()` returns the last element `a_{N-1}` of the
compile-time list - the cursor sits at index `N-1` - and the first
subsequent `next()` call moves the cursor to index 0 and returns `a0`. -/
theorem sequence_reset_current_last (numbers : List Nat) (h : numbers ≠ []) :
    (seqReset numbers).index = numbers.length - 1 ∧
    seqCurrent numbers (seqReset numbers) = numbers.getLast h ∧
    (seqNext numbers (seqReset numbers)).2.index = 0 ∧
    (seqNext numbers (seqReset numbers)).1 = numbers.getD 0 0 := by
  have hlen : numbers.length ≠ 0 := by
    intro h0
    exact h (List.eq_nil_of_length_eq_zero h0)
  have hpos : 0 < numbers.length := Nat.pos_of_ne_zero hlen
  refine ⟨rfl, ?_, ?_, ?_⟩
  · -- current at index length-1 is the last element
    show numbers.getD (numbers.length - 1) 0 = numbers.getLast h
    rw [List.getLast_eq_getElem]
    exact List.getD_eq_getElem numbers 0 (by omega)
  · -- next wraps the cursor to 0
    simp [seqNext, seqReset, Nat.sub_add_cancel hpos]
  · -- and returns element 0
    simp [seqNext, seqReset, Nat.sub_add_cancel hpos, seqCurrent]

/-- Witness for C10 at the concrete puncturing sequence [1,1,0,1] used in
the encoder tests. -/
theorem sequence_reset_current_last_witness :
    ([1, 1, 0, 1] : List Nat) ≠ [] ∧
    (seqReset [1, 1, 0, 1]).index = 3 ∧
    seqCurrent [1, 1, 0, 1] (seqReset [1, 1, 0, 1]) = 1 ∧
    (seqNext [1, 1, 0, 1] (seqReset [1, 1, 0, 1])).2.index = 0 ∧
    (seqNext [1, 1, 0, 1] (seqReset [1, 1, 0, 1])).1 = 1 := by
  have h : ([1, 1, 0, 1] : List Nat) ≠ [] := by simp
  have := sequence_reset_current_last [1, 1, 0, 1] h
  exact ⟨h, by simpa using this.1, by simpa using this.2.1,
    by simpa using this.2.2.1, by simpa using this.2.2.2⟩

/-! ### CRC (crc.h)

crc.h contains a single function template `generateCrc16<uint32_t poly>`:
a bit-serial long division of the input bit stream by the 17-bit generator
held in the top bits of `poly`, over a sliding 4-byte window
(`affectedByteCount = sizeof(uint32_t) = 4`).  There is no initial value,
no final XOR and no reflection, and no CRC-32 routine exists in src/. -/

/-- One bit iteration of the `generateCrc16` main loop at input bit
position `bitPos` (7 = MSB): if the leading bit of the window is set, XOR
the generator (aligned at `bitPos`) into the 4 window bytes. -/
def crcBitStep (poly : Nat) (w : List Nat) (bitPos : Nat) : List Nat :=
  let inBit := ((w.getD 0 0) >>> bitPos) &&& 1
  if inBit = 1 then
    (List.range 4).map
      (fun i => (w.getD i 0) ^^^ (((poly >>> (7 - bitPos)) >>> ((4 - i - 1) * 8)) &&& 255))
  else
    w

/-- One input byte of the `generateCrc16` loop: the 8 bit positions from 7
down to 0, then the window shift that drops byte 0 and pulls `next` (the
byte at `inAddr + 3`, or 0 past the end of the input). -/
def crcByteStep (poly : Nat) (w : List Nat) (next : Nat) : List Nat :=
  let w := [7, 6, 5, 4, 3, 2, 1, 0].foldl (crcBitStep poly) w
  (w.drop 1) ++ [next]

/-- The `generateCrc16` loop over `k` input bytes; `pulls` holds the input
bytes from index `inAddr + 3` onwards (empty once the input is
exhausted, in which case zero is pulled). -/
def crcRun (poly : Nat) : Nat → List Nat → List Nat → List Nat
| 0, _, w => w
| k + 1, pulls, w => crcRun poly k (pulls.drop 1) (crcByteStep poly w (pulls.getD 0 0))

/-- Models `generateCrc16<poly>(input, inputSize)` from crc.h. -/
def generateCrc16 (poly : Nat) (input : List Nat) : Nat :=
  if input.length = 0 then 0
  else
    let w := (input ++ [0, 0, 0, 0]).take 4
    let w := crcRun poly input.length (input.drop 4) w
    ((w.getD 0 0) <<< 8) ||| (w.getD 1 0)

/-- The ASCII bytes of the standard CRC check string "123456789". -/
def msg123456789 : List Nat := [49, 50, 51, 52, 53, 54, 55, 56, 57]

/-- The generator-polynomial constant used by test_crc.cpp: the 17-bit
generator x^16 + x^15 + x^2 + 1 (polynomial 0x8005, the CRC-16/BUYPASS and
CRC-16/ARC generator) left-aligned in 32 bits. -/
def crcPoly8005 : Nat := 0xC0028000

/-- Claim C9, counterexample: the library's only CRC routine is the plain
(zero-init, non-reflected, zero-xorout) 16-bit `generateCrc16`; at its
tested pre-configuration with the 0x8005 generator it does not return the
CRC-16/ARC standard check value 0xBB3D on "123456789", so a pre-configured
CRC-16/ARC variant matching its check value does not exist in the code. -/
theorem crc_arc_check_fails :
    generateCrc16 crcPoly8005 msg123456789 ≠ 0xBB3D := by decide

/-- Claim C9 (amended): crc.h exposes the single bit-serial CRC-16 routine
`generateCrc16`, pre-configured only through its generator-polynomial
template argument; with the 0x8005 generator used by test_crc.cpp
(constant 0xC0028000) it returns, on the ASCII bytes of "123456789", the
standard CRC-16/BUYPASS check value 0xFEE8. -/
theorem crc_buypass_check :
    generateCrc16 crcPoly8005 msg123456789 = 0xFEE8 := by decide

/-! ### Matrix-vector product (binarymatrix.h, calculateProduct)

`BinaryMatrix<Rows, Cols>::calculateProduct<Tin, Tout>(vec)`: the matrix
is `Rows * Cols / 8` row-major bytes (MSB of each byte first); the vector
is read little-endian byte-reversed (`v[sizeof(Tin) - j - 1]`), and the
result is accumulated by shifting left one bit per row in `Tout`.  Here
`sIn = Cols / 8 = sizeof(Tin)` and `W = 8 * sizeof(Tout)`. -/

/-- The inner column loop of `calculateProduct`: XOR of
`computeParity(b1 & b2)` over the first `j` byte positions of row `i`. -/
def rowParity (bytes : List Nat) (sIn : Nat) (vec : Nat) (i : Nat) : Nat → Nat
| 0 => 0
| j + 1 =>
  rowParity bytes sIn vec i j ^^^
    parityN 8 ((bytes.getD (i * sIn + j) 0) &&& ((vec >>> (8 * (sIn - 1 - j))) &&& 255))

/-- The outer row loop of `calculateProduct` after the first `n` rows:
`result <<= 1; result |= parity`, in `Tout` of width `W` bits. -/
def calcProdAux (bytes : List Nat) (sIn W vec : Nat) : Nat → Nat
| 0 => 0
| n + 1 => (((calcProdAux bytes sIn W vec n) <<< 1) % 2 ^ W) ||| rowParity bytes sIn vec n sIn

/-- Models `BinaryMatrix::calculateProduct<Tin, Tout>(vec)`. -/
def calcProduct (bytes : List Nat) (rows sIn W vec : Nat) : Nat :=
  calcProdAux bytes sIn W vec rows

/-! ### Bitmask combination enumerator (bitmaskcombination.h)

`BitmaskCombination<T, MaxN, Length>` keeps the positions of the set bits
in `x[0..n-1]` and a `done` flag. -/

/-- State of a `BitmaskCombination`: the weight `n`, the positions of the
set bits, and the `done` flag. -/
structure BmcState where
  n : Nat
  x : List Nat
  done : Bool
deriving Repr, DecidableEq

/-- Models the `BitmaskCombination` constructor: `x[i] = i`, and `done`
exactly when the weight is zero.  (The C++ asserts `n <= MaxN`; `MaxN`
only sizes the array and plays no further role.) -/
def bmcInit (n : Nat) : BmcState := ⟨n, List.range n, n = 0⟩

/-- Models `BitmaskCombination::currentMask`:
the union of `1 << (Length - x[i] - 1)` over the positions. -/
def currentMask (L : Nat) (x : List Nat) : Nat :=
  x.foldl (fun acc xi => acc ||| (1 <<< (L - xi - 1))) 0

/-- The fixup loop of `BitmaskCombination::next`: `x[j] = x[j-1] + 1` for
`j` from `start` to `n - 1`. -/
def bmcFix (n : Nat) (x : List Nat) (start : Nat) : List Nat :=
  (List.range (n - start)).foldl
    (fun x k => x.set (start + k) (x.getD (start + k - 1) 0 + 1)) x

/-- The advancement loop of `BitmaskCombination::next`, walking the
position array backwards from index `i`; `none` means the enumeration is
finished (`done` is set). -/
def bmcAdvLoop (L n : Nat) : Nat → List Nat → Option (List Nat)
| 0, x =>
  if x.getD 0 0 = L - n then none
  else some (x.set 0 (x.getD 0 0 + 1))
| i + 1, x =>
  if x.getD (i + 1) 0 = L - (n - (i + 1)) then
    bmcAdvLoop L n i (bmcFix n (x.set (i + 1) (x.getD i 0 + 2)) (i + 2))
  else some (x.set (i + 1) (x.getD (i + 1) 0 + 1))

/-- Models `BitmaskCombination::next()`. -/
def bmcNext (L : Nat) (st : BmcState) : Nat × BmcState :=
  if st.done then (0, st)
  else
    let result := currentMask L st.x
    match bmcAdvLoop L st.n (st.n - 1) st.x with
    | none => (result, { st with done := true })
    | some x2 => (result, { st with x := x2 })

/-- The mask stream drawn from a `BitmaskCombination` until `next()`
returns zero, as in the mask loop of `BlockCode::fixCodeword` (the fuel
argument only bounds the number of iterations). -/
def bmcMasks (L : Nat) : Nat → BmcState → List Nat
| 0, _ => []
| fuel + 1, st =>
  match bmcNext L st with
  | (0, _) => []
  | (m, st2) => m :: bmcMasks L fuel st2

/-! ### Generic block code (blockcode.h)

`BlockCode<MaxCorrectedErrors, TCodeword, TSourceBlock, TSyndrome>` holds
the three matrices by value; `cwLen`, `srcLen`, `synLen` are the bit
widths of the three types.  `decode` reports failure through its returned
pair; the `std::cout` print in the unfixable branch of `fixCodeword` is
modelled by the `List String` component of the result. -/

structure BlockCodeM where
  maxCorrectedErrors : Nat
  cwLen : Nat
  srcLen : Nat
  synLen : Nat
  generator : List Nat
  parityCheck : List Nat
  decoder : List Nat

/-- Models `BlockCode::calculateSyndrome`. -/
def calculateSyndrome (c : BlockCodeM) (cw : Nat) : Nat :=
  calcProduct c.parityCheck c.synLen (c.cwLen / 8) c.synLen cw

/-- Models `BlockCode::encode`. -/
def bcEncode (c : BlockCodeM) (input : Nat) : Nat :=
  calcProduct c.generator c.cwLen (c.srcLen / 8) c.cwLen input

/-- The decoder-matrix product used at the end of `BlockCode::decode`. -/
def bcDecodeProduct (c : BlockCodeM) (cw : Nat) : Nat :=
  calcProduct c.decoder c.srcLen (c.cwLen / 8) c.srcLen cw

/-- The body of one `attempts` iteration of `BlockCode::fixCodeword`:
scan the masks of the given weight for the first one whose syndrome
matches.  Returns the fix outcome if a match exists. -/
def fixAttempt (c : BlockCodeM) (codeword syndrome : Nat) (attempts : Nat) :
    Option (Nat × Bool × List String) :=
  let masks := bmcMasks c.cwLen (2 ^ c.cwLen) (bmcInit attempts)
  match masks.find? (fun m => calculateSyndrome c m = syndrome) with
  | none => none
  | some m =>
    let result := codeword ^^^ m
    if calculateSyndrome c result = 0 then some (result, true, [])
    else some (0, false, ["unfixable error detected."])

/-- The `attempts` loop of `BlockCode::fixCodeword` over the remaining
attempt values. -/
def fixLoop (c : BlockCodeM) (codeword syndrome : Nat) :
    List Nat → Nat × Bool × List String
| [] => (0, false, [])
| a :: rest =>
  match fixAttempt c codeword syndrome a with
  | some r => r
  | none => fixLoop c codeword syndrome rest

/-- Models `BlockCode::fixCodeword` (attempts run from 1 up to
`MaxCorrectedErrors`). -/
def fixCodeword (c : BlockCodeM) (codeword syndrome : Nat) :
    Nat × Bool × List String :=
  fixLoop c codeword syndrome (List.range' 1 c.maxCorrectedErrors)

/-- Models `BlockCode::decode` (result value, success flag, and the lines
written to `std::cout` on the way). -/
def bcDecode (c : BlockCodeM) (input : Nat) : Nat × Bool × List String :=
  let syndrome := calculateSyndrome c input
  if syndrome = 0 then (bcDecodeProduct c input, true, [])
  else
    match fixCodeword c input syndrome with
    | (cw, true, log) => (bcDecodeProduct c cw, true, log)
    | (_, false, log) => (0, false, log)

/-! ### Hamming and Golay instantiations (hamming.h, golay.h) -/

/-- Models `HammingCode` = `BlockCode<1, uint8_t, uint8_t, uint8_t>` with
the matrices of hamming.h. -/
def hammingCode : BlockCodeM where
  maxCorrectedErrors := 1
  cwLen := 8
  srcLen := 8
  synLen := 8
  generator := [0, 0b00001101, 0b00001011, 0b00001000,
                0b00000111, 0b00000100, 0b00000010, 0b00000001]
  parityCheck := [0, 0, 0, 0, 0, 0b01010101, 0b00110011, 0b00001111]
  decoder := [0, 0, 0, 0, 0b00010000, 0b00000100, 0b00000010, 0b00000001]

/-- The 64 bytes of the Golay generator matrix (32x16). -/
def golayGenerator : List Nat :=
  [0, 0, 0, 0, 0, 0, 0, 0, 0, 0, 0, 0, 0, 0, 0, 0,
   0b00001000, 0b00000000,
   0b00000100, 0b00000000,
   0b00000010, 0b00000000,
   0b00000001, 0b00000000,
   0b00000000, 0b10000000,
   0b00000000, 0b01000000,
   0b00000000, 0b00100000,
   0b00000000, 0b00010000,
   0b00000000, 0b00001000,
   0b00000000, 0b00000100,
   0b00000000, 0b00000010,
   0b00000000, 0b00000001,
   0b00001001, 0b11110001,
   0b00000100, 0b11111010,
   0b00000010, 0b01111101,
   0b00001001, 0b00111110,
   0b00001100, 0b10011101,
   0b00001110, 0b01001110,
   0b00001111, 0b00100101,
   0b00001111, 0b10010010,
   0b00000111, 0b11001001,
   0b00000011, 0b11100110,
   0b00000101, 0b01010111,
   0b00001010, 0b10101011]

/-- The 60 bytes that golay.h actually supplies for the 16x32 (64-byte)
parity-check matrix: the four leading lines of the initializer list have
only three zero bytes each, so the list is four bytes short and the last
matrix row is left to whatever the four `tail` bytes of the uninitialized
storage happen to hold (`BinaryMatrix`'s initializer-list constructor does
not zero its byte array). -/
def golayParityCheck60 : List Nat :=
  [0, 0, 0,
   0, 0, 0,
   0, 0, 0,
   0, 0, 0,
   0, 0b10011111, 0b00011000, 0b00000000,
   0, 0b01001111, 0b10100100, 0b00000000,
   0, 0b00100111, 0b11010010, 0b00000000,
   0, 0b10010011, 0b11100001, 0b00000000,
   0, 0b11001001, 0b11010000, 0b10000000,
   0, 0b11100100, 0b11100000, 0b01000000,
   0, 0b11110010, 0b01010000, 0b00100000,
   0, 0b11111001, 0b00100000, 0b00010000,
   0, 0b01111100, 0b10010000, 0b00001000,
   0, 0b00111110, 0b01100000, 0b00000100,
   0, 0b01010101, 0b01110000, 0b00000010,
   0, 0b10101010, 0b10110000, 0b00000001]

/-- The 64 bytes of the Golay decode matrix (16x32). -/
def golayDecoder : List Nat :=
  [0, 0, 0, 0,
   0, 0, 0, 0,
   0, 0, 0, 0,
   0, 0, 0, 0,
   0, 0b10000000, 0b00000000, 0,
   0, 0b01000000, 0b00000000, 0,
   0, 0b00100000, 0b00000000, 0,
   0, 0b00010000, 0b00000000, 0,
   0, 0b00001000, 0b00000000, 0,
   0, 0b00000100, 0b00000000, 0,
   0, 0b00000010, 0b00000000, 0,
   0, 0b00000001, 0b00000000, 0,
   0, 0b00000000, 0b10000000, 0,
   0, 0b00000000, 0b01000000, 0,
   0, 0b00000000, 0b00100000, 0,
   0, 0b00000000, 0b00010000, 0]

/-- Models `GolayCode` = `BlockCode<3, uint32_t, uint16_t, uint16_t>`,
parameterized by the four uninitialized bytes (row 15 of the parity-check
matrix) that the short initializer list leaves unspecified. -/
def golayCode (tail : List Nat) : BlockCodeM where
  maxCorrectedErrors := 3
  cwLen := 32
  srcLen := 16
  synLen := 16
  generator := golayGenerator
  parityCheck := golayParityCheck60 ++ tail
  decoder := golayDecoder

/-! ### Punctured convolutional encoder (convolutional-encoder.h)

`PuncturedConvolutionalEncoder<TPuncturingMatrix, ConstraintLength,
TShiftReg, Polynomials...>`.  The configuration holds the constraint
length `K`, the bit width `w` of `TShiftReg`, the polynomial list and the
puncturing sequence; the state holds the puncturing cursor, the shift
register and the output cursor.  The output buffer is a byte map
`Nat → Nat` (the caller-supplied buffer, zeroed by the caller). -/

structure EncCfg where
  constraintLength : Nat
  w : Nat
  polys : List Nat
  punct : List Nat

structure EncState where
  punctIdx : SeqState
  shiftReg : Nat
  outAddr : Nat
  outBitPos : Nat
  out : Nat → Nat

/-- Pointwise byte-buffer update. -/
def updByte (f : Nat → Nat) (a v : Nat) : Nat → Nat :=
  fun x => if x = a then v else f x

/-- One polynomial iteration of `produceOutput`: consult the puncturing
cursor, and unless punctured emit `computeParity(poly & shiftReg)` at the
output cursor (clearing a fresh byte when landing on bit 7). -/
def produceOne (cfg : EncCfg) (st : EncState) (poly : Nat) : EncState :=
  let (p, pIdx) := seqNext cfg.punct st.punctIdx
  if p = 0 then { st with punctIdx := pIdx }
  else
    let out := if st.outBitPos = 7 then updByte st.out st.outAddr 0 else st.out
    let out := updByte out st.outAddr
      ((out st.outAddr) ||| (computeParity (poly &&& st.shiftReg) <<< st.outBitPos))
    if st.outBitPos = 0 then
      { st with punctIdx := pIdx, out := out, outAddr := st.outAddr + 1, outBitPos := 7 }
    else
      { st with punctIdx := pIdx, out := out, outBitPos := st.outBitPos - 1 }

/-- Models `PuncturedConvolutionalEncoder::produceOutput`. -/
def produceOutput (cfg : EncCfg) (st : EncState) : EncState :=
  cfg.polys.foldl (produceOne cfg) st

/-- One input bit of `encode`: shift the register right, set bit `K - 1`
to the input bit, and produce the outputs. -/
def encodeBit (cfg : EncCfg) (st : EncState) (b : Nat) : EncState :=
  produceOutput cfg
    { st with shiftReg := (st.shiftReg >>> 1) ||| (b <<< (cfg.constraintLength - 1)) }

/-- The MSB-first bits of one input byte. -/
def byteBitsMSB (b : Nat) : List Nat :=
  [7, 6, 5, 4, 3, 2, 1, 0].map (fun p => (b >>> p) &&& 1)

/-- The MSB-first bit stream of a byte sequence, as consumed by the
`encode` input loop. -/
def bytesBitsMSB (bytes : List Nat) : List Nat :=
  bytes.flatMap byteBitsMSB

/-- Models `PuncturedConvolutionalEncoder::encode(input, inputSize)`:
the input loop consumes the input bits MSB-first, one `encodeBit` per
bit. -/
def encodeBytes (cfg : EncCfg) (st : EncState) (input : List Nat) : EncState :=
  (bytesBitsMSB input).foldl (encodeBit cfg) st

/-- One flush cycle: shift the register right (no input bit) and produce
the outputs. -/
def flushStep (cfg : EncCfg) (st : EncState) : EncState :=
  produceOutput cfg { st with shiftReg := st.shiftReg >>> 1 }

/-- Models `PuncturedConvolutionalEncoder::flush()`: `ConstraintLength`
flush cycles. -/
def encFlush (cfg : EncCfg) (st : EncState) : EncState :=
  (List.range cfg.constraintLength).foldl (fun st _ => flushStep cfg st) st

/-- Models `PuncturedConvolutionalEncoder::reset(output)` over a
caller-zeroed buffer. -/
def encReset (cfg : EncCfg) : EncState :=
  ⟨seqReset cfg.punct, 0, 0, 7, fun _ => 0⟩

/-- Encode a list of input pieces in successive `encode` calls. -/
def encodePieces (cfg : EncCfg) (st : EncState) (pieces : List (List Nat)) : EncState :=
  pieces.foldl (encodeBytes cfg) st

theorem encodeBytes_append (cfg : EncCfg) (st : EncState) (a b : List Nat) :
    encodeBytes cfg st (a ++ b) = encodeBytes cfg (encodeBytes cfg st a) b := by
  unfold encodeBytes bytesBitsMSB
  rw [List.flatMap_append, List.foldl_append]

theorem encodePieces_flatten (cfg : EncCfg) (st : EncState) (pieces : List (List Nat)) :
    encodePieces cfg st pieces = encodeBytes cfg st pieces.flatten := by
  induction pieces generalizing st with
  | nil => simp [encodePieces, encodeBytes, bytesBitsMSB]
  | cons p rest ih =>
    rw [encodePieces, List.foldl_cons, List.flatten_cons, encodeBytes_append]
    exact ih (encodeBytes cfg st p)

/-- Claim C3: for every input byte sequence, every split of it into
consecutive pieces, and every encoder configuration (constraint length at
least 2, at least 2 polynomials, any puncturing sequence), running
`encode` on the pieces one by one and then `flush()` on a freshly reset
encoder leaves the encoder - including every byte of the caller-zeroed
output buffer - in exactly the state produced by a single `encode` of the
concatenated input followed by `flush()`. -/
theorem encoder_streaming_identity (cfg : EncCfg) (pieces : List (List Nat))
    (hK : 2 ≤ cfg.constraintLength) (hp : 2 ≤ cfg.polys.length) :
    encFlush cfg (encodePieces cfg (encReset cfg) pieces) =
      encFlush cfg (encodeBytes cfg (encReset cfg) pieces.flatten) := by
  rw [encodePieces_flatten]

/-- Witness for C3: the K=3, polys (7, 5) encoder on the split
[0x5C], [0xA2] of the test vector input. -/
theorem encoder_streaming_identity_witness :
    2 ≤ (EncCfg.mk 3 8 [7, 5] [1]).constraintLength ∧
    2 ≤ (EncCfg.mk 3 8 [7, 5] [1]).polys.length ∧
    encFlush (EncCfg.mk 3 8 [7, 5] [1])
      (encodePieces (EncCfg.mk 3 8 [7, 5] [1]) (encReset (EncCfg.mk 3 8 [7, 5] [1]))
        [[0x5C], [0xA2]]) =
    encFlush (EncCfg.mk 3 8 [7, 5] [1])
      (encodeBytes (EncCfg.mk 3 8 [7, 5] [1]) (encReset (EncCfg.mk 3 8 [7, 5] [1]))
        [[0x5C], [0xA2]].flatten) :=
  ⟨by decide, by decide,
    encoder_streaming_identity (EncCfg.mk 3 8 [7, 5] [1]) [[0x5C], [0xA2]]
      (by decide) (by decide)⟩

/-! ### Viterbi convolutional decoder (convolutional-decoder.h)

`ConvolutionalDecoder<Depth, ConstraintLength, TShiftReg,
Polynomials...>`.  The metric type is `TShiftReg` (width `w` bits); the
`maxErrorMetric` sentinel is `2^w - 1`.  A `State`'s `previous` pointer
always points into the window slot one position behind the slot holding
the state, so it is modelled as the predecessor's state index (`none` for
the null pointer). -/

structure VState where
  presumedInputBit : Nat
  accumulatedErrorMetric : Nat
  previous : Option Nat
deriving Repr, DecidableEq

structure VStep where
  states : List VState
  lowestErrorMetric : Nat
  /-- Index of `lowestErrorState` within this step (the C++ keeps a raw
  pointer; `Step::reset` leaves it untouched and `reset(output)` aims it
  at state 0 before `windowPos` is initialised - it is only ever
  dereferenced after it has been re-established by a decode step). -/
  lowestErrorState : Option Nat
deriving Repr, DecidableEq

structure VitCfg where
  depth : Nat
  constraintLength : Nat
  w : Nat
  polys : List Nat

structure VitState where
  window : List VStep
  windowPos : Nat
  currentStepCount : Nat
  outAddr : Nat
  outBitPos : Nat
  out : Nat → Nat

/-- `maxErrorMetric = std::numeric_limits<TShiftReg>::max()`. -/
def maxMetric (w : Nat) : Nat := 2 ^ w - 1

/-- `Step::possibleStateCount = 1 << (ConstraintLength - 1)`. -/
def stateCount (cfg : VitCfg) : Nat := 2 ^ (cfg.constraintLength - 1)

/-- Models `State::reset`. -/
def vstateReset : VState := ⟨0, 0, none⟩

/-- Models `Step::reset` for width `w`: all states reset, the lowest
metric back to infinity, the `lowestErrorState` pointer untouched. -/
def vstepReset (cfg : VitCfg) (s : VStep) : VStep :=
  ⟨List.replicate (stateCount cfg) { vstateReset with accumulatedErrorMetric := maxMetric cfg.w },
   maxMetric cfg.w, s.lowestErrorState⟩

/-- A freshly constructed `Step` (constructor calls `reset`; the pointer
starts null). -/
def vstepInit (cfg : VitCfg) : VStep := vstepReset cfg ⟨[], maxMetric cfg.w, none⟩

/-- Models `ConvolutionalDecoder::getEncoderOutput`. -/
def getEncoderOutput (cfg : VitCfg) (shiftReg : Nat) : Nat :=
  cfg.polys.foldl (fun output poly => (output <<< 1) ||| computeParity (shiftReg &&& poly)) 0

/-- The saturating metric addition of
`ConvolutionalDecoder::calculateErrorMetricForInput`: `TShiftReg`
addition, snapped to `maxErrorMetric` when it wrapped. -/
def saturatingMetric (w oldMetric hd : Nat) : Nat :=
  let metric := (oldMetric + hd) % 2 ^ w
  if metric < oldMetric then maxMetric w else metric

/-- Models `ConvolutionalDecoder::calculateErrorMetricForInput`. -/
def calculateErrorMetricForInput (cfg : VitCfg) (currentState : VState) (nextStep : VStep)
    (currentSt receivedBits presumedInputBit : Nat) : VStep :=
  let nextSr := currentSt ||| (presumedInputBit <<< (cfg.constraintLength - 1))
  let nextSt := nextSr >>> 1
  let nextSrOut := getEncoderOutput cfg nextSr
  let hd := computeHammingDistance nextSrOut receivedBits
  let metric := saturatingMetric cfg.w currentState.accumulatedErrorMetric hd
  let nextState := nextStep.states.getD nextSt vstateReset
  if metric ≤ nextState.accumulatedErrorMetric then
    let nextStep :=
      { nextStep with
        states := nextStep.states.set nextSt ⟨presumedInputBit, metric, some currentSt⟩ }
    if metric < nextStep.lowestErrorMetric then
      { nextStep with lowestErrorMetric := metric, lowestErrorState := some nextSt }
    else nextStep
  else nextStep

/-- One iteration of the state loop in `decode`: skip the state when its
accumulated metric is the infinity sentinel, otherwise try both presumed
input bits. -/
def processState (cfg : VitCfg) (currentStep : VStep) (receivedBits : Nat)
    (nextStep : VStep) (i : Nat) : VStep :=
  let currentState := currentStep.states.getD i vstateReset
  if currentState.accumulatedErrorMetric = maxMetric cfg.w then nextStep
  else
    let nextStep := calculateErrorMetricForInput cfg currentState nextStep i receivedBits 0
    calculateErrorMetricForInput cfg currentState nextStep i receivedBits 1

/-- Follow `previous` pointers `steps` times from state `idx` of window
slot `slot` (each hop moves one slot back in the ring).  The C++ asserts
the pointer is never null; a null pointer yields the reset state here. -/
def walkBack (cfg : VitCfg) (window : List VStep) : Nat → Nat → Nat → VState
| slot, idx, 0 => ((window.getD slot (vstepInit cfg)).states.getD idx vstateReset)
| slot, idx, steps + 1 =>
  let s := (window.getD slot (vstepInit cfg)).states.getD idx vstateReset
  let prevSlot := if slot = 0 then cfg.depth - 1 else slot - 1
  match s.previous with
  | some p => walkBack cfg window prevSlot p steps
  | none => vstateReset

/-- Collect `steps` presumed input bits walking back from state `idx` of
slot `slot` (shallowest first), as the traceback loop of `flush` does. -/
def collectBack (cfg : VitCfg) (window : List VStep) : Nat → Nat → Nat → List Nat
| _, _, 0 => []
| slot, idx, steps + 1 =>
  let s := (window.getD slot (vstepInit cfg)).states.getD idx vstateReset
  let prevSlot := if slot = 0 then cfg.depth - 1 else slot - 1
  match s.previous with
  | some p => s.presumedInputBit :: collectBack cfg window prevSlot p steps
  | none => s.presumedInputBit :: []

/-- Write one decoded bit at the output cursor (`output[outAddr] |= pib
<< outBitPos`) and advance the cursor. -/
def emitBit (st : VitState) (pib : Nat) : VitState :=
  let out := updByte st.out st.outAddr ((st.out st.outAddr) ||| (pib <<< st.outBitPos))
  if st.outBitPos = 0 then
    { st with out := out, outAddr := st.outAddr + 1, outBitPos := 7 }
  else
    { st with out := out, outBitPos := st.outBitPos - 1 }

/-- One trellis step of `decode` on the `n`-bit word `receivedBits`. -/
def decodeStep (cfg : VitCfg) (st : VitState) (receivedBits : Nat) : VitState :=
  let nextWindowPos := if st.windowPos = cfg.depth - 1 then 0 else st.windowPos + 1
  let currentStep := st.window.getD st.windowPos (vstepInit cfg)
  let nextStep0 := st.window.getD nextWindowPos (vstepInit cfg)
  let nextStep :=
    (List.range (stateCount cfg)).foldl (processState cfg currentStep receivedBits) nextStep0
  let window := st.window.set nextWindowPos nextStep
  let st :=
    if cfg.depth - 2 < st.currentStepCount then
      let start := nextStep.lowestErrorState.getD 0
      let pib := (walkBack cfg window nextWindowPos start (cfg.depth - 1)).presumedInputBit
      emitBit { st with window := window } pib
    else { st with window := window }
  let afterNextWindowPos := if nextWindowPos = cfg.depth - 1 then 0 else nextWindowPos + 1
  let window := st.window.set afterNextWindowPos
    (vstepReset cfg (st.window.getD afterNextWindowPos (vstepInit cfg)))
  { st with window := window, windowPos := nextWindowPos,
            currentStepCount := st.currentStepCount + 1 }

/-- Group the MSB-first input bit stream into trellis-step words of `n`
bits (`n = outputCount`), the last word possibly short exactly as in the
bounded inner read loop of `decode`. -/
def groupBitsAux (n : Nat) : List Nat → Nat → Nat → List Nat
| [], acc, need => if need = n then [] else [acc]
| b :: rest, acc, need =>
  if need ≤ 1 then ((acc <<< 1) ||| b) :: groupBitsAux n rest 0 n
  else groupBitsAux n rest ((acc <<< 1) ||| b) (need - 1)

def groupBits (n : Nat) (bits : List Nat) : List Nat :=
  groupBitsAux n bits 0 n

/-- Models `ConvolutionalDecoder::decode(input, inputSize)`. -/
def vitDecode (cfg : VitCfg) (st : VitState) (input : List Nat) : VitState :=
  (groupBits cfg.polys.length (bytesBitsMSB input)).foldl (decodeStep cfg) st

/-- Models `ConvolutionalDecoder::flush()`. -/
def vitFlush (cfg : VitCfg) (st : VitState) : VitState :=
  let tracebackDepth := if cfg.depth - 1 < st.currentStepCount then cfg.depth - 1
                        else st.currentStepCount
  let start := (st.window.getD st.windowPos (vstepInit cfg)).lowestErrorState.getD 0
  let bits := (collectBack cfg st.window st.windowPos start tracebackDepth).reverse
  bits.foldl emitBit st

/-- Models `ConvolutionalDecoder::reset(output)` over a caller-zeroed
buffer: every step reset, then step 0 given metric 0 at state 0, with
`lowestErrorState` aimed at state 0. -/
def vitReset (cfg : VitCfg) : VitState :=
  let step0 : VStep :=
    { states := (List.replicate (stateCount cfg)
        { vstateReset with accumulatedErrorMetric := maxMetric cfg.w }).set 0
        { vstateReset with accumulatedErrorMetric := 0 },
      lowestErrorMetric := 0,
      lowestErrorState := some 0 }
  ⟨step0 :: List.replicate (cfg.depth - 1) (vstepInit cfg), 0, 0, 0, 7, fun _ => 0⟩

/-- The K=3, rate 1/2, polynomials (7, 5) encoder of the round-trip test
in test_convolutional_encoder.cpp. -/
def encCfg75 : EncCfg := ⟨3, 8, [7, 5], [1]⟩

/-- The matching depth-15 Viterbi decoder
(`ConvolutionalDecoder<15, 3, uint8_t, 7, 5>`). -/
def vitCfg75 : VitCfg := ⟨15, 3, 8, [7, 5]⟩

/-- Claim C2: for the K=3, rate 1/2 code with polynomials (7, 5),
encoding the two bytes 0x5C, 0xA2 followed by a flush writes exactly the
five bytes 0x38, 0x67, 0xE2, 0xCE, 0xC0 (MSB-first), and the depth-15
Viterbi decoder run on those five bytes (decode, then flush) writes the
original two bytes at the start of its output. -/
theorem conv_roundtrip_k3_rate_half :
    (let st := encFlush encCfg75 (encodeBytes encCfg75 (encReset encCfg75) [0x5C, 0xA2])
     [st.out 0, st.out 1, st.out 2, st.out 3, st.out 4]) =
      [0x38, 0x67, 0xE2, 0xCE, 0xC0] ∧
    (let st := vitFlush vitCfg75
        (vitDecode vitCfg75 (vitReset vitCfg75) [0x38, 0x67, 0xE2, 0xCE, 0xC0])
     [st.out 0, st.out 1]) = [0x5C, 0xA2] := by
  constructor
  · decide
  · decide

theorem maxMetric_lt (w : Nat) (hw : 1 ≤ w) : ∀ m, m < 2 ^ w → m ≤ maxMetric w := by
  intro m hm
  unfold maxMetric
  omega

/-- Claim C7: in the Viterbi decoder, the candidate accumulated metric
saturates instead of wrapping - for in-range operands the computed metric
is exactly `min (oldMetric + hd) maxErrorMetric` - and a state whose
stored metric equals `maxErrorMetric` is skipped by the state loop: it
contributes nothing to the next step. -/
theorem viterbi_metric_saturates_and_max_skipped (cfg : VitCfg)
    (currentStep nextStep : VStep) (receivedBits i oldMetric hd : Nat)
    (hw : 1 ≤ cfg.w) (hold : oldMetric < 2 ^ cfg.w) (hhd : hd < 2 ^ cfg.w)
    (hmax : (currentStep.states.getD i vstateReset).accumulatedErrorMetric =
      maxMetric cfg.w) :
    saturatingMetric cfg.w oldMetric hd = min (oldMetric + hd) (maxMetric cfg.w) ∧
    processState cfg currentStep receivedBits nextStep i = nextStep := by
  constructor
  · unfold saturatingMetric maxMetric
    by_cases hlt : oldMetric + hd < 2 ^ cfg.w
    · rw [Nat.mod_eq_of_lt hlt]
      have h1 : ¬ (oldMetric + hd < oldMetric) := by omega
      rw [if_neg h1]
      omega
    · have hsum : oldMetric + hd < 2 ^ (cfg.w + 1) := by
        have : 2 ^ (cfg.w + 1) = 2 ^ cfg.w + 2 ^ cfg.w := by ring
        omega
      have hmod : (oldMetric + hd) % 2 ^ cfg.w = oldMetric + hd - 2 ^ cfg.w := by
        rw [Nat.mod_eq_sub_mod (by omega), Nat.mod_eq_of_lt (by omega)]
      rw [hmod]
      have hlt2 : oldMetric + hd - 2 ^ cfg.w < oldMetric := by omega
      rw [if_pos hlt2]
      omega
  · simp only [processState]
    rw [if_pos hmax]

/-- Witness for C7 at the depth-15 (7,5) decoder: oldMetric 250 plus
Hamming distance 10 saturates to 255, and a freshly reset step (all
states at the sentinel) contributes no successors. -/
theorem viterbi_metric_saturates_and_max_skipped_witness :
    (1 ≤ vitCfg75.w ∧ 250 < 2 ^ vitCfg75.w ∧ 10 < 2 ^ vitCfg75.w ∧
      ((vstepInit vitCfg75).states.getD 0 vstateReset).accumulatedErrorMetric =
        maxMetric vitCfg75.w) ∧
    (saturatingMetric vitCfg75.w 250 10 = min (250 + 10) (maxMetric vitCfg75.w) ∧
      processState vitCfg75 (vstepInit vitCfg75) 0 (vstepInit vitCfg75) 0 =
        vstepInit vitCfg75) :=
  ⟨⟨by decide, by decide, by decide, by decide⟩,
    viterbi_metric_saturates_and_max_skipped vitCfg75 (vstepInit vitCfg75)
      (vstepInit vitCfg75) 0 0 250 10 (by decide) (by decide) (by decide) (by decide)⟩

/-! ### Linearity of the matrix-vector product

`calculateProduct` is GF(2)-linear in the vector argument; this is what
makes the unfixable branch of `fixCodeword` unreachable from `decode`. -/

theorem xor_div_two (a b : Nat) : (a ^^^ b) / 2 = a / 2 ^^^ b / 2 := by
  have h : ∀ x : Nat, x / 2 = x >>> 1 := fun x => (Nat.shiftRight_one x).symm
  rw [h, h, h]
  apply Nat.eq_of_testBit_eq
  intro i
  simp [Nat.testBit_shiftRight, Nat.testBit_xor]

theorem xor_mod_two (a b : Nat) : (a ^^^ b) % 2 = (a % 2) ^^^ (b % 2) := by
  rw [← Nat.and_one_is_mod, ← Nat.and_one_is_mod, ← Nat.and_one_is_mod,
    Nat.and_xor_distrib_right]

theorem parityN_xor (w : Nat) : ∀ a b, parityN w (a ^^^ b) = parityN w a ^^^ parityN w b := by
  induction w with
  | zero => intro a b; simp [parityN]
  | succ w ih =>
    intro a b
    show ((a ^^^ b) % 2) ^^^ parityN w ((a ^^^ b) / 2) = _
    rw [xor_mod_two, xor_div_two, ih]
    show _ = ((a % 2) ^^^ parityN w (a / 2)) ^^^ ((b % 2) ^^^ parityN w (b / 2))
    rw [Nat.xor_assoc, Nat.xor_assoc]
    congr 1
    rw [← Nat.xor_assoc, ← Nat.xor_assoc, Nat.xor_comm (parityN w (a / 2)) (b % 2)]

theorem rowParity_xor (bytes : List Nat) (sIn : Nat) (x y : Nat) (i : Nat) :
    ∀ j, rowParity bytes sIn (x ^^^ y) i j =
      rowParity bytes sIn x i j ^^^ rowParity bytes sIn y i j := by
  intro j
  induction j with
  | zero => simp [rowParity]
  | succ j ih =>
    show rowParity bytes sIn (x ^^^ y) i j ^^^ _ = _
    rw [ih]
    have hbyte : ((x ^^^ y) >>> (8 * (sIn - 1 - j))) &&& 255 =
        ((x >>> (8 * (sIn - 1 - j))) &&& 255) ^^^ ((y >>> (8 * (sIn - 1 - j))) &&& 255) := by
      rw [← Nat.and_xor_distrib_right]
      congr 1
      apply Nat.eq_of_testBit_eq
      intro t
      simp [Nat.testBit_shiftRight, Nat.testBit_xor]
    rw [hbyte, Nat.and_xor_distrib_left, parityN_xor]
    show _ = (rowParity bytes sIn x i j ^^^ _) ^^^ (rowParity bytes sIn y i j ^^^ _)
    generalize rowParity bytes sIn x i j = A
    generalize rowParity bytes sIn y i j = B
    generalize parityN 8 (bytes.getD (i * sIn + j) 0 &&& (x >>> (8 * (sIn - 1 - j)) &&& 255)) = P
    generalize parityN 8 (bytes.getD (i * sIn + j) 0 &&& (y >>> (8 * (sIn - 1 - j)) &&& 255)) = Q
    rw [Nat.xor_assoc, Nat.xor_assoc]
    congr 1
    rw [← Nat.xor_assoc, ← Nat.xor_assoc, Nat.xor_comm B P]

theorem xor_le_one {pa pb : Nat} (hpa : pa ≤ 1) (hpb : pb ≤ 1) : pa ^^^ pb ≤ 1 := by
  interval_cases pa <;> interval_cases pb <;> decide

theorem rowParity_le_one (bytes : List Nat) (sIn vec i : Nat) :
    ∀ j, rowParity bytes sIn vec i j ≤ 1 := by
  intro j
  induction j with
  | zero => exact Nat.zero_le 1
  | succ j ih =>
    exact xor_le_one ih (parityN_le_one 8 _)

theorem le_one_testBit {p : Nat} (hp : p ≤ 1) (i : Nat) (hi : 1 ≤ i) :
    p.testBit i = false := by
  apply Nat.testBit_eq_false_of_lt
  calc p < 2 := by omega
  _ = 2 ^ 1 := by norm_num
  _ ≤ 2 ^ i := Nat.pow_le_pow_right (by decide) hi

theorem shift_or_xor_step (W a b pa pb : Nat) (hpa : pa ≤ 1) (hpb : pb ≤ 1) :
    (((a <<< 1) % 2 ^ W) ||| pa) ^^^ (((b <<< 1) % 2 ^ W) ||| pb) =
      (((a ^^^ b) <<< 1) % 2 ^ W) ||| (pa ^^^ pb) := by
  apply Nat.eq_of_testBit_eq
  intro i
  simp only [Nat.testBit_xor, Nat.testBit_or, Nat.testBit_mod_two_pow, Nat.testBit_shiftLeft]
  match i with
  | 0 =>
    simp
  | i + 1 =>
    rw [le_one_testBit hpa (i + 1) (by omega), le_one_testBit hpb (i + 1) (by omega)]
    cases hW : decide (i + 1 < W) <;>
      cases ha : a.testBit (i + 1 - 1) <;> cases hb : b.testBit (i + 1 - 1) <;> simp_all

theorem calcProdAux_xor (bytes : List Nat) (sIn W x y : Nat) :
    ∀ rows, calcProdAux bytes sIn W (x ^^^ y) rows =
      calcProdAux bytes sIn W x rows ^^^ calcProdAux bytes sIn W y rows := by
  intro rows
  induction rows with
  | zero => simp [calcProdAux]
  | succ n ih =>
    show (((calcProdAux bytes sIn W (x ^^^ y) n) <<< 1) % 2 ^ W) |||
        rowParity bytes sIn (x ^^^ y) n sIn = _
    rw [ih, rowParity_xor]
    rw [← shift_or_xor_step W _ _ _ _ (rowParity_le_one bytes sIn x n sIn)
      (rowParity_le_one bytes sIn y n sIn)]
    rfl

theorem calcProduct_xor (bytes : List Nat) (rows sIn W x y : Nat) :
    calcProduct bytes rows sIn W (x ^^^ y) =
      calcProduct bytes rows sIn W x ^^^ calcProduct bytes rows sIn W y :=
  calcProdAux_xor bytes sIn W x y rows

/-- Linearity of `calculateSyndrome` over XOR of codewords. -/
theorem calculateSyndrome_xor (c : BlockCodeM) (x y : Nat) :
    calculateSyndrome c (x ^^^ y) = calculateSyndrome c x ^^^ calculateSyndrome c y :=
  calcProduct_xor c.parityCheck c.synLen (c.cwLen / 8) c.synLen x y

/-! ### Claim C4: decode failures are reported only by return value -/

/-- All candidate error masks scanned by `fixCodeword`, in scan order
(weights 1 up to `MaxCorrectedErrors`, each weight in enumeration
order). -/
def allMasks (c : BlockCodeM) : List Nat :=
  (List.range' 1 c.maxCorrectedErrors).flatMap
    (fun a => bmcMasks c.cwLen (2 ^ c.cwLen) (bmcInit a))

/-- The first scanned mask whose syndrome matches `s`. -/
def firstMatchingMask (c : BlockCodeM) (s : Nat) : Option Nat :=
  (allMasks c).find? (fun m => calculateSyndrome c m = s)

theorem fixLoop_eq_find (c : BlockCodeM) (cw s : Nat) : ∀ (attempts : List Nat),
    fixLoop c cw s attempts =
      match (attempts.flatMap (fun a => bmcMasks c.cwLen (2 ^ c.cwLen) (bmcInit a))).find?
          (fun m => calculateSyndrome c m = s) with
      | none => (0, false, [])
      | some m =>
        if calculateSyndrome c (cw ^^^ m) = 0 then (cw ^^^ m, true, [])
        else (0, false, ["unfixable error detected."]) := by
  intro attempts
  induction attempts with
  | nil => rfl
  | cons a rest ih =>
    show fixLoop c cw s (a :: rest) = _
    rw [List.flatMap_cons, List.find?_append]
    show (match fixAttempt c cw s a with
          | some r => r
          | none => fixLoop c cw s rest) = _
    unfold fixAttempt
    cases hfind : (bmcMasks c.cwLen (2 ^ c.cwLen) (bmcInit a)).find?
        (fun m => calculateSyndrome c m = s) with
    | none =>
      simp only [hfind, Option.none_or]
      exact ih
    | some m =>
      simp only [hfind, Option.or_some]
      by_cases hfix : calculateSyndrome c (cw ^^^ m) = 0 <;> simp [hfix]

theorem fixCodeword_eq_find (c : BlockCodeM) (cw s : Nat) :
    fixCodeword c cw s =
      match firstMatchingMask c s with
      | none => (0, false, [])
      | some m =>
        if calculateSyndrome c (cw ^^^ m) = 0 then (cw ^^^ m, true, [])
        else (0, false, ["unfixable error detected."]) :=
  fixLoop_eq_find c cw s (List.range' 1 c.maxCorrectedErrors)

/-- Claim C4: for every block code and every codeword `cw` with non-zero
syndrome, if (a) no scanned mask (weights 1 to MaxCorrectedErrors) has a
syndrome equal to `cw`'s syndrome, or (b) the first mask with a matching
syndrome yields a corrected word whose syndrome is still non-zero, then
`decode` returns (0, false), and it reports the failure only through the
returned pair: nothing is written out of band (the log component is
empty).  Case (b) is vacuous: by linearity of the syndrome it contradicts
the matching-syndrome property of the mask. -/
theorem blockcode_decode_fails_only_by_return (c : BlockCodeM) (cw : Nat)
    (hs : calculateSyndrome c cw ≠ 0)
    (hab : firstMatchingMask c (calculateSyndrome c cw) = none ∨
      (∃ m, firstMatchingMask c (calculateSyndrome c cw) = some m ∧
        calculateSyndrome c (cw ^^^ m) ≠ 0)) :
    bcDecode c cw = (0, false, []) := by
  rcases hab with hnone | ⟨m, hsome, hbad⟩
  · unfold bcDecode
    rw [if_neg hs, fixCodeword_eq_find, hnone]
  · exfalso
    apply hbad
    have hmatch : calculateSyndrome c m = calculateSyndrome c cw := by
      have := List.find?_some hsome
      simpa using this
    rw [calculateSyndrome_xor, hmatch, Nat.xor_self]

/-- A small block code used to witness C4 case (a): `MaxCorrectedErrors =
1`, 8-bit codewords, parity check the 8x8 identity.  Codeword 3 has
syndrome 3, which no weight-1 mask matches. -/
def identityParityCode : BlockCodeM where
  maxCorrectedErrors := 1
  cwLen := 8
  srcLen := 8
  synLen := 8
  generator := [0, 0, 0, 0, 0, 0, 0, 0]
  parityCheck := [128, 64, 32, 16, 8, 4, 2, 1]
  decoder := [0, 0, 0, 0, 0, 0, 0, 0]

/-- Witness for C4 at `identityParityCode` and codeword 3. -/
theorem blockcode_decode_fails_only_by_return_witness :
    (calculateSyndrome identityParityCode 3 ≠ 0 ∧
      firstMatchingMask identityParityCode (calculateSyndrome identityParityCode 3) = none) ∧
    bcDecode identityParityCode 3 = (0, false, []) :=
  ⟨⟨by decide, by decide⟩,
    blockcode_decode_fails_only_by_return identityParityCode 3 (by decide)
      (Or.inl (by decide))⟩

/-! ### Claim C5: the bitmask combination enumeration

Specification layer for `BitmaskCombination`: `lexSucc` is the
lexicographic successor of a position vector (positions counted from 0 at
the MSB, ascending), and `combosAux L lo n` is the lexicographically
ordered list of all strictly increasing n-element position vectors drawn
from `[lo, L)`. -/

/-- Lexicographic successor of a position vector over width `L`: the
rightmost position that is not at its maximum is incremented, and all
positions to its right are reset to consecutive values above it. -/
def lexSucc (L : Nat) : List Nat → Option (List Nat)
| [] => none
| s :: t =>
  match lexSucc L t with
  | some t2 => some (s :: t2)
  | none =>
    if s = L - (t.length + 1) then none
    else some (List.range' (s + 1) (t.length + 1))

/-- Replace positions `j` onwards of an n-element vector by the run
starting just above position `j`. -/
def bumpAt (x : List Nat) (n j : Nat) : List Nat :=
  x.take j ++ List.range' (x.getD j 0 + 1) (n - j)

/-- The largest index `j ≤ i` whose position is not at its maximum
`L - (n - j)`. -/
def rightmostBumpable (L n : Nat) (x : List Nat) : Nat → Option Nat
| 0 => if x.getD 0 0 = L - n then none else some 0
| i + 1 =>
  if x.getD (i + 1) 0 = L - (n - (i + 1)) then rightmostBumpable L n x i
  else some (i + 1)

/-- All strictly increasing `n`-element position vectors over `[lo, L)`,
in lexicographic order. -/
def combosAux (L : Nat) : Nat → Nat → List (List Nat)
| _, 0 => [[]]
| lo, n + 1 =>
  (List.range' lo (L - lo - n)).flatMap
    (fun s => (combosAux L (s + 1) n).map (s :: ·))

/-- All strictly increasing `k`-element position vectors over `[0, L)`,
in lexicographic order. -/
def combos (L k : Nat) : List (List Nat) := combosAux L 0 k

theorem combosAux_peel (L lo n : Nat) (h : lo + n < L) :
    combosAux L lo (n + 1) =
      ((combosAux L (lo + 1) n).map (lo :: ·)) ++ combosAux L (lo + 1) (n + 1) := by
  show (List.range' lo (L - lo - n)).flatMap _ = _
  have hM : L - lo - n = (L - (lo + 1) - n) + 1 := by omega
  rw [hM, List.range'_succ, List.flatMap_cons]
  rfl

theorem combosAux_length (L : Nat) :
    ∀ d lo n, L - lo = d → (combosAux L lo n).length = Nat.choose d n := by
  intro d
  induction d with
  | zero =>
    intro lo n hd
    match n with
    | 0 => simp [combosAux]
    | n + 1 =>
      have : L - lo - n = 0 := by omega
      simp [combosAux, this]
  | succ d ih =>
    intro lo n hd
    match n with
    | 0 => simp [combosAux]
    | n + 1 =>
      by_cases hn : lo + n < L
      · rw [combosAux_peel L lo n hn]
        rw [List.length_append, List.length_map]
        rw [ih (lo + 1) n (by omega), ih (lo + 1) (n + 1) (by omega)]
        rw [Nat.choose_succ_succ]
      · have : L - lo - n = 0 := by omega
        show ((List.range' lo (L - lo - n)).flatMap _).length = _
        rw [this]
        simp [Nat.choose_eq_zero_of_lt (by omega : d + 1 < n + 1)]

theorem getD_set (x : List Nat) (a v j : Nat) :
    (x.set a v).getD j 0 = if j = a ∧ j < x.length then v else x.getD j 0 := by
  induction x generalizing a j with
  | nil => simp [List.getD]
  | cons h t ih =>
    match a, j with
    | 0, 0 => simp [List.set]
    | 0, j + 1 => simp [List.set, List.getD]
    | a + 1, 0 => simp [List.set, List.getD]
    | a + 1, j + 1 =>
      show (t.set a v).getD j 0 = _
      rw [ih a j]
      by_cases hja : j = a ∧ j < t.length
      · rw [if_pos hja, if_pos (by constructor <;> [omega; simpa using hja.2])]
      · rw [if_neg hja, if_neg (by
          intro hcon
          exact hja ⟨by omega, by have := hcon.2; simpa using this⟩)]
        simp [List.getD]

theorem list_eq_of_getD (x y : List Nat) (hlen : x.length = y.length)
    (h : ∀ j, j < x.length → x.getD j 0 = y.getD j 0) : x = y := by
  apply List.ext_getElem hlen
  intro j h1 h2
  have := h j h1
  rwa [List.getD_eq_getElem x 0 h1, List.getD_eq_getElem y 0 h2] at this

theorem foldl_set_length (start : Nat) :
    ∀ (l : List Nat) (x : List Nat),
      (l.foldl (fun x k => x.set (start + k) (x.getD (start + k - 1) 0 + 1)) x).length =
        x.length := by
  intro l
  induction l with
  | nil => intro x; rfl
  | cons k rest ih =>
    intro x
    rw [List.foldl_cons, ih]
    exact List.length_set x _ _

theorem bmcFix_length (n : Nat) (x : List Nat) (start : Nat) :
    (bmcFix n x start).length = x.length := by
  unfold bmcFix
  exact foldl_set_length start (List.range (n - start)) x

theorem foldl_chain_getD (start : Nat) (hs : 1 ≤ start) :
    ∀ (cnt : Nat) (x : List Nat) (j : Nat),
      ((List.range cnt).foldl
        (fun x k => x.set (start + k) (x.getD (start + k - 1) 0 + 1)) x).getD j 0 =
      if start ≤ j ∧ j < start + cnt ∧ j < x.length then
        x.getD (start - 1) 0 + (j - start) + 1
      else x.getD j 0 := by
  intro cnt
  induction cnt with
  | zero =>
    intro x j
    rw [if_neg (by omega)]
    rfl
  | succ cnt ih =>
    intro x j
    rw [List.range_succ, List.foldl_append, List.foldl_cons, List.foldl_nil]
    rw [getD_set, foldl_set_length, ih x j, ih x (start + cnt - 1)]
    by_cases hc : cnt = 0
    · subst hc
      simp only [Nat.add_zero]
      split_ifs <;> omega
    · split_ifs <;> omega

theorem bmcFix_getD (n : Nat) (x : List Nat) (start : Nat) (hs : 1 ≤ start) (j : Nat) :
    (bmcFix n x start).getD j 0 =
      if start ≤ j ∧ j < n ∧ j < x.length then x.getD (start - 1) 0 + (j - start) + 1
      else x.getD j 0 := by
  unfold bmcFix
  rw [foldl_chain_getD start hs (n - start) x j]
  by_cases h1 : start ≤ j ∧ j < start + (n - start) ∧ j < x.length
  · rw [if_pos h1, if_pos ⟨h1.1, by omega, h1.2.2⟩]
  · rw [if_neg h1, if_neg (by
      intro h2
      exact h1 ⟨h2.1, by omega, h2.2.2⟩)]

theorem rightmostBumpable_le (L n : Nat) (x : List Nat) :
    ∀ i j, rightmostBumpable L n x i = some j → j ≤ i := by
  intro i
  induction i with
  | zero =>
    intro j h
    unfold rightmostBumpable at h
    by_cases hc : x.getD 0 0 = L - n
    · rw [if_pos hc] at h; cases h
    · rw [if_neg hc] at h; cases h; omega
  | succ i ih =>
    intro j h
    unfold rightmostBumpable at h
    by_cases hc : x.getD (i + 1) 0 = L - (n - (i + 1))
    · rw [if_pos hc] at h
      exact Nat.le_succ_of_le (ih j h)
    · rw [if_neg hc] at h; cases h; omega

theorem rightmostBumpable_congr (L n : Nat) (x y : List Nat) :
    ∀ i, (∀ j, j ≤ i → x.getD j 0 = y.getD j 0) →
      rightmostBumpable L n x i = rightmostBumpable L n y i := by
  intro i
  induction i with
  | zero =>
    intro h
    unfold rightmostBumpable
    rw [h 0 (by omega)]
  | succ i ih =>
    intro h
    unfold rightmostBumpable
    rw [h (i + 1) (by omega), ih (fun j hj => h j (by omega))]

theorem getD_append (a b : List Nat) (j : Nat) :
    (a ++ b).getD j 0 = if j < a.length then a.getD j 0 else b.getD (j - a.length) 0 := by
  rw [List.getD_eq_getElem?_getD, List.getD_eq_getElem?_getD, List.getD_eq_getElem?_getD]
  by_cases h : j < a.length
  · rw [if_pos h, List.getElem?_append_left h]
  · rw [if_neg h, List.getElem?_append_right (by omega)]

theorem getD_range' (s len j : Nat) (h : j < len) :
    (List.range' s len).getD j 0 = s + j := by
  rw [List.getD_eq_getElem (List.range' s len) 0 (by simpa using h)]
  exact List.getElem_range'_1 j _

theorem getD_take (x : List Nat) (j t : Nat) (h : t < j) :
    (x.take j).getD t 0 = x.getD t 0 := by
  rw [List.getD_eq_getElem?_getD, List.getD_eq_getElem?_getD, List.getElem?_take_of_lt h]

theorem take_eq_of_getD (x y : List Nat) (j : Nat) (hx : j ≤ x.length)
    (hy : j ≤ y.length) (h : ∀ t, t < j → x.getD t 0 = y.getD t 0) :
    x.take j = y.take j := by
  apply list_eq_of_getD
  · rw [List.length_take, List.length_take]
    omega
  · intro t ht
    rw [List.length_take] at ht
    have htj : t < j := by omega
    rw [getD_take x j t htj, getD_take y j t htj]
    exact h t htj

/-- The advancing loop of `BitmaskCombination::next` bumps the rightmost
position that is not at its maximum and resets all later positions to the
run just above it, provided the positions beyond the entry index already
form such a run (vacuously true at the top-level entry `i = n - 1`). -/
theorem advLoop_spec (L n : Nat) :
    ∀ i x, x.length = n → i < n →
    (∀ j, i < j → j < n → x.getD j 0 = x.getD i 0 + (j - i) + 1) →
    bmcAdvLoop L n i x = (rightmostBumpable L n x i).map (fun j => bumpAt x n j) := by
  intro i
  induction i with
  | zero =>
    intro x hlen hin hchain
    show (if x.getD 0 0 = L - n then none else some (x.set 0 (x.getD 0 0 + 1))) = _
    unfold rightmostBumpable
    by_cases h0 : x.getD 0 0 = L - n
    · rw [if_pos h0, if_pos h0]
      rfl
    · rw [if_neg h0, if_neg h0]
      show some _ = some (bumpAt x n 0)
      congr 1
      unfold bumpAt
      rw [List.take_zero, List.nil_append]
      apply list_eq_of_getD
      · rw [List.length_set, List.length_range']
        omega
      · intro j hj
        rw [List.length_set, hlen] at hj
        rw [getD_set, getD_range' _ _ j (by omega)]
        by_cases hj0 : j = 0
        · subst hj0
          rw [if_pos ⟨rfl, by omega⟩]
        · rw [if_neg (by intro hcon; exact hj0 hcon.1)]
          rw [hchain j (by omega) (by omega)]
          omega
  | succ i ih =>
    intro x hlen hin hchain
    show (if x.getD (i + 1) 0 = L - (n - (i + 1)) then
        bmcAdvLoop L n i (bmcFix n (x.set (i + 1) (x.getD i 0 + 2)) (i + 2))
      else some (x.set (i + 1) (x.getD (i + 1) 0 + 1))) = _
    unfold rightmostBumpable
    by_cases hmax : x.getD (i + 1) 0 = L - (n - (i + 1))
    · rw [if_pos hmax, if_pos hmax]
      set x2 := bmcFix n (x.set (i + 1) (x.getD i 0 + 2)) (i + 2) with hx2
      have hx2len : x2.length = n := by
        rw [hx2, bmcFix_length, List.length_set, hlen]
      have hx2getD : ∀ j, j < n →
          x2.getD j 0 = if j ≤ i then x.getD j 0
            else x.getD i 0 + (j - i) + 1 := by
        intro j hj
        rw [hx2, bmcFix_getD n _ (i + 2) (by omega) j, getD_set, getD_set]
        have hset : (x.set (i + 1) (x.getD i 0 + 2)).length = n := by
          rw [List.length_set, hlen]
        rw [hset]
        split_ifs <;> omega
      have hchain2 : ∀ j, i < j → j < n →
          x2.getD j 0 = x2.getD i 0 + (j - i) + 1 := by
        intro j h1 h2
        rw [hx2getD j h2, hx2getD i (by omega), if_neg (by omega), if_pos (le_refl i)]
      have heq := ih x2 hx2len (by omega) hchain2
      rw [heq]
      have hrb : rightmostBumpable L n x2 i = rightmostBumpable L n x i := by
        apply rightmostBumpable_congr
        intro j hj
        rw [hx2getD j (by omega), if_pos hj]
      rw [hrb]
      cases hr : rightmostBumpable L n x i with
      | none => rfl
      | some j =>
        have hji : j ≤ i := rightmostBumpable_le L n x i j hr
        show some (bumpAt x2 n j) = some (bumpAt x n j)
        congr 1
        unfold bumpAt
        rw [hx2getD j (by omega), if_pos hji]
        congr 1
        apply take_eq_of_getD x2 x j (by omega) (by omega)
        intro t ht
        rw [hx2getD t (by omega), if_pos (by omega)]
    · rw [if_neg hmax, if_neg hmax]
      show some _ = some (bumpAt x n (i + 1))
      congr 1
      unfold bumpAt
      apply list_eq_of_getD
      · rw [List.length_set, List.length_append, List.length_take, List.length_range']
        omega
      · intro t ht
        rw [List.length_set, hlen] at ht
        rw [getD_set, getD_append, List.length_take]
        have hmin : min (i + 1) x.length = i + 1 := by omega
        rw [hmin]
        by_cases ht1 : t < i + 1
        · rw [if_neg (by omega), if_pos ht1, getD_take x (i + 1) t ht1]
        · by_cases ht2 : t = i + 1
          · subst ht2
            rw [if_pos ⟨rfl, by omega⟩, if_neg (by omega),
              getD_range' _ _ _ (by omega)]
            omega
          · rw [if_neg (by intro hcon; exact ht2 hcon.1), if_neg (by omega),
              getD_range' _ _ _ (by omega), hchain t (by omega) (by omega)]
            omega

theorem rb_cons (L : Nat) (s : Nat) (t : List Nat) :
    ∀ i, rightmostBumpable L (t.length + 1) (s :: t) (i + 1) =
      match rightmostBumpable L t.length t i with
      | some j => some (j + 1)
      | none => if s = L - (t.length + 1) then none else some 0 := by
  intro i
  induction i with
  | zero =>
    show (if (s :: t).getD 1 0 = L - (t.length + 1 - 1) then
        (if (s :: t).getD 0 0 = L - (t.length + 1) then none else some 0)
      else some 1) = _
    rw [List.getD_cons_succ, List.getD_cons_zero,
      show t.length + 1 - 1 = t.length from by omega,
      show rightmostBumpable L t.length t 0 =
        (if t.getD 0 0 = L - t.length then none else some 0) from rfl]
    by_cases hc : t.getD 0 0 = L - t.length
    · rw [if_pos hc, if_pos hc]
    · rw [if_neg hc, if_neg hc]
  | succ i ih =>
    show (if (s :: t).getD (i + 2) 0 = L - (t.length + 1 - (i + 2)) then
        rightmostBumpable L (t.length + 1) (s :: t) (i + 1) else some (i + 2)) = _
    rw [List.getD_cons_succ, ih]
    have h1 : t.length + 1 - (i + 2) = t.length - (i + 1) := by omega
    rw [h1]
    show _ = (match (if t.getD (i + 1) 0 = L - (t.length - (i + 1)) then
        rightmostBumpable L t.length t i else some (i + 1)) with
      | some j => some (j + 1)
      | none => if s = L - (t.length + 1) then none else some 0)
    by_cases hc : t.getD (i + 1) 0 = L - (t.length - (i + 1))
    · rw [if_pos hc, if_pos hc]
    · rw [if_neg hc, if_neg hc]

theorem bumpAt_cons (s : Nat) (t : List Nat) (j : Nat) :
    bumpAt (s :: t) (t.length + 1) (j + 1) = s :: bumpAt t t.length j := by
  unfold bumpAt
  rw [List.take_succ_cons, List.getD_cons_succ]
  have h1 : t.length + 1 - (j + 1) = t.length - j := by omega
  rw [h1, List.cons_append]

theorem lexSucc_spec (L : Nat) :
    ∀ x : List Nat, x ≠ [] →
      lexSucc L x =
        (rightmostBumpable L x.length x (x.length - 1)).map
          (fun j => bumpAt x x.length j) := by
  intro x
  induction x with
  | nil => intro hx; exact absurd rfl hx
  | cons s t ih =>
    intro hx
    match t, ih with
    | [], _ =>
      show (match (none : Option (List Nat)) with
            | some t2 => some (s :: t2)
            | none => if s = L - 1 then none else some (List.range' (s + 1) 1)) = _
      unfold rightmostBumpable
      by_cases hc : s = L - 1
      · rw [if_pos hc]
        rw [show ([s] : List Nat).getD 0 0 = s from rfl]
        rw [if_pos (by simpa using hc)]
        rfl
      · rw [if_neg hc]
        rw [show ([s] : List Nat).getD 0 0 = s from rfl]
        rw [if_neg (by simpa using hc)]
        show some _ = some (bumpAt [s] 1 0)
        unfold bumpAt
        rfl
    | u :: v, ih =>
      have htne : (u :: v : List Nat) ≠ [] := by simp
      have iht := ih htne
      show (match lexSucc L (u :: v) with
            | some t2 => some (s :: t2)
            | none => if s = L - ((u :: v).length + 1) then none
                      else some (List.range' (s + 1) ((u :: v).length + 1))) = _
      have hlen1 : (u :: v).length + 1 - 1 = ((u :: v).length - 1) + 1 := by
        simp
      rw [show (s :: u :: v).length = (u :: v).length + 1 from rfl, hlen1,
        rb_cons L s (u :: v) ((u :: v).length - 1)]
      cases hr : rightmostBumpable L (u :: v).length (u :: v) ((u :: v).length - 1) with
      | some j =>
        rw [iht, hr]
        show some (s :: bumpAt (u :: v) (u :: v).length j) = _
        rw [← bumpAt_cons s (u :: v) j]
        rfl
      | none =>
        rw [iht, hr]
        show (if s = L - ((u :: v).length + 1) then none
              else some (List.range' (s + 1) ((u :: v).length + 1))) = _
        by_cases hc : s = L - ((u :: v).length + 1)
        · rw [if_pos hc, if_pos hc]
          rfl
        · rw [if_neg hc, if_neg hc]
          show some _ = some (bumpAt (s :: u :: v) ((u :: v).length + 1) 0)
          unfold bumpAt
          rw [List.take_zero, List.nil_append, List.getD_cons_zero, Nat.sub_zero]

/-- The advancement loop of `BitmaskCombination::next` computes exactly
the lexicographic successor of the position vector. -/
theorem bmcAdvLoop_eq_lexSucc (L : Nat) (x : List Nat) (hx : x ≠ []) :
    bmcAdvLoop L x.length (x.length - 1) x = lexSucc L x := by
  have hlen : 0 < x.length := List.length_pos.mpr hx
  rw [lexSucc_spec L x hx]
  exact advLoop_spec L x.length (x.length - 1) x rfl (by omega)
    (fun j h1 h2 => by omega)

theorem combosAux_ne_nil (L lo n : Nat) (h : lo + n ≤ L) : combosAux L lo n ≠ [] := by
  intro hnil
  have hlen := combosAux_length L (L - lo) lo n rfl
  rw [hnil] at hlen
  simp only [List.length_nil] at hlen
  have := Nat.choose_eq_zero_iff.mp hlen.symm
  omega

theorem combosAux_head (L : Nat) :
    ∀ n lo, lo + n ≤ L → (combosAux L lo n).head? = some (List.range' lo n) := by
  intro n
  induction n with
  | zero => intro lo h; rfl
  | succ n ih =>
    intro lo h
    rw [combosAux_peel L lo n (by omega)]
    rw [List.head?_append]
    have hne := combosAux_ne_nil L (lo + 1) n (by omega)
    have hh := ih (lo + 1) (by omega)
    rw [List.head?_map, hh]
    rw [List.range'_succ]
    rfl

theorem combosAux_getLast (L : Nat) :
    ∀ n lo, lo + n ≤ L →
      (combosAux L lo n).getLast? = some (List.range' (L - n) n) := by
  intro n
  induction n with
  | zero => intro lo h; rfl
  | succ n ih =>
    intro lo h
    have hd : L - lo - (n + 1) + lo = L - (n + 1) := by omega
    -- induction on the number of blocks after the first
    have main : ∀ d lo2, lo2 + (n + 1) ≤ L → L - lo2 - (n + 1) = d →
        (combosAux L lo2 (n + 1)).getLast? = some (List.range' (L - (n + 1)) (n + 1)) := by
      intro d
      induction d with
      | zero =>
        intro lo2 h2 hd2
        rw [combosAux_peel L lo2 n (by omega)]
        have hempty : combosAux L (lo2 + 1) (n + 1) = [] := by
          by_contra hne
          have hlen := combosAux_length L (L - (lo2 + 1)) (lo2 + 1) (n + 1) rfl
          have hch : Nat.choose (L - (lo2 + 1)) (n + 1) ≠ 0 := by
            intro h0
            rw [h0] at hlen
            exact hne (List.eq_nil_of_length_eq_zero hlen)
          have := Nat.choose_eq_zero_iff (k := n + 1) (n := L - (lo2 + 1))
          omega
        rw [hempty, List.append_nil, List.getLast?_map, ih (lo2 + 1) (by omega)]
        show some (lo2 :: List.range' (L - n) n) = some (List.range' (L - (n + 1)) (n + 1))
        rw [List.range'_succ, show L - (n + 1) + 1 = L - n from by omega,
          show lo2 = L - (n + 1) from by omega]
      | succ d ihd =>
        intro lo2 h2 hd2
        rw [combosAux_peel L lo2 n (by omega)]
        have hne := combosAux_ne_nil L (lo2 + 1) (n + 1) (by omega)
        rw [List.getLast?_append_of_ne_nil _ hne]
        exact ihd (lo2 + 1) (by omega) (by omega)
    exact main (L - lo - (n + 1)) lo h rfl

/-- The maximal position vector has no successor. -/
theorem lexSucc_max (L : Nat) : ∀ n, n ≤ L → lexSucc L (List.range' (L - n) n) = none := by
  intro n
  induction n with
  | zero => intro h; rfl
  | succ n ih =>
    intro h
    have hrange : List.range' (L - (n + 1)) (n + 1) =
        (L - (n + 1)) :: List.range' (L - n) n := by
      rw [List.range'_succ, show L - (n + 1) + 1 = L - n from by omega]
    rw [hrange]
    show (match lexSucc L (List.range' (L - n) n) with
          | some t2 => some ((L - (n + 1)) :: t2)
          | none =>
            if L - (n + 1) = L - ((List.range' (L - n) n).length + 1) then none
            else some (List.range' (L - (n + 1) + 1) ((List.range' (L - n) n).length + 1))) = none
    rw [ih (by omega)]
    rw [List.length_range']
    rw [if_pos rfl]

theorem lexSucc_cons_some (L s : Nat) (a b : List Nat) (h : lexSucc L a = some b) :
    lexSucc L (s :: a) = some (s :: b) := by
  show (match lexSucc L a with
        | some t2 => some (s :: t2)
        | none => if s = L - (a.length + 1) then none
                  else some (List.range' (s + 1) (a.length + 1))) = some (s :: b)
  rw [h]

theorem chain_map_cons (L s : Nat) (l : List (List Nat))
    (hl : List.Chain' (fun a b => lexSucc L a = some b) l) :
    List.Chain' (fun a b => lexSucc L a = some b) (l.map (s :: ·)) := by
  apply List.chain'_map_of_chain' (s :: ·) ?_ hl
  intro a b hab
  exact lexSucc_cons_some L s a b hab

theorem combosAux_chain (L : Nat) :
    ∀ n lo, lo + n ≤ L →
      List.Chain' (fun a b => lexSucc L a = some b) (combosAux L lo n) := by
  intro n
  induction n with
  | zero => intro lo h; exact List.chain'_singleton []
  | succ n ih =>
    intro lo h
    have main : ∀ d lo2, lo2 + (n + 1) ≤ L → L - lo2 - (n + 1) = d →
        List.Chain' (fun a b => lexSucc L a = some b) (combosAux L lo2 (n + 1)) := by
      intro d
      induction d with
      | zero =>
        intro lo2 h2 hd2
        rw [combosAux_peel L lo2 n (by omega)]
        have hempty : combosAux L (lo2 + 1) (n + 1) = [] := by
          have hlen := combosAux_length L (L - (lo2 + 1)) (lo2 + 1) (n + 1) rfl
          have : Nat.choose (L - (lo2 + 1)) (n + 1) = 0 :=
            Nat.choose_eq_zero_of_lt (by omega)
          rw [this] at hlen
          exact List.eq_nil_of_length_eq_zero hlen
        rw [hempty, List.append_nil]
        exact chain_map_cons L lo2 _ (ih (lo2 + 1) (by omega))
      | succ d ihd =>
        intro lo2 h2 hd2
        rw [combosAux_peel L lo2 n (by omega)]
        apply List.Chain'.append
        · exact chain_map_cons L lo2 _ (ih (lo2 + 1) (by omega))
        · exact ihd (lo2 + 1) (by omega) (by omega)
        · intro a ha b hb
          rw [List.getLast?_map, combosAux_getLast L n (lo2 + 1) (by omega)] at ha
          rw [combosAux_head L (n + 1) (lo2 + 1) (by omega)] at hb
          have ha2 : lo2 :: List.range' (L - n) n = a := by
            have : (some (lo2 :: List.range' (L - n) n) : Option (List Nat)) = some a := ha
            exact Option.some_inj.mp this
          have hb2 : List.range' (lo2 + 1) (n + 1) = b := by
            have : (some (List.range' (lo2 + 1) (n + 1)) : Option (List Nat)) = some b := hb
            exact Option.some_inj.mp this
          subst ha2
          subst hb2
          show lexSucc L (lo2 :: List.range' (L - n) n) = some (List.range' (lo2 + 1) (n + 1))
          show (match lexSucc L (List.range' (L - n) n) with
                | some t2 => some (lo2 :: t2)
                | none =>
                  if lo2 = L - ((List.range' (L - n) n).length + 1) then none
                  else some (List.range' (lo2 + 1) ((List.range' (L - n) n).length + 1))) = _
          rw [lexSucc_max L n (by omega), List.length_range']
          rw [if_neg (by omega)]
    exact main (L - lo - (n + 1)) lo h rfl

/-- Every member of `combosAux L lo n` is an `n`-element strictly
increasing vector with entries in `[lo, L)`. -/
theorem combosAux_mem (L : Nat) :
    ∀ n lo x, x ∈ combosAux L lo n →
      x.length = n ∧ List.Pairwise (· < ·) x ∧ ∀ e ∈ x, lo ≤ e ∧ e < L := by
  intro n
  induction n with
  | zero =>
    intro lo x hx
    have hx2 : x ∈ ([[]] : List (List Nat)) := hx
    rw [List.mem_singleton] at hx2
    subst hx2
    simp
  | succ n ih =>
    intro lo x hx
    unfold combosAux at hx
    rw [List.mem_flatMap] at hx
    obtain ⟨s, hs, hx⟩ := hx
    rw [List.mem_map] at hx
    obtain ⟨y, hy, hxy⟩ := hx
    subst hxy
    obtain ⟨hylen, hysort, hybound⟩ := ih (s + 1) y hy
    rw [List.mem_range'] at hs
    obtain ⟨i, hi, hsi⟩ := hs
    refine ⟨by simp [hylen], ?_, ?_⟩
    · rw [List.pairwise_cons]
      exact ⟨fun e he => by have := (hybound e he).1; omega, hysort⟩
    · intro e he
      rcases List.mem_cons.mp he with he | he
      · subst he
        constructor
        · omega
        · omega
      · have := hybound e he
        omega

theorem currentMask_foldl_acc (L : Nat) :
    ∀ (x : List Nat) (acc : Nat),
      x.foldl (fun a xi => a ||| (1 <<< (L - xi - 1))) acc =
        acc ||| x.foldl (fun a xi => a ||| (1 <<< (L - xi - 1))) 0 := by
  intro x
  induction x with
  | nil => intro acc; simp
  | cons xi rest ih =>
    intro acc
    rw [List.foldl_cons, List.foldl_cons, ih (acc ||| 1 <<< (L - xi - 1)),
      ih (0 ||| 1 <<< (L - xi - 1)), Nat.zero_or, Nat.or_assoc]

theorem currentMask_cons (L xi : Nat) (rest : List Nat) :
    currentMask L (xi :: rest) = (1 <<< (L - xi - 1)) ||| currentMask L rest := by
  unfold currentMask
  rw [List.foldl_cons, Nat.zero_or, currentMask_foldl_acc]

theorem currentMask_testBit (L : Nat) :
    ∀ (x : List Nat) (t : Nat),
      (currentMask L x).testBit t = x.any (fun xi => decide (t = L - xi - 1)) := by
  intro x
  induction x with
  | nil => intro t; simp [currentMask]
  | cons xi rest ih =>
    intro t
    rw [currentMask_cons, Nat.testBit_or, ih, Nat.one_shiftLeft, Nat.testBit_two_pow]
    simp [eq_comm]

theorem mod_two_of_testBit_false {m : Nat} (h : m.testBit 0 = false) : m % 2 = 0 := by
  rw [Nat.testBit_zero] at h
  simpa using h

theorem or_two_pow_div_two (e m : Nat) :
    (2 ^ (e + 1) ||| m) / 2 = 2 ^ e ||| m / 2 := by
  have h2 : ∀ z : Nat, z / 2 = z >>> 1 := fun z => (Nat.shiftRight_one z).symm
  rw [h2, h2]
  apply Nat.eq_of_testBit_eq
  intro i
  simp only [Nat.testBit_shiftRight, Nat.testBit_or, Nat.testBit_two_pow]
  congr 1
  apply decide_eq_decide.mpr
  constructor <;> intro h <;> omega

theorem popcountN_or_two_pow (w : Nat) :
    ∀ e m, e < w → m.testBit e = false →
      popcountN w (2 ^ e ||| m) = popcountN w m + 1 := by
  induction w with
  | zero => intro e m he; omega
  | succ w ih =>
    intro e m he hbit
    match e with
    | 0 =>
      show (2 ^ 0 ||| m) % 2 + popcountN w ((2 ^ 0 ||| m) / 2) = m % 2 + popcountN w (m / 2) + 1
      have hm2 : m % 2 = 0 := mod_two_of_testBit_false hbit
      have h1 : (2 ^ 0 ||| m) % 2 = 1 := by
        have hb : (2 ^ 0 ||| m).testBit 0 = true := by
          simp [Nat.testBit_or]
        rw [Nat.testBit_zero] at hb
        exact of_decide_eq_true hb
      have h3 : (2 ^ 0 ||| m) / 2 = m / 2 := by
        have h4 : ∀ z : Nat, z / 2 = z >>> 1 := fun z => (Nat.shiftRight_one z).symm
        rw [h4, h4]
        apply Nat.eq_of_testBit_eq
        intro i
        have h5 : (1 : Nat).testBit (1 + i) = false :=
          Nat.testBit_eq_false_of_lt (Nat.one_lt_two_pow (by omega))
        simp [Nat.testBit_shiftRight, Nat.testBit_or, h5]
      rw [h1, h3, hm2]
      omega
    | e + 1 =>
      show (2 ^ (e + 1) ||| m) % 2 + popcountN w ((2 ^ (e + 1) ||| m) / 2) = _
      have h1 : (2 ^ (e + 1) ||| m) % 2 = m % 2 := by
        rw [← Nat.and_one_is_mod, ← Nat.and_one_is_mod]
        apply Nat.eq_of_testBit_eq
        intro i
        simp only [Nat.testBit_and, Nat.testBit_or, Nat.testBit_two_pow]
        match i with
        | 0 => simp
        | i + 1 =>
          have h5 : (1 : Nat).testBit (i + 1) = false :=
            Nat.testBit_eq_false_of_lt (Nat.one_lt_two_pow (by omega))
          simp [h5]
      rw [h1, or_two_pow_div_two]
      have hbit2 : (m / 2).testBit e = false := by
        have h4 : m / 2 = m >>> 1 := (Nat.shiftRight_one m).symm
        rw [h4, Nat.testBit_shiftRight]
        have : 1 + e = e + 1 := by omega
        rw [this]
        exact hbit
      rw [ih e (m / 2) (by omega) hbit2]
      show m % 2 + (popcountN w (m / 2) + 1) = m % 2 + popcountN w (m / 2) + 1
      omega

/-- A valid position vector (strictly increasing, entries below `L`). -/
def validCombo (L : Nat) (x : List Nat) : Prop :=
  List.Pairwise (· < ·) x ∧ ∀ e ∈ x, e < L

theorem popcountN_zero (w : Nat) : popcountN w 0 = 0 := by
  induction w with
  | zero => rfl
  | succ w ih => simp [popcountN, ih]

theorem currentMask_popcount (L : Nat) :
    ∀ x : List Nat, validCombo L x → popcountN L (currentMask L x) = x.length := by
  intro x
  induction x with
  | nil =>
    intro hv
    show popcountN L 0 = 0
    exact popcountN_zero L
  | cons xi rest ih =>
    intro hv
    obtain ⟨hsort, hbound⟩ := hv
    rw [List.pairwise_cons] at hsort
    have hrest : validCombo L rest :=
      ⟨hsort.2, fun e he => hbound e (List.mem_cons_of_mem xi he)⟩
    have hxiL : xi < L := hbound xi (List.mem_cons_self xi rest)
    have hfresh : (currentMask L rest).testBit (L - xi - 1) = false := by
      rw [currentMask_testBit]
      rw [List.any_eq_false]
      intro xj hxj
      have h1 := hsort.1 xj hxj
      have h2 : xj < L := hbound xj (List.mem_cons_of_mem xi hxj)
      simp only [decide_eq_true_eq]
      omega
    rw [currentMask_cons, Nat.one_shiftLeft,
      popcountN_or_two_pow L (L - xi - 1) (currentMask L rest) (by omega) hfresh,
      ih hrest]
    rfl

theorem currentMask_lt (L : Nat) :
    ∀ x : List Nat, validCombo L x → currentMask L x < 2 ^ L := by
  intro x
  induction x with
  | nil =>
    intro hv
    show 0 < 2 ^ L
    exact Nat.pos_pow_of_pos L (by decide)
  | cons xi rest ih =>
    intro hv
    obtain ⟨hsort, hbound⟩ := hv
    rw [List.pairwise_cons] at hsort
    have hrest : validCombo L rest :=
      ⟨hsort.2, fun e he => hbound e (List.mem_cons_of_mem xi he)⟩
    rw [currentMask_cons, Nat.one_shiftLeft]
    apply Nat.or_lt_two_pow _ (ih hrest)
    apply Nat.pow_lt_pow_right (by decide)
    have := hbound xi (List.mem_cons_self xi rest)
    omega

theorem currentMask_ne_zero (L : Nat) (x : List Nat) (hv : validCombo L x)
    (hne : x ≠ []) : currentMask L x ≠ 0 := by
  intro h0
  match x, hne with
  | xi :: rest, _ =>
    have hb : (currentMask L (xi :: rest)).testBit (L - xi - 1) = true := by
      rw [currentMask_testBit]
      rw [List.any_eq_true]
      exact ⟨xi, List.mem_cons_self xi rest, by simp⟩
    rw [h0, Nat.zero_testBit] at hb
    cases hb

theorem currentMask_inj (L : Nat) :
    ∀ x y : List Nat, validCombo L x → validCombo L y →
      currentMask L x = currentMask L y → x = y := by
  have hmem : ∀ (x : List Nat), validCombo L x → ∀ e,
      (e ∈ x ↔ (currentMask L x).testBit (L - e - 1) = true ∧ e < L) := by
    intro x hv e
    rw [currentMask_testBit, List.any_eq_true]
    constructor
    · intro he
      exact ⟨⟨e, he, by simp⟩, hv.2 e he⟩
    · rintro ⟨⟨xj, hxj, hdec⟩, heL⟩
      simp only [decide_eq_true_eq] at hdec
      have hxjL : xj < L := hv.2 xj hxj
      have : e = xj := by omega
      rwa [this]
  intro x y hvx hvy hmask
  have hiff : ∀ e, e ∈ x ↔ e ∈ y := by
    intro e
    rw [hmem x hvx e, hmem y hvy e, hmask]
  have hnodupx : x.Nodup := hvx.1.nodup
  have hnodupy : y.Nodup := hvy.1.nodup
  have hperm : x.Perm y := (List.perm_ext_iff_of_nodup hnodupx hnodupy).mpr hiff
  exact List.eq_of_perm_of_sorted hperm hvx.1 hvy.1

/-- The combos list is lexicographically strictly ordered. -/
theorem combosAux_pairwise_lex (L : Nat) :
    ∀ n lo, List.Pairwise (List.Lex (· < ·)) (combosAux L lo n) := by
  intro n
  induction n with
  | zero =>
    intro lo
    show List.Pairwise _ [[]]
    simp
  | succ n ih =>
    intro lo
    have main : ∀ d lo2, L - lo2 - (n + 1) = d →
        List.Pairwise (List.Lex (· < ·)) (combosAux L lo2 (n + 1)) := by
      intro d
      induction d with
      | zero =>
        intro lo2 hd2
        by_cases hle : lo2 + (n + 1) ≤ L
        · rw [combosAux_peel L lo2 n (by omega)]
          have hempty : combosAux L (lo2 + 1) (n + 1) = [] := by
            have hlen := combosAux_length L (L - (lo2 + 1)) (lo2 + 1) (n + 1) rfl
            have : Nat.choose (L - (lo2 + 1)) (n + 1) = 0 :=
              Nat.choose_eq_zero_of_lt (by omega)
            rw [this] at hlen
            exact List.eq_nil_of_length_eq_zero hlen
          rw [hempty, List.append_nil]
          exact (ih (lo2 + 1)).map _ (fun a b hab => List.Lex.cons hab)
        · have : L - lo2 - n = 0 := by omega
          show List.Pairwise _ ((List.range' lo2 (L - lo2 - n)).flatMap _)
          rw [this]
          simp
      | succ d ihd =>
        intro lo2 hd2
        rw [combosAux_peel L lo2 n (by omega)]
        rw [List.pairwise_append]
        refine ⟨(ih (lo2 + 1)).map _ (fun a b hab => List.Lex.cons hab),
          ihd (lo2 + 1) (by omega), ?_⟩
        intro a ha b hb
        rw [List.mem_map] at ha
        obtain ⟨a0, ha0, haeq⟩ := ha
        subst haeq
        obtain ⟨hblen, hbsort, hbbound⟩ := combosAux_mem L (n + 1) (lo2 + 1) b hb
        match b, hblen with
        | b0 :: brest, _ =>
          have hb0 : lo2 + 1 ≤ b0 :=
            (hbbound b0 (List.mem_cons_self b0 brest)).1
          exact List.Lex.rel (by omega)
    exact main (L - lo - (n + 1)) lo rfl

theorem lex_irrefl_nat : ∀ x : List Nat, ¬ List.Lex (· < ·) x x := by
  intro x
  induction x with
  | nil => intro h; cases h
  | cons a rest ih =>
    intro h
    cases h with
    | cons h => exact ih h
    | rel h => omega

/-- The stream of the first `j` values returned by successive `next()`
calls on a `BitmaskCombination`. -/
def bmcOutputs (L : Nat) (st : BmcState) : Nat → List Nat
| 0 => []
| j + 1 => (bmcNext L st).1 :: bmcOutputs L (bmcNext L st).2 j

theorem bmcOutputs_done (L : Nat) :
    ∀ j (st : BmcState), st.done = true → bmcOutputs L st j = List.replicate j 0 := by
  intro j
  induction j with
  | zero => intro st h; rfl
  | succ j ih =>
    intro st h
    show (bmcNext L st).1 :: bmcOutputs L (bmcNext L st).2 j = _
    have hnext : bmcNext L st = (0, st) := by
      unfold bmcNext
      rw [if_pos h]
    rw [hnext]
    show 0 :: bmcOutputs L st j = _
    rw [ih st h, List.replicate_succ]

theorem bmcNext_live (L k : Nat) (x : List Nat) (hne : x ≠ []) (hlen : x.length = k) :
    bmcNext L ⟨k, x, false⟩ =
      (currentMask L x,
        match lexSucc L x with
        | some x2 => ⟨k, x2, false⟩
        | none => ⟨k, x, true⟩) := by
  unfold bmcNext
  rw [if_neg (by simp)]
  show (match bmcAdvLoop L k (k - 1) x with
        | none => (currentMask L x, (⟨k, x, true⟩ : BmcState))
        | some x2 => (currentMask L x, (⟨k, x2, false⟩ : BmcState))) = _
  rw [← hlen, bmcAdvLoop_eq_lexSucc L x hne]
  cases lexSucc L x <;> rfl

theorem take_append_replicate (A : List Nat) (j m : Nat) (h : j ≤ A.length + m) :
    (A ++ List.replicate m 0).take j = A.take j ++ List.replicate (j - A.length) 0 := by
  rw [List.take_append_eq_append_take, List.take_replicate]
  congr 1
  congr 1
  omega

theorem bmcStream_run (L k : Nat) :
    ∀ (cs : List (List Nat)) (c : List Nat),
      List.Chain' (fun a b => lexSucc L a = some b) (c :: cs) →
      (∀ y ∈ c :: cs, y.length = k ∧ y ≠ []) →
      lexSucc L ((c :: cs).getLast (by simp)) = none →
      ∀ j, bmcOutputs L ⟨k, c, false⟩ j =
        (((c :: cs).map (currentMask L)) ++ List.replicate j 0).take j := by
  intro cs
  induction cs with
  | nil =>
    intro c hchain hmem hlast j
    match j with
    | 0 => rfl
    | j + 1 =>
      obtain ⟨hclen, hcne⟩ := hmem c (List.mem_cons_self c [])
      show (bmcNext L ⟨k, c, false⟩).1 :: bmcOutputs L (bmcNext L ⟨k, c, false⟩).2 j = _
      rw [bmcNext_live L k c hcne hclen]
      have hlast2 : lexSucc L c = none := hlast
      rw [hlast2]
      show currentMask L c :: bmcOutputs L ⟨k, c, true⟩ j = _
      rw [bmcOutputs_done L j ⟨k, c, true⟩ rfl]
      show _ = ((currentMask L c :: []) ++ List.replicate (j + 1) 0).take (j + 1)
      rw [List.cons_append, List.nil_append, List.take_succ_cons, List.take_replicate]
      congr 2
      omega
  | cons c2 rest ih =>
    intro c hchain hmem hlast j
    match j with
    | 0 => rfl
    | j + 1 =>
      obtain ⟨hclen, hcne⟩ := hmem c (List.mem_cons_self c (c2 :: rest))
      have hadj : lexSucc L c = some c2 := (List.chain'_cons.mp hchain).1
      show (bmcNext L ⟨k, c, false⟩).1 :: bmcOutputs L (bmcNext L ⟨k, c, false⟩).2 j = _
      rw [bmcNext_live L k c hcne hclen, hadj]
      show currentMask L c :: bmcOutputs L ⟨k, c2, false⟩ j = _
      have hchain2 : List.Chain' (fun a b => lexSucc L a = some b) (c2 :: rest) :=
        (List.chain'_cons.mp hchain).2
      have hmem2 : ∀ y ∈ c2 :: rest, y.length = k ∧ y ≠ [] :=
        fun y hy => hmem y (List.mem_cons_of_mem c hy)
      have hlast2 : lexSucc L ((c2 :: rest).getLast (by simp)) = none := by
        have : (c :: c2 :: rest).getLast (by simp) = (c2 :: rest).getLast (by simp) :=
          List.getLast_cons (by simp)
        rw [← this]
        exact hlast
      rw [ih c2 hchain2 hmem2 hlast2 j]
      show _ = ((currentMask L c :: (c2 :: rest).map (currentMask L)) ++
        List.replicate (j + 1) 0).take (j + 1)
      rw [List.cons_append, List.take_succ_cons]
      congr 1
      rw [take_append_replicate _ j (j + 1) (by omega),
        take_append_replicate _ j j (by omega)]

theorem bmcInit_live (k : Nat) (hk : k ≠ 0) :
    bmcInit k = ⟨k, List.range' 0 k, false⟩ := by
  unfold bmcInit
  rw [List.range_eq_range']
  congr 1
  exact decide_eq_false hk

/-- Claim C5: for a width-`L` enumerator constructed with weight `k`
(`k ≤ L`; the C++ additionally asserts `k ≤ MaxN`, which only sizes the
position array): successive `next()` calls return the masks of the
lexicographically ordered list `combos L k` of ascending position
vectors, and 0 forever afterwards; that list has exactly `C(L, k)`
members; the masks are pairwise distinct `L`-bit values of popcount
exactly `k`; the list is in strict lexicographic order of the position
vectors (positions numbered from 0 at the MSB, the mask of a vector being
the union of `1 <<< (L - x[i] - 1)`); and for `k = 0` the enumeration is
empty - every `next()` returns 0 from the start. -/
theorem bitmask_combination_enumeration (L k : Nat) (hkL : k ≤ L) :
    (∀ j, bmcOutputs L (bmcInit k) j =
      (((combos L k).map (currentMask L)) ++ List.replicate j 0).take j) ∧
    (combos L k).length = Nat.choose L k ∧
    ((combos L k).map (currentMask L)).Nodup ∧
    (∀ x ∈ combos L k, x.length = k ∧ List.Pairwise (· < ·) x ∧ (∀ e ∈ x, e < L) ∧
      popcountN L (currentMask L x) = k ∧ currentMask L x < 2 ^ L) ∧
    List.Pairwise (List.Lex (· < ·)) (combos L k) ∧
    (k = 0 → ∀ j, bmcOutputs L (bmcInit k) j = List.replicate j 0) := by
  have hmemprops : ∀ x ∈ combos L k, x.length = k ∧ List.Pairwise (· < ·) x ∧
      (∀ e ∈ x, e < L) ∧ popcountN L (currentMask L x) = k ∧ currentMask L x < 2 ^ L := by
    intro x hx
    obtain ⟨hlen, hsort, hbound⟩ := combosAux_mem L k 0 x hx
    have hv : validCombo L x := ⟨hsort, fun e he => (hbound e he).2⟩
    exact ⟨hlen, hsort, fun e he => (hbound e he).2,
      by rw [currentMask_popcount L x hv, hlen], currentMask_lt L x hv⟩
  refine ⟨?_, ?_, ?_, hmemprops, combosAux_pairwise_lex L k 0, ?_⟩
  · intro j
    by_cases hk0 : k = 0
    · subst hk0
      rw [bmcOutputs_done L j (bmcInit 0) rfl]
      show List.replicate j 0 = ((0 : Nat) :: List.replicate j 0).take j
      rw [show ((0 : Nat) :: List.replicate j 0) = List.replicate (j + 1) 0 from
        (List.replicate_succ 0 j).symm]
      rw [List.take_replicate]
      congr 1
      omega
    · have hne := combosAux_ne_nil L 0 k (by omega)
      obtain ⟨c, cs, hccs⟩ : ∃ c cs, combos L k = c :: cs := by
        cases hcombos : combos L k with
        | nil => exact absurd hcombos hne
        | cons c cs => exact ⟨c, cs, rfl⟩
      have hhead := combosAux_head L k 0 (by omega)
      rw [show combosAux L 0 k = combos L k from rfl, hccs] at hhead
      have hc : c = List.range' 0 k := by
        have : (some c : Option (List Nat)) = some (List.range' 0 k) := hhead
        exact Option.some_inj.mp this
      have hlast0 := combosAux_getLast L k 0 (by omega)
      rw [show combosAux L 0 k = combos L k from rfl, hccs] at hlast0
      have hlastval : (c :: cs).getLast (by simp) = List.range' (L - k) k := by
        have h1 : (c :: cs).getLast? = some ((c :: cs).getLast (by simp)) :=
          List.getLast?_eq_getLast (c :: cs) (by simp)
        rw [h1] at hlast0
        exact Option.some_inj.mp hlast0
      rw [bmcInit_live k hk0, ← hc, hccs]
      apply bmcStream_run L k cs c
      · rw [← hccs]
        exact combosAux_chain L k 0 (by omega)
      · intro y hy
        rw [← hccs] at hy
        have := (hmemprops y hy).1
        constructor
        · exact this
        · intro hynil
          rw [hynil] at this
          simp at this
          omega
      · rw [hlastval]
        exact lexSucc_max L k hkL
  · have := combosAux_length L L 0 k (by omega)
    simpa using this
  · have hpl := combosAux_pairwise_lex L k 0
    have hne2 : List.Pairwise (fun a b => currentMask L a ≠ currentMask L b)
        (combos L k) := by
      apply hpl.imp_of_mem
      intro a b ha hb hlex hmask
      obtain ⟨_, hasort, habound⟩ := combosAux_mem L k 0 a ha
      obtain ⟨_, hbsort, hbbound⟩ := combosAux_mem L k 0 b hb
      have hab : a = b := currentMask_inj L a b
        ⟨hasort, fun e he => (habound e he).2⟩
        ⟨hbsort, fun e he => (hbbound e he).2⟩ hmask
      subst hab
      exact lex_irrefl_nat a hlex
    show List.Pairwise (· ≠ ·) _
    rw [List.pairwise_map]
    exact hne2
  · intro hk0 j
    subst hk0
    exact bmcOutputs_done L j (bmcInit 0) rfl

/-- Witness for C5 at width 4, weight 2. -/
theorem bitmask_combination_enumeration_witness :
    2 ≤ 4 ∧
    ((∀ j, bmcOutputs 4 (bmcInit 2) j =
      (((combos 4 2).map (currentMask 4)) ++ List.replicate j 0).take j) ∧
    (combos 4 2).length = Nat.choose 4 2 ∧
    ((combos 4 2).map (currentMask 4)).Nodup ∧
    (∀ x ∈ combos 4 2, x.length = 2 ∧ List.Pairwise (· < ·) x ∧ (∀ e ∈ x, e < 4) ∧
      popcountN 4 (currentMask 4 x) = 2 ∧ currentMask 4 x < 2 ^ 4) ∧
    List.Pairwise (List.Lex (· < ·)) (combos 4 2) ∧
    (2 = 0 → ∀ j, bmcOutputs 4 (bmcInit 2) j = List.replicate j 0)) :=
  ⟨by decide, bitmask_combination_enumeration 4 2 (by decide)⟩

/-! ### Claim C1: the block-code round trip

`fixCodeword` draws its candidate masks from `bmcMasks`; relate that
stream to the `combos` specification layer of C5, then analyse the Golay
instantiation through its single-bit syndrome table. -/

theorem bmcMasks_done (L : Nat) :
    ∀ fuel (st : BmcState), st.done = true → bmcMasks L fuel st = [] := by
  intro fuel
  match fuel with
  | 0 => intro st h; rfl
  | f + 1 =>
    intro st h
    have hnext : bmcNext L st = (0, st) := by
      unfold bmcNext
      rw [if_pos h]
    show (match bmcNext L st with
          | (0, _) => []
          | (m, st2) => m :: bmcMasks L f st2) = []
    rw [hnext]

/-- Running `bmcMasks` from a live state along a `lexSucc` chain of
combinations with non-zero masks yields exactly the mask of every
combination in the chain, provided the fuel outlasts the chain. -/
theorem bmcMasks_live_run (L k : Nat) :
    ∀ (cs : List (List Nat)) (c : List Nat) (fuel : Nat),
      List.Chain' (fun a b => lexSucc L a = some b) (c :: cs) →
      (∀ y ∈ c :: cs, y.length = k ∧ y ≠ [] ∧ currentMask L y ≠ 0) →
      lexSucc L ((c :: cs).getLast (by simp)) = none →
      cs.length < fuel →
      bmcMasks L fuel ⟨k, c, false⟩ = (c :: cs).map (currentMask L) := by
  intro cs
  induction cs with
  | nil =>
    intro c fuel hchain hmem hlast hfuel
    obtain ⟨f, rfl⟩ : ∃ f, fuel = f + 1 := ⟨fuel - 1, by omega⟩
    obtain ⟨hclen, hcne, hcnz⟩ := hmem c (List.mem_cons_self c [])
    obtain ⟨m2, hm2⟩ : ∃ m2, currentMask L c = m2 + 1 :=
      ⟨currentMask L c - 1, by omega⟩
    show (match bmcNext L ⟨k, c, false⟩ with
          | (0, _) => []
          | (m, st2) => m :: bmcMasks L f st2) = _
    rw [bmcNext_live L k c hcne hclen]
    have hlast2 : lexSucc L c = none := hlast
    rw [hlast2, hm2]
    show (m2 + 1) :: bmcMasks L f ⟨k, c, true⟩ = _
    rw [bmcMasks_done L f ⟨k, c, true⟩ rfl, List.map_cons, List.map_nil, ← hm2]
  | cons c2 rest ih =>
    intro c fuel hchain hmem hlast hfuel
    obtain ⟨f, rfl⟩ : ∃ f, fuel = f + 1 := ⟨fuel - 1, by omega⟩
    obtain ⟨hclen, hcne, hcnz⟩ := hmem c (List.mem_cons_self c (c2 :: rest))
    obtain ⟨m2, hm2⟩ : ∃ m2, currentMask L c = m2 + 1 :=
      ⟨currentMask L c - 1, by omega⟩
    have hadj : lexSucc L c = some c2 := (List.chain'_cons.mp hchain).1
    show (match bmcNext L ⟨k, c, false⟩ with
          | (0, _) => []
          | (m, st2) => m :: bmcMasks L f st2) = _
    rw [bmcNext_live L k c hcne hclen, hadj, hm2]
    show (m2 + 1) :: bmcMasks L f ⟨k, c2, false⟩ = _
    have hchain2 : List.Chain' (fun a b => lexSucc L a = some b) (c2 :: rest) :=
      (List.chain'_cons.mp hchain).2
    have hmem2 : ∀ y ∈ c2 :: rest, y.length = k ∧ y ≠ [] ∧ currentMask L y ≠ 0 :=
      fun y hy => hmem y (List.mem_cons_of_mem c hy)
    have hlast2 : lexSucc L ((c2 :: rest).getLast (by simp)) = none := by
      have hgl : (c :: c2 :: rest).getLast (by simp) = (c2 :: rest).getLast (by simp) :=
        List.getLast_cons (by simp)
      rw [← hgl]
      exact hlast
    have hfuel2 : rest.length < f := by
      simp only [List.length_cons] at hfuel
      omega
    rw [ih c2 f hchain2 hmem2 hlast2 hfuel2, List.map_cons, ← hm2]
    simp

/-- With enough fuel, the mask stream of a weight-`k` enumerator is
exactly the mask of every combination of `combos L k`, in order. -/
theorem bmcMasks_eq_combos (L k fuel : Nat) (hk1 : 1 ≤ k) (hkL : k ≤ L)
    (hfuel : Nat.choose L k ≤ fuel) :
    bmcMasks L fuel (bmcInit k) = (combos L k).map (currentMask L) := by
  have hne := combosAux_ne_nil L 0 k (by omega)
  obtain ⟨c, cs, hccs⟩ : ∃ c cs, combos L k = c :: cs := by
    cases hcombos : combos L k with
    | nil => exact absurd hcombos hne
    | cons c cs => exact ⟨c, cs, rfl⟩
  have hhead := combosAux_head L k 0 (by omega)
  rw [show combosAux L 0 k = combos L k from rfl, hccs] at hhead
  have hc : c = List.range' 0 k := by
    have h1 : (some c : Option (List Nat)) = some (List.range' 0 k) := hhead
    exact Option.some_inj.mp h1
  have hlast0 := combosAux_getLast L k 0 (by omega)
  rw [show combosAux L 0 k = combos L k from rfl, hccs] at hlast0
  have hlastval : (c :: cs).getLast (by simp) = List.range' (L - k) k := by
    have h1 : (c :: cs).getLast? = some ((c :: cs).getLast (by simp)) :=
      List.getLast?_eq_getLast (c :: cs) (by simp)
    rw [h1] at hlast0
    exact Option.some_inj.mp hlast0
  have hlen : (c :: cs).length = Nat.choose L k := by
    rw [← hccs]
    have := combosAux_length L L 0 k (by omega)
    simpa using this
  have hmem : ∀ y ∈ c :: cs, y.length = k ∧ y ≠ [] ∧ currentMask L y ≠ 0 := by
    intro y hy
    rw [← hccs] at hy
    obtain ⟨hylen, hysort, hybound⟩ := combosAux_mem L k 0 y hy
    have hyne : y ≠ [] := by
      intro h0
      rw [h0] at hylen
      simp at hylen
      omega
    exact ⟨hylen, hyne,
      currentMask_ne_zero L y ⟨hysort, fun e he => (hybound e he).2⟩ hyne⟩
  rw [bmcInit_live k (by omega), ← hc, hccs]
  apply bmcMasks_live_run L k cs c fuel
  · rw [← hccs]
    exact combosAux_chain L k 0 (by omega)
  · exact hmem
  · rw [hlastval]
    exact lexSucc_max L k hkL
  · have h2 : cs.length + 1 = Nat.choose L k := by
      simpa using hlen
    omega

/-- The syndrome of each single-bit mask `1 <<< (32 - t - 1)` under the
Golay parity check with uninitialized tail bytes `[0, 0, 0, 1]`, indexed
by the bit position `t` counted from the MSB. -/
def golaySynTable : List Nat :=
  [0, 0, 0, 0, 0, 0, 0, 0,
   5090, 2548, 1274, 4732, 6458, 7324, 7754, 7972,
   3986, 1996, 2734, 5462, 4096, 2048, 1024, 512,
   256, 128, 64, 32, 16, 8, 4, 3]

/-- XOR of the single-bit syndromes of a position vector. -/
def foldSyn (x : List Nat) : Nat :=
  x.foldr (fun xi acc => golaySynTable.getD xi 0 ^^^ acc) 0

theorem golaySynTable_correct : ∀ t, t < 32 →
    golaySynTable.getD t 0 =
      calculateSyndrome (golayCode [0, 0, 0, 1]) (1 <<< (32 - t - 1)) := by
  decide

theorem golaySynTable_nm1 : ∀ a, a < 32 →
    golaySynTable.getD a 0 ^^^ 0 ≠ 1 := by
  decide

theorem golaySynTable_nm2 : ∀ a, a < 32 → ∀ b, b < 32 →
    golaySynTable.getD a 0 ^^^ (golaySynTable.getD b 0 ^^^ 0) ≠ 1 := by
  decide

theorem golaySynTable_nm3 : ∀ a, a < 32 → ∀ b, b < 32 → ∀ c, c < 32 →
    golaySynTable.getD a 0 ^^^
      (golaySynTable.getD b 0 ^^^ (golaySynTable.getD c 0 ^^^ 0)) ≠ 1 := by
  decide

theorem two_pow_or_eq_xor (e m : Nat) (h : m.testBit e = false) :
    2 ^ e ||| m = 2 ^ e ^^^ m := by
  apply Nat.eq_of_testBit_eq
  intro i
  rw [Nat.testBit_or, Nat.testBit_xor, Nat.testBit_two_pow]
  by_cases hie : e = i
  · subst hie
    rw [h]
    simp
  · simp [hie]

/-- By linearity, the syndrome of the mask of a valid position vector is
the XOR of the tabulated single-bit syndromes of its positions. -/
theorem syndrome_currentMask :
    ∀ x : List Nat, validCombo 32 x →
      calculateSyndrome (golayCode [0, 0, 0, 1]) (currentMask 32 x) = foldSyn x := by
  intro x
  induction x with
  | nil => intro _; decide
  | cons xi rest ih =>
    intro hv
    have hvrest : validCombo 32 rest :=
      ⟨(List.pairwise_cons.mp hv.1).2, fun e he => hv.2 e (List.mem_cons_of_mem xi he)⟩
    have hxi32 : xi < 32 := hv.2 xi (List.mem_cons_self xi rest)
    have hfresh : (currentMask 32 rest).testBit (32 - xi - 1) = false := by
      rw [currentMask_testBit]
      rw [List.any_eq_false]
      intro xj hxj
      have hlt : xi < xj := (List.pairwise_cons.mp hv.1).1 xj hxj
      have hxj32 : xj < 32 := hv.2 xj (List.mem_cons_of_mem xi hxj)
      simp only [decide_eq_true_eq]
      omega
    rw [currentMask_cons, Nat.one_shiftLeft, two_pow_or_eq_xor _ _ hfresh,
      calculateSyndrome_xor, ih hvrest, ← Nat.one_shiftLeft,
      ← golaySynTable_correct xi hxi32]
    rfl

theorem foldSyn_ne_one_len1 (x : List Nat) (hlen : x.length = 1)
    (hb : ∀ e ∈ x, e < 32) : foldSyn x ≠ 1 := by
  match x, hlen with
  | [a0], _ => exact golaySynTable_nm1 a0 (hb a0 (by simp))

theorem foldSyn_ne_one_len2 (x : List Nat) (hlen : x.length = 2)
    (hb : ∀ e ∈ x, e < 32) : foldSyn x ≠ 1 := by
  match x, hlen with
  | [a0, b0], _ =>
    exact golaySynTable_nm2 a0 (hb a0 (by simp)) b0 (hb b0 (by simp))

theorem foldSyn_ne_one_len3 (x : List Nat) (hlen : x.length = 3)
    (hb : ∀ e ∈ x, e < 32) : foldSyn x ≠ 1 := by
  match x, hlen with
  | [a0, b0, c0], _ =>
    exact golaySynTable_nm3 a0 (hb a0 (by simp)) b0 (hb b0 (by simp))
      c0 (hb c0 (by simp))

/-- No mask of weight 1, 2 or 3 over 32 bits has syndrome 1 under the
Golay parity check with tail bytes `[0, 0, 0, 1]`, so the scan of
`fixCodeword` finds no candidate for a codeword of syndrome 1. -/
theorem firstMatchingMask_golay_tail1 :
    firstMatchingMask (golayCode [0, 0, 0, 1]) 1 = none := by
  rw [firstMatchingMask, List.find?_eq_none]
  intro m hm
  have hm2 : m ∈ (List.range' 1 3).flatMap
      (fun a => bmcMasks 32 (2 ^ 32) (bmcInit a)) := hm
  rw [List.mem_flatMap] at hm2
  obtain ⟨a, ha, hma⟩ := hm2
  have ha3 : a = 1 ∨ a = 2 ∨ a = 3 := by
    have h1 : a ∈ [1, 2, 3] := ha
    simpa using h1
  have hfuel : Nat.choose 32 a ≤ 2 ^ 32 := by
    rcases ha3 with rfl | rfl | rfl <;> decide
  rw [bmcMasks_eq_combos 32 a (2 ^ 32) (by omega) (by omega) hfuel] at hma
  rw [List.mem_map] at hma
  obtain ⟨x, hx, rfl⟩ := hma
  obtain ⟨hlen, hsort, hbound⟩ := combosAux_mem 32 a 0 x hx
  have hv : validCombo 32 x := ⟨hsort, fun e he => (hbound e he).2⟩
  simp only [decide_eq_true_eq]
  rw [show calculateSyndrome (golayCode [0, 0, 0, 1]) (currentMask 32 x) = foldSyn x
    from syndrome_currentMask x hv]
  rcases ha3 with rfl | rfl | rfl
  · exact foldSyn_ne_one_len1 x hlen (fun e he => hv.2 e he)
  · exact foldSyn_ne_one_len2 x hlen (fun e he => hv.2 e he)
  · exact foldSyn_ne_one_len3 x hlen (fun e he => hv.2 e he)

/-- The Hamming(7,4) half of the round-trip claim does hold: every
source block of test_hamming.cpp decodes back, clean or under any of the
weight-1 masks over 7 bits that its `BitmaskCombination<uint8_t, 1, 7>`
produces. -/
theorem hamming_roundtrip_weight_le_one :
    ∀ s ∈ List.range 16,
      bcDecode hammingCode (bcEncode hammingCode s) = (s, true, []) ∧
      ∀ m ∈ bmcMasks 7 128 (bmcInit 1),
        bcDecode hammingCode (bcEncode hammingCode s ^^^ m) = (s, true, []) := by
  decide

/-- Claim C1 (code bug in golay.h): the initializer list of the Golay
parity-check matrix supplies only 60 of its 64 bytes, leaving the last
four bytes of the matrix - row 15 - uninitialized, and
`BinaryMatrix`'s initializer-list constructor does not zero its storage.
Whenever those bytes are not all zero the round trip breaks with no
errors injected at all: with tail bytes `[0, 0, 0, 1]` the clean codeword
of source block 1 already has syndrome 1, no correction mask of weight up
to 3 can match it, and `decode(encode(1))` returns `(0, false)` instead
of `(1, true)`.  With an all-zero tail the same round trip succeeds, so
the test passes or fails depending on the contents of uninitialized
memory. -/
theorem golay_roundtrip_fails_with_uninitialized_row :
    bcDecode (golayCode [0, 0, 0, 1]) (bcEncode (golayCode [0, 0, 0, 1]) 1) =
      (0, false, []) ∧
    bcDecode (golayCode [0, 0, 0, 0]) (bcEncode (golayCode [0, 0, 0, 0]) 1) =
      (1, true, []) := by
  constructor
  · have hsyn : calculateSyndrome (golayCode [0, 0, 0, 1])
        (bcEncode (golayCode [0, 0, 0, 1]) 1) = 1 := by decide
    show (let s := calculateSyndrome (golayCode [0, 0, 0, 1])
            (bcEncode (golayCode [0, 0, 0, 1]) 1)
          if s = 0 then
            (bcDecodeProduct (golayCode [0, 0, 0, 1])
              (bcEncode (golayCode [0, 0, 0, 1]) 1), true, [])
          else
            match fixCodeword (golayCode [0, 0, 0, 1])
                (bcEncode (golayCode [0, 0, 0, 1]) 1) s with
            | (cw, true, log) => (bcDecodeProduct (golayCode [0, 0, 0, 1]) cw, true, log)
            | (_, false, log) => (0, false, log)) = (0, false, [])
    rw [hsyn, if_neg (by decide), fixCodeword_eq_find, firstMatchingMask_golay_tail1]
  · decide

/-! ### Claim C8: BitPacker / BitUnpacker (bitpacker.h)

`BitPacker<TBlock, blockSizeInBits, affectedByteCount>` with
`TBlock = uint32_t`; `B` is `blockSizeInBits`, `A` is
`affectedByteCount`.  The byte buffer is a map `Nat → Nat` (the test's
buffers are zero-initialized).  `uint32_t` subtractions are modelled as
`(… + 2 ^ 32 - …) % 2 ^ 32`; byte stores truncate with `% 256`. -/

structure BpState where
  shift : Nat
  pos : Nat
  buf : Nat → Nat

/-- The staging bytes `x[i]` of `BitPacker::pack`: `x[i] = block >>
(sh & 0xff)` with `sh = blockSizeInBits - i*8 - shift_` for `i < l`, and
`x[l] = (block << (l*8 - blockSizeInBits + shift_)) & 0xff`. -/
def bpPackX (B A s block i : Nat) : Nat :=
  if i = A - 1 then (block <<< ((8 * (A - 1) + 2 ^ 32 - B + s) % 2 ^ 32)) % 256
  else (block >>> (((B + 2 ^ 32 - (8 * i + s)) % 2 ^ 32) % 256)) % 256

/-- The output loop of `BitPacker::pack` over `i = 1, …,
affectedByteCount - 1`: store `x[i]` at the cursor and advance it except
at the last byte. -/
def packLoop (A : Nat) (x : Nat → Nat) : List Nat → Nat × (Nat → Nat) → Nat × (Nat → Nat)
| [], acc => acc
| i :: rest, acc =>
  packLoop A x rest
    (if i ≠ A - 1 then (acc.1 + 1, updByte acc.2 acc.1 (x i))
     else (acc.1, updByte acc.2 acc.1 (x i)))

/-- Models `BitPacker::pack(block)`. -/
def bpPack (B A : Nat) (st : BpState) (block : Nat) : BpState :=
  let x := bpPackX B A st.shift block
  let st1 : BpState :=
    if st.shift ≠ 0 then
      ⟨st.shift, st.pos + 1, updByte st.buf st.pos (st.buf st.pos ||| x 0)⟩
    else st
  let fin := packLoop A x (List.range' 1 (A - 1)) (st1.pos, st1.buf)
  ⟨(st.shift + 1) % 8, fin.1, fin.2⟩

/-- Pack a whole block sequence into a zeroed buffer through successive
`pack` calls. -/
def bpPackAll (B A : Nat) (blocks : List Nat) : BpState :=
  blocks.foldl (bpPack B A) ⟨0, 0, fun _ => 0⟩

/-- `BitUnpacker::unpack`'s staging bytes: at `shift_ = 0`, `x[0] = 0`
and `x[1…]` copy `affectedByteCount - 1` bytes from the cursor; otherwise
all `affectedByteCount` bytes are copied. -/
def buX (st : BpState) (i : Nat) : Nat :=
  if st.shift = 0 then
    if i = 0 then 0 else st.buf (st.pos + (i - 1))
  else st.buf (st.pos + i)

/-- `blockMask = numeric_limits<uint32_t>::max() >> (32 -
blockSizeInBits)`. -/
def buMask (B : Nat) : Nat := (2 ^ 32 - 1) >>> (32 - B)

/-- Models `BitUnpacker::unpack()`: the returned block and the advanced
unpacker state. -/
def bpUnpack (B A : Nat) (st : BpState) : Nat × BpState :=
  let x := buX st
  let block := (List.range (A - 1)).foldl
    (fun acc i => acc ||| ((x i <<< ((B + 2 ^ 32 - st.shift - 8 * i) % 2 ^ 32)) % 2 ^ 32)) 0
  let block2 := block ||| (x (A - 1) >>> ((8 * (A - 1) + 2 ^ 32 - B + st.shift) % 2 ^ 32))
  let pos2 := if st.shift = 0 then st.pos + (A - 2) else st.pos + (A - 1)
  (block2 &&& buMask B, ⟨(st.shift + 1) % 8, pos2, st.buf⟩)

/-- The blocks returned by `n` successive `unpack()` calls. -/
def bpUnpackList (B A : Nat) : Nat → BpState → List Nat
| 0, _ => []
| n + 1, st =>
  match bpUnpack B A st with
  | (b, st2) => b :: bpUnpackList B A n st2

/-- Claim C8, counterexample: with block width B = 8 (inside the claimed
range 1..32, two affected bytes) and block sequence [0, 255], the first
unpacked block is 1, not 0: `pack` advances its bit cursor `shift_` by
one per call regardless of the block width, so any B with B % 8 ≠ 7
misaligns the stream from the second block on. -/
theorem bitpacker_b8_roundtrip_fails :
    bpUnpackList 8 2 2 ⟨0, 0, (bpPackAll 8 2 [0, 255]).buf⟩ = [1, 255] ∧
    [1, 255] ≠ [0, 255] :=
  ⟨by decide, by decide⟩

/-- The value of an LSB-first bit list. -/
def bitsLsb : List Bool → Nat
| [] => 0
| b :: rest => (if b then 1 else 0) + 2 * bitsLsb rest

theorem bitsLsb_testBit : ∀ (l : List Bool) (i : Nat),
    (bitsLsb l).testBit i = l.getD i false := by
  intro l
  induction l with
  | nil =>
    intro i
    simp [bitsLsb]
  | cons b rest ih =>
    intro i
    match i with
    | 0 =>
      show (bitsLsb (b :: rest)).testBit 0 = b
      rw [Nat.testBit_zero]
      cases b <;> simp [bitsLsb, Nat.add_mul_mod_self_left]
    | i + 1 =>
      show (bitsLsb (b :: rest)).testBit (i + 1) = rest.getD i false
      rw [← ih i, Nat.testBit_add_one]
      congr 1
      cases b <;> simp [bitsLsb] <;> omega

theorem bitsLsb_lt : ∀ l : List Bool, bitsLsb l < 2 ^ l.length := by
  intro l
  induction l with
  | nil => simp [bitsLsb]
  | cons b rest ih =>
    cases b <;> simp [bitsLsb, List.length_cons, Nat.pow_succ] <;> omega

/-- Bit `q` (counted from 0 at the start) of the ideal packed bit
stream: blocks laid out MSB-first, back to back. -/
def streamBit (B : Nat) (bs : List Nat) (q : Nat) : Bool :=
  decide (q < bs.length * B) && (bs.getD (q / B) 0).testBit (B - 1 - q % B)

/-- Byte `j` of the ideal packed stream (bits MSB-first within the
byte; bits beyond the stream are zero). -/
def packedByte (B : Nat) (bs : List Nat) (j : Nat) : Nat :=
  bitsLsb [streamBit B bs (8 * j + 7), streamBit B bs (8 * j + 6),
           streamBit B bs (8 * j + 5), streamBit B bs (8 * j + 4),
           streamBit B bs (8 * j + 3), streamBit B bs (8 * j + 2),
           streamBit B bs (8 * j + 1), streamBit B bs (8 * j)]

theorem packedByte_lt (B : Nat) (bs : List Nat) (j : Nat) :
    packedByte B bs j < 256 := by
  have h := bitsLsb_lt [streamBit B bs (8 * j + 7), streamBit B bs (8 * j + 6),
    streamBit B bs (8 * j + 5), streamBit B bs (8 * j + 4),
    streamBit B bs (8 * j + 3), streamBit B bs (8 * j + 2),
    streamBit B bs (8 * j + 1), streamBit B bs (8 * j)]
  simpa [packedByte] using h

theorem packedByte_testBit (B : Nat) (bs : List Nat) (j v : Nat) (hv : v < 8) :
    (packedByte B bs j).testBit v = streamBit B bs (8 * j + (7 - v)) := by
  unfold packedByte
  rw [bitsLsb_testBit]
  interval_cases v <;> rfl

theorem packedByte_testBit_ge (B : Nat) (bs : List Nat) (j v : Nat) (hv : 8 ≤ v) :
    (packedByte B bs j).testBit v = false := by
  apply Nat.testBit_eq_false_of_lt
  have h1 : packedByte B bs j < 2 ^ 8 := packedByte_lt B bs j
  have h2 : (2 : Nat) ^ 8 ≤ 2 ^ v := Nat.pow_le_pow_right (by omega) hv
  omega

theorem streamBit_ge (B : Nat) (bs : List Nat) (q : Nat) (h : bs.length * B ≤ q) :
    streamBit B bs q = false := by
  unfold streamBit
  rw [decide_eq_false (by omega)]
  rfl

theorem streamBit_append_lt (B : Nat) (bs : List Nat) (b : Nat) (q : Nat)
    (h : q < bs.length * B) : streamBit B (bs ++ [b]) q = streamBit B bs q := by
  have hB : 1 ≤ B := by
    by_contra hB0
    have : B = 0 := by omega
    rw [this] at h
    omega
  unfold streamBit
  have hq : q / B < bs.length := Nat.div_lt_of_lt_mul (by
    rw [Nat.mul_comm]
    exact h)
  rw [getD_append bs [b] (q / B), if_pos hq]
  have h2 : q < (bs ++ [b]).length * B := by
    rw [List.length_append, List.length_singleton]
    have : bs.length * B ≤ (bs.length + 1) * B := Nat.mul_le_mul_right B (by omega)
    omega
  rw [decide_eq_true h, decide_eq_true h2]

theorem streamBit_append_new (B : Nat) (bs : List Nat) (b : Nat) (q : Nat)
    (h1 : bs.length * B ≤ q) (h2 : q < bs.length * B + B) :
    streamBit B (bs ++ [b]) q = b.testBit (B - 1 - (q - bs.length * B)) := by
  have hB : 1 ≤ B := by omega
  unfold streamBit
  have hdiv : q / B = bs.length := by
    have hle : bs.length ≤ q / B := (Nat.le_div_iff_mul_le (by omega)).mpr (by omega)
    have hlt : q / B < bs.length + 1 := Nat.div_lt_of_lt_mul (by
      rw [Nat.mul_comm]
      have : (bs.length + 1) * B = bs.length * B + B := Nat.succ_mul bs.length B
      omega)
    omega
  have hmod : q % B = q - bs.length * B := by
    have hmd := Nat.mod_add_div q B
    rw [hdiv] at hmd
    have hcomm : B * bs.length = bs.length * B := Nat.mul_comm B bs.length
    omega
  rw [hdiv, hmod, getD_append bs [b] bs.length, if_neg (by omega)]
  have hq2 : q < (bs ++ [b]).length * B := by
    rw [List.length_append, List.length_singleton]
    have : (bs.length + 1) * B = bs.length * B + B := Nat.succ_mul bs.length B
    omega
  rw [decide_eq_true hq2]
  have : bs.length - bs.length = 0 := by omega
  rw [this]
  rfl

/-- Bytes whose eight bits all lie beyond the stream are zero. -/
theorem packedByte_past_end (B : Nat) (bs : List Nat) (j : Nat)
    (h : bs.length * B ≤ 8 * j) : packedByte B bs j = 0 := by
  unfold packedByte
  rw [streamBit_ge B bs _ (by omega), streamBit_ge B bs _ (by omega),
    streamBit_ge B bs _ (by omega), streamBit_ge B bs _ (by omega),
    streamBit_ge B bs _ (by omega), streamBit_ge B bs _ (by omega),
    streamBit_ge B bs _ (by omega), streamBit_ge B bs _ (by omega)]
  rfl

/-- Two stream contexts that agree on a byte's eight bits give the same
packed byte. -/
theorem packedByte_congr (B : Nat) (bs bs2 : List Nat) (j : Nat)
    (h : ∀ v, v < 8 → streamBit B bs (8 * j + v) = streamBit B bs2 (8 * j + v)) :
    packedByte B bs j = packedByte B bs2 j := by
  unfold packedByte
  rw [h 7 (by omega), h 6 (by omega), h 5 (by omega), h 4 (by omega),
    h 3 (by omega), h 2 (by omega), h 1 (by omega),
    show 8 * j = 8 * j + 0 from by omega, h 0 (by omega)]

theorem testBit_mod256 (y v : Nat) :
    (y % 256).testBit v = (decide (v < 8) && y.testBit v) := by
  rw [show (256 : Nat) = 2 ^ 8 from rfl, Nat.testBit_mod_two_pow]

theorem testBit_false_of_lt_pow {b : Nat} (B i : Nat) (hb : b < 2 ^ B) (hi : B ≤ i) :
    b.testBit i = false := by
  apply Nat.testBit_eq_false_of_lt
  have h2 : (2 : Nat) ^ B ≤ 2 ^ i := Nat.pow_le_pow_right (by omega) hi
  omega

/-- The output loop of `pack` writes `x[i0], …, x[A-1]` at consecutive
positions starting at the cursor, leaving the cursor on the last byte
written. -/
theorem packLoop_spec (A : Nat) (x : Nat → Nat) :
    ∀ (m i0 p : Nat) (f : Nat → Nat), i0 + m = A → 1 ≤ m →
      (packLoop A x (List.range' i0 m) (p, f)).1 = p + m - 1 ∧
      ∀ q, (packLoop A x (List.range' i0 m) (p, f)).2 q =
        if p ≤ q ∧ q < p + m then x (i0 + (q - p)) else f q := by
  intro m
  induction m with
  | zero => intro i0 p f hA hm; omega
  | succ m ih =>
    intro i0 p f hA hm
    rw [List.range'_succ]
    by_cases hm0 : m = 0
    · subst hm0
      have hstep : packLoop A x (i0 :: List.range' (i0 + 1) 0) (p, f) =
          (p, updByte f p (x i0)) := by
        show packLoop A x (List.range' (i0 + 1) 0)
            (if i0 ≠ A - 1 then (p + 1, updByte f p (x i0)) else (p, updByte f p (x i0))) = _
        rw [if_neg (by omega)]
        rfl
      rw [hstep]
      constructor
      · show p = p + 1 - 1
        omega
      · intro q
        show (if q = p then x i0 else f q) = _
        by_cases hq : q = p
        · rw [if_pos hq, if_pos (by omega)]
          congr 1
          omega
        · rw [if_neg hq, if_neg (by omega)]
    · have hstep : packLoop A x (i0 :: List.range' (i0 + 1) m) (p, f) =
          packLoop A x (List.range' (i0 + 1) m) (p + 1, updByte f p (x i0)) := by
        show packLoop A x (List.range' (i0 + 1) m)
            (if i0 ≠ A - 1 then (p + 1, updByte f p (x i0)) else (p, updByte f p (x i0))) = _
        rw [if_pos (by omega)]
      rw [hstep]
      obtain ⟨ih1, ih2⟩ := ih (i0 + 1) (p + 1) (updByte f p (x i0)) (by omega) (by omega)
      constructor
      · rw [ih1]
        omega
      · intro q
        rw [ih2 q]
        by_cases h1 : p ≤ q ∧ q < p + (m + 1)
        · rw [if_pos h1]
          by_cases h2 : p + 1 ≤ q ∧ q < p + 1 + m
          · rw [if_pos h2]
            congr 1
            omega
          · rw [if_neg h2]
            have hq : q = p := by omega
            subst hq
            show (if q = q then x i0 else f q) = x (i0 + (q - q))
            rw [if_pos rfl]
            congr 1
            omega
        · rw [if_neg h1, if_neg (by omega)]
          show (if q = p then x i0 else f q) = f q
          rw [if_neg (by omega)]

/-- `pack`'s state after one call, with the staging and store loops
spelled out. -/
theorem bpPack_char (B A s p : Nat) (f : Nat → Nat) (block : Nat) :
    bpPack B A ⟨s, p, f⟩ block =
      ⟨(s + 1) % 8,
       (packLoop A (bpPackX B A s block) (List.range' 1 (A - 1))
         (if s ≠ 0 then (p + 1, updByte f p (f p ||| bpPackX B A s block 0)) else (p, f))).1,
       (packLoop A (bpPackX B A s block) (List.range' 1 (A - 1))
         (if s ≠ 0 then (p + 1, updByte f p (f p ||| bpPackX B A s block 0)) else (p, f))).2⟩ := by
  show (⟨(s + 1) % 8,
      (packLoop A (bpPackX B A s block) (List.range' 1 (A - 1))
        ((if s ≠ 0 then
            (⟨s, p + 1, updByte f p (f p ||| bpPackX B A s block 0)⟩ : BpState)
          else ⟨s, p, f⟩).pos,
         (if s ≠ 0 then
            (⟨s, p + 1, updByte f p (f p ||| bpPackX B A s block 0)⟩ : BpState)
          else ⟨s, p, f⟩).buf)).1,
      (packLoop A (bpPackX B A s block) (List.range' 1 (A - 1))
        ((if s ≠ 0 then
            (⟨s, p + 1, updByte f p (f p ||| bpPackX B A s block 0)⟩ : BpState)
          else ⟨s, p, f⟩).pos,
         (if s ≠ 0 then
            (⟨s, p + 1, updByte f p (f p ||| bpPackX B A s block 0)⟩ : BpState)
          else ⟨s, p, f⟩).buf)).2⟩ : BpState) = _
  by_cases hs : s ≠ 0
  · simp only [if_pos hs]
  · simp only [if_neg hs]

/-- An interior staging byte lands on the packed stream: byte `j` of the
extended stream, when `8j + 8 = |bs|·B + 8i + s`. -/
theorem packX_mid_eq (B : Nat) (bs : List Nat) (b : Nat) (hb : b < 2 ^ B)
    (s i j : Nat) (hs : s < 8) (hi1 : 1 ≤ i) (hiB : 8 * i + s ≤ B)
    (hj : 8 * j + 8 = bs.length * B + 8 * i + s) :
    (b >>> (B - 8 * i - s)) % 256 = packedByte B (bs ++ [b]) j := by
  apply Nat.eq_of_testBit_eq
  intro v
  by_cases hv : v < 8
  · rw [testBit_mod256, decide_eq_true hv, Bool.true_and, Nat.testBit_shiftRight,
      packedByte_testBit B (bs ++ [b]) j v hv,
      streamBit_append_new B bs b (8 * j + (7 - v)) (by omega) (by omega)]
    congr 1
    omega
  · rw [testBit_mod256, decide_eq_false hv, Bool.false_and,
      packedByte_testBit_ge B (bs ++ [b]) j v (by omega)]

/-- The final staging byte (the shifted-left remainder) lands on the
packed stream: byte `j` of the extended stream, when `8j + 7 = |bs|·B +
B + s`. -/
theorem packX_last_eq (B : Nat) (bs : List Nat) (b : Nat) (hb : b < 2 ^ B)
    (s j : Nat) (hs : s < 8) (hB7 : 7 ≤ B)
    (hj : 8 * j + 7 = bs.length * B + B + s) :
    (b <<< (1 + s)) % 256 = packedByte B (bs ++ [b]) j := by
  apply Nat.eq_of_testBit_eq
  intro v
  by_cases hv : v < 8
  · rw [testBit_mod256, decide_eq_true hv, Bool.true_and, Nat.testBit_shiftLeft,
      packedByte_testBit B (bs ++ [b]) j v hv]
    by_cases hvs : 1 + s ≤ v
    · rw [decide_eq_true hvs, Bool.true_and,
        streamBit_append_new B bs b (8 * j + (7 - v)) (by omega) (by omega)]
      congr 1
      omega
    · rw [decide_eq_false hvs, Bool.false_and,
        streamBit_ge B (bs ++ [b]) (8 * j + (7 - v)) (by
          rw [List.length_append, List.length_singleton]
          have h3 : (bs.length + 1) * B = bs.length * B + B := Nat.succ_mul bs.length B
          omega)]
  · rw [testBit_mod256, decide_eq_false hv, Bool.false_and,
      packedByte_testBit_ge B (bs ++ [b]) j v (by omega)]

/-- OR-ing `x[0]` into the partial byte completes byte `j` of the
extended stream, when `8j + 8 = |bs|·B + s`. -/
theorem packX_first_or_eq (B : Nat) (bs : List Nat) (b : Nat) (hb : b < 2 ^ B)
    (s j : Nat) (hs1 : 1 ≤ s) (hs : s < 8) (hsB : s ≤ B)
    (hj : 8 * j + 8 = bs.length * B + s) :
    packedByte B bs j ||| (b >>> (B - s)) % 256 = packedByte B (bs ++ [b]) j := by
  apply Nat.eq_of_testBit_eq
  intro v
  rw [Nat.testBit_or]
  by_cases hv : v < 8
  · rw [testBit_mod256, decide_eq_true hv, Bool.true_and, Nat.testBit_shiftRight,
      packedByte_testBit B bs j v hv, packedByte_testBit B (bs ++ [b]) j v hv]
    by_cases hvs : v < s
    · rw [streamBit_ge B bs (8 * j + (7 - v)) (by omega), Bool.false_or,
        streamBit_append_new B bs b (8 * j + (7 - v)) (by omega) (by omega)]
      congr 1
      omega
    · rw [streamBit_append_lt B bs b (8 * j + (7 - v)) (by omega),
        testBit_false_of_lt_pow B (B - s + v) hb (by omega), Bool.or_false]
  · rw [testBit_mod256, decide_eq_false hv, Bool.false_and, Bool.or_false,
      packedByte_testBit_ge B bs j v (by omega),
      packedByte_testBit_ge B (bs ++ [b]) j v (by omega)]

/-- Bytes fully below the appended block's bits are unchanged by the
append. -/
theorem packedByte_append_lt (B : Nat) (bs : List Nat) (b j : Nat)
    (h : 8 * j + 8 ≤ bs.length * B) :
    packedByte B bs j = packedByte B (bs ++ [b]) j := by
  apply packedByte_congr
  intro v hv
  exact (streamBit_append_lt B bs b (8 * j + v) (by omega)).symm

/-- Bytes fully beyond the appended block's bits are zero on both
sides. -/
theorem packedByte_append_past (B : Nat) (bs : List Nat) (b j : Nat)
    (h : bs.length * B + B ≤ 8 * j) :
    packedByte B bs j = packedByte B (bs ++ [b]) j := by
  rw [packedByte_past_end B bs j (by omega),
    packedByte_past_end B (bs ++ [b]) j (by
      rw [List.length_append, List.length_singleton]
      have h3 : (bs.length + 1) * B = bs.length * B + B := Nat.succ_mul bs.length B
      omega)]

/-- One `pack` call preserves the packer invariant: cursor `shift_ = n %
8`, `pos_ = n·B/8`, and the buffer holds the ideal packed stream - for
block widths `B = 8t - 1` with `A = t + 1` affected bytes. -/
theorem bpPack_inv (t B A : Nat) (ht1 : 1 ≤ t) (ht4 : t ≤ 4) (hB : B = 8 * t - 1)
    (hA : A = t + 1) (bs : List Nat) (b : Nat) (hb : b < 2 ^ B) (buf : Nat → Nat)
    (hbuf : ∀ j, buf j = packedByte B bs j) :
    (bpPack B A ⟨bs.length % 8, bs.length * B / 8, buf⟩ b).shift = (bs.length + 1) % 8 ∧
    (bpPack B A ⟨bs.length % 8, bs.length * B / 8, buf⟩ b).pos = (bs.length + 1) * B / 8 ∧
    ∀ j, (bpPack B A ⟨bs.length % 8, bs.length * B / 8, buf⟩ b).buf j
      = packedByte B (bs ++ [b]) j := by
  have hBn : bs.length * B + bs.length = 8 * (bs.length * t) := by
    subst hB
    have h1 : bs.length * (8 * t - 1) + bs.length = bs.length * (8 * t - 1 + 1) := by ring
    rw [h1, show 8 * t - 1 + 1 = 8 * t from by omega]
    ring
  have hBn1 : (bs.length + 1) * B + (bs.length + 1) = 8 * ((bs.length + 1) * t) := by
    subst hB
    have h1 : (bs.length + 1) * (8 * t - 1) + (bs.length + 1)
        = (bs.length + 1) * (8 * t - 1 + 1) := by ring
    rw [h1, show 8 * t - 1 + 1 = 8 * t from by omega]
    ring
  have hut : (bs.length + 1) * t = bs.length * t + t := by ring
  rw [bpPack_char]
  by_cases hs : bs.length % 8 = 0
  · rw [hs, if_neg (by simp)]
    obtain ⟨hfin1, hfin2⟩ := packLoop_spec A (bpPackX B A 0 b) (A - 1) 1
      (bs.length * B / 8) buf (by omega) (by omega)
    refine ⟨by show (0 + 1) % 8 = (bs.length + 1) % 8; omega, ?_, ?_⟩
    · show (packLoop A (bpPackX B A 0 b) (List.range' 1 (A - 1))
        (bs.length * B / 8, buf)).1 = (bs.length + 1) * B / 8
      rw [hfin1]
      omega
    · intro j
      show (packLoop A (bpPackX B A 0 b) (List.range' 1 (A - 1))
        (bs.length * B / 8, buf)).2 j = packedByte B (bs ++ [b]) j
      rw [hfin2 j]
      by_cases hj : bs.length * B / 8 ≤ j ∧ j < bs.length * B / 8 + (A - 1)
      · rw [if_pos hj]
        simp only [bpPackX]
        by_cases hlast : 1 + (j - bs.length * B / 8) = A - 1
        · rw [if_pos hlast,
            show (8 * (A - 1) + 2 ^ 32 - B + 0) % 2 ^ 32 = 1 + 0 from by omega]
          exact packX_last_eq B bs b hb 0 j (by omega) (by omega) (by omega)
        · rw [if_neg hlast,
            show ((B + 2 ^ 32 - (8 * (1 + (j - bs.length * B / 8)) + 0)) % 2 ^ 32) % 256
              = B - 8 * (1 + (j - bs.length * B / 8)) - 0 from by omega]
          exact packX_mid_eq B bs b hb 0 (1 + (j - bs.length * B / 8)) j
            (by omega) (by omega) (by omega) (by omega)
      · rw [if_neg hj, hbuf j]
        by_cases hlow : j < bs.length * B / 8
        · exact packedByte_append_lt B bs b j (by omega)
        · exact packedByte_append_past B bs b j (by omega)
  · rw [if_pos hs]
    obtain ⟨hfin1, hfin2⟩ := packLoop_spec A (bpPackX B A (bs.length % 8) b) (A - 1) 1
      (bs.length * B / 8 + 1)
      (updByte buf (bs.length * B / 8)
        (buf (bs.length * B / 8) ||| bpPackX B A (bs.length % 8) b 0))
      (by omega) (by omega)
    refine ⟨by show (bs.length % 8 + 1) % 8 = (bs.length + 1) % 8; omega, ?_, ?_⟩
    · show (packLoop A (bpPackX B A (bs.length % 8) b) (List.range' 1 (A - 1))
        (bs.length * B / 8 + 1,
         updByte buf (bs.length * B / 8)
           (buf (bs.length * B / 8) ||| bpPackX B A (bs.length % 8) b 0))).1
        = (bs.length + 1) * B / 8
      rw [hfin1]
      omega
    · intro j
      show (packLoop A (bpPackX B A (bs.length % 8) b) (List.range' 1 (A - 1))
        (bs.length * B / 8 + 1,
         updByte buf (bs.length * B / 8)
           (buf (bs.length * B / 8) ||| bpPackX B A (bs.length % 8) b 0))).2 j
        = packedByte B (bs ++ [b]) j
      rw [hfin2 j]
      by_cases hj : bs.length * B / 8 + 1 ≤ j ∧ j < bs.length * B / 8 + 1 + (A - 1)
      · rw [if_pos hj]
        simp only [bpPackX]
        by_cases hlast : 1 + (j - (bs.length * B / 8 + 1)) = A - 1
        · rw [if_pos hlast,
            show (8 * (A - 1) + 2 ^ 32 - B + bs.length % 8) % 2 ^ 32
              = 1 + bs.length % 8 from by omega]
          exact packX_last_eq B bs b hb (bs.length % 8) j (by omega) (by omega) (by omega)
        · rw [if_neg hlast,
            show ((B + 2 ^ 32 - (8 * (1 + (j - (bs.length * B / 8 + 1))) + bs.length % 8))
                % 2 ^ 32) % 256
              = B - 8 * (1 + (j - (bs.length * B / 8 + 1))) - bs.length % 8 from by omega]
          exact packX_mid_eq B bs b hb (bs.length % 8)
            (1 + (j - (bs.length * B / 8 + 1))) j (by omega) (by omega) (by omega) (by omega)
      · rw [if_neg hj]
        show (if j = bs.length * B / 8 then
            buf (bs.length * B / 8) ||| bpPackX B A (bs.length % 8) b 0
          else buf j) = packedByte B (bs ++ [b]) j
        by_cases hjP : j = bs.length * B / 8
        · rw [if_pos hjP, hbuf, hjP]
          simp only [bpPackX]
          rw [if_neg (by omega),
            show ((B + 2 ^ 32 - (8 * 0 + bs.length % 8)) % 2 ^ 32) % 256
              = B - bs.length % 8 from by omega]
          exact packX_first_or_eq B bs b hb (bs.length % 8) (bs.length * B / 8)
            (by omega) (by omega) (by omega) (by omega)
        · rw [if_neg hjP, hbuf j]
          by_cases hlow : j < bs.length * B / 8
          · exact packedByte_append_lt B bs b j (by omega)
          · exact packedByte_append_past B bs b j (by omega)

theorem buX_eval (s p : Nat) (f : Nat → Nat) (i : Nat) :
    buX ⟨s, p, f⟩ i = if s = 0 then (if i = 0 then 0 else f (p + (i - 1))) else f (p + i) := rfl

/-- A stream bit inside block `k`'s span is the matching bit of that
block. -/
theorem streamBit_at (B : Nat) (hB : 1 ≤ B) (bs : List Nat) (k q : Nat)
    (hk : k < bs.length) (h1 : k * B ≤ q) (h2 : q < k * B + B) :
    streamBit B bs q = (bs.getD k 0).testBit (B - 1 - (q - k * B)) := by
  unfold streamBit
  have hdiv : q / B = k := by
    have hle : k ≤ q / B := (Nat.le_div_iff_mul_le (by omega)).mpr (by omega)
    have hlt : q / B < k + 1 := Nat.div_lt_of_lt_mul (by
      rw [Nat.mul_comm]
      have h3 : (k + 1) * B = k * B + B := Nat.succ_mul k B
      omega)
    omega
  have hmod : q % B = q - k * B := by
    have hmd := Nat.mod_add_div q B
    rw [hdiv] at hmd
    have hcomm : B * k = k * B := Nat.mul_comm B k
    omega
  have hq : q < bs.length * B := by
    have h3 : (k + 1) * B ≤ bs.length * B := Nat.mul_le_mul_right B (by omega)
    have h4 : (k + 1) * B = k * B + B := Nat.succ_mul k B
    omega
  rw [hdiv, hmod, decide_eq_true hq, Bool.true_and]

theorem buMask_eq (B : Nat) (h1 : 1 ≤ B) (h2 : B ≤ 32) : buMask B = 2 ^ B - 1 := by
  unfold buMask
  apply Nat.eq_of_testBit_eq
  intro i
  rw [Nat.testBit_shiftRight, Nat.testBit_two_pow_sub_one, Nat.testBit_two_pow_sub_one]
  exact decide_eq_decide.mpr (by omega)

theorem foldl_or_acc (f : Nat → Nat) :
    ∀ (l : List Nat) (acc : Nat),
      l.foldl (fun a i => a ||| f i) acc = acc ||| l.foldl (fun a i => a ||| f i) 0 := by
  intro l
  induction l with
  | nil => intro acc; simp
  | cons x rest ih =>
    intro acc
    rw [List.foldl_cons, List.foldl_cons, ih (acc ||| f x), ih (0 ||| f x),
      Nat.zero_or, Nat.or_assoc]

theorem foldl_or_testBit (f : Nat → Nat) :
    ∀ (l : List Nat) (w : Nat),
      (l.foldl (fun a i => a ||| f i) 0).testBit w = l.any (fun i => (f i).testBit w) := by
  intro l
  induction l with
  | nil => intro w; simp
  | cons x rest ih =>
    intro w
    rw [List.foldl_cons, Nat.zero_or, foldl_or_acc, Nat.testBit_or, ih, List.any_cons]

theorem bpUnpack_char (B A s p : Nat) (f : Nat → Nat) :
    bpUnpack B A ⟨s, p, f⟩ =
      (((List.range (A - 1)).foldl
          (fun acc i =>
            acc ||| ((buX ⟨s, p, f⟩ i <<< ((B + 2 ^ 32 - s - 8 * i) % 2 ^ 32)) % 2 ^ 32)) 0
        ||| (buX ⟨s, p, f⟩ (A - 1) >>> ((8 * (A - 1) + 2 ^ 32 - B + s) % 2 ^ 32))) &&& buMask B,
       ⟨(s + 1) % 8, if s = 0 then p + (A - 2) else p + (A - 1), f⟩) := rfl

/-- One `unpack` call returns block `k` of the stream and keeps the
unpacker cursor on the ideal bit position, for `B = 8t - 1`,
`A = t + 1`. -/
theorem bpUnpack_inv (t B A : Nat) (ht1 : 1 ≤ t) (ht4 : t ≤ 4) (hB : B = 8 * t - 1)
    (hA : A = t + 1) (bs : List Nat) (hball : ∀ x ∈ bs, x < 2 ^ B)
    (buf : Nat → Nat) (hbuf : ∀ j, buf j = packedByte B bs j)
    (k : Nat) (hk : k < bs.length) :
    bpUnpack B A ⟨k % 8, k * B / 8, buf⟩ =
      (bs.getD k 0, ⟨(k + 1) % 8, (k + 1) * B / 8, buf⟩) := by
  have hBk : k * B + k = 8 * (k * t) := by
    subst hB
    have h1 : k * (8 * t - 1) + k = k * (8 * t - 1 + 1) := by ring
    rw [h1, show 8 * t - 1 + 1 = 8 * t from by omega]
    ring
  have hBk1 : (k + 1) * B + (k + 1) = 8 * ((k + 1) * t) := by
    subst hB
    have h1 : (k + 1) * (8 * t - 1) + (k + 1) = (k + 1) * (8 * t - 1 + 1) := by ring
    rw [h1, show 8 * t - 1 + 1 = 8 * t from by omega]
    ring
  have hut : (k + 1) * t = k * t + t := by ring
  have hb : bs.getD k 0 < 2 ^ B := by
    rw [List.getD_eq_getElem bs 0 hk]
    exact hball _ (List.getElem_mem hk)
  rw [bpUnpack_char, Prod.mk.injEq]
  constructor
  · -- the returned block
    rw [buMask_eq B (by omega) (by omega)]
    apply Nat.eq_of_testBit_eq
    intro w
    rw [Nat.testBit_and, Nat.testBit_two_pow_sub_one]
    by_cases hw : w < B
    · rw [decide_eq_true hw, Bool.and_true, Nat.testBit_or, foldl_or_testBit]
      have hw32 : w < 32 := by omega
      have hterm : ∀ i, i < A - 1 →
          (((buX ⟨k % 8, k * B / 8, buf⟩ i <<< ((B + 2 ^ 32 - k % 8 - 8 * i) % 2 ^ 32))
            % 2 ^ 32)).testBit w
          = (decide (B - k % 8 - 8 * i ≤ w) && decide (w < B - k % 8 - 8 * i + 8)
             && (bs.getD k 0).testBit w) := by
        intro i hi
        rw [show (B + 2 ^ 32 - k % 8 - 8 * i) % 2 ^ 32 = B - k % 8 - 8 * i from by omega,
          Nat.testBit_mod_two_pow, decide_eq_true hw32, Bool.true_and,
          Nat.testBit_shiftLeft]
        by_cases hlo : B - k % 8 - 8 * i ≤ w
        · rw [decide_eq_true hlo, Bool.true_and, Bool.true_and]
          by_cases hhi : w < B - k % 8 - 8 * i + 8
          · rw [decide_eq_true hhi, Bool.true_and, buX_eval]
            by_cases hs : k % 8 = 0
            · have hi0 : i ≠ 0 := by omega
              rw [if_pos hs, if_neg hi0, hbuf,
                packedByte_testBit B bs _ _ (by omega),
                streamBit_at B (by omega) bs k _ hk (by omega) (by omega)]
              congr 1
              omega
            · rw [if_neg hs, hbuf,
                packedByte_testBit B bs _ _ (by omega),
                streamBit_at B (by omega) bs k _ hk (by omega) (by omega)]
              congr 1
              omega
          · rw [decide_eq_false hhi, Bool.false_and, buX_eval]
            by_cases hs : k % 8 = 0
            · by_cases hi0 : i = 0
              · rw [if_pos hs, if_pos hi0, Nat.zero_testBit]
              · rw [if_pos hs, if_neg hi0, hbuf,
                  packedByte_testBit_ge B bs _ _ (by omega)]
            · rw [if_neg hs, hbuf,
                packedByte_testBit_ge B bs _ _ (by omega)]
        · rw [decide_eq_false hlo, Bool.false_and, Bool.false_and, Bool.false_and]
      have hlast :
          (buX ⟨k % 8, k * B / 8, buf⟩ (A - 1)
            >>> ((8 * (A - 1) + 2 ^ 32 - B + k % 8) % 2 ^ 32)).testBit w
          = (decide (w + k % 8 < 7) && (bs.getD k 0).testBit w) := by
        rw [show (8 * (A - 1) + 2 ^ 32 - B + k % 8) % 2 ^ 32 = 1 + k % 8 from by omega,
          Nat.testBit_shiftRight, buX_eval]
        by_cases hin : w + k % 8 < 7
        · rw [decide_eq_true hin, Bool.true_and]
          by_cases hs : k % 8 = 0
          · rw [if_pos hs, if_neg (by omega), hbuf,
              packedByte_testBit B bs _ _ (by omega),
              streamBit_at B (by omega) bs k _ hk (by omega) (by omega)]
            congr 1
            omega
          · rw [if_neg hs, hbuf,
              packedByte_testBit B bs _ _ (by omega),
              streamBit_at B (by omega) bs k _ hk (by omega) (by omega)]
            congr 1
            omega
        · rw [decide_eq_false hin, Bool.false_and]
          by_cases hs : k % 8 = 0
          · rw [if_pos hs, if_neg (by omega), hbuf,
              packedByte_testBit_ge B bs _ _ (by omega)]
          · rw [if_neg hs, hbuf,
              packedByte_testBit_ge B bs _ _ (by omega)]
      cases hbw : (bs.getD k 0).testBit w with
      | false =>
        rw [hlast, hbw, Bool.and_false, Bool.or_false]
        apply List.any_eq_false.mpr
        intro i hi
        rw [hterm i (List.mem_range.mp hi), hbw, Bool.and_false]
        simp
      | true =>
        rw [hlast, hbw, Bool.and_true]
        by_cases hwl : w + k % 8 < 7
        · rw [decide_eq_true hwl, Bool.or_true]
        · rw [decide_eq_false hwl, Bool.or_false]
          apply List.any_eq_true.mpr
          refine ⟨(B - k % 8 + 7 - w) / 8, List.mem_range.mpr (by omega), ?_⟩
          rw [hterm _ (by omega), hbw, Bool.and_true,
            decide_eq_true (by omega), decide_eq_true (by omega), Bool.and_self]
    · rw [decide_eq_false hw, Bool.and_false,
        testBit_false_of_lt_pow B w hb (by omega)]
  · -- the advanced state
    rw [BpState.mk.injEq]
    refine ⟨by omega, ?_, rfl⟩
    by_cases hs0 : k % 8 = 0
    · rw [if_pos hs0]
      omega
    · rw [if_neg hs0]
      omega

/-- After packing a whole sequence from a zeroed buffer, the packer
state is the ideal stream state. -/
theorem bpPackAll_inv (t B A : Nat) (ht1 : 1 ≤ t) (ht4 : t ≤ 4) (hB : B = 8 * t - 1)
    (hA : A = t + 1) :
    ∀ bs : List Nat, (∀ b ∈ bs, b < 2 ^ B) →
      (bpPackAll B A bs).shift = bs.length % 8 ∧
      (bpPackAll B A bs).pos = bs.length * B / 8 ∧
      ∀ j, (bpPackAll B A bs).buf j = packedByte B bs j := by
  intro bs
  induction bs using List.reverseRecOn with
  | nil =>
    intro _
    refine ⟨rfl, by show (0 : Nat) = [].length * B / 8; simp, ?_⟩
    intro j
    show (0 : Nat) = packedByte B [] j
    rw [packedByte_past_end B [] j (by simp)]
  | append_singleton bs b ih =>
    intro hball
    have hball2 : ∀ x ∈ bs, x < 2 ^ B := fun x hx => hball x (List.mem_append_left [b] hx)
    have hb : b < 2 ^ B := hball b (List.mem_append_right bs (List.mem_singleton.mpr rfl))
    obtain ⟨ih1, ih2, ih3⟩ := ih hball2
    have hfold : bpPackAll B A (bs ++ [b]) = bpPack B A (bpPackAll B A bs) b := by
      unfold bpPackAll
      rw [List.foldl_append]
      rfl
    have hstate : bpPackAll B A bs
        = (⟨bs.length % 8, bs.length * B / 8, (bpPackAll B A bs).buf⟩ : BpState) := by
      rw [← ih1, ← ih2]
    obtain ⟨h1, h2, h3⟩ := bpPack_inv t B A ht1 ht4 hB hA bs b hb
      (bpPackAll B A bs).buf ih3
    rw [hfold, hstate]
    refine ⟨?_, ?_, ?_⟩
    · rw [h1, List.length_append, List.length_singleton]
    · rw [h2, List.length_append, List.length_singleton]
    · intro j
      rw [h3 j]

/-- Successive `unpack` calls from bit position `k·B` return the
remaining blocks of the stream. -/
theorem bpUnpackList_inv (t B A : Nat) (ht1 : 1 ≤ t) (ht4 : t ≤ 4) (hB : B = 8 * t - 1)
    (hA : A = t + 1) (bs : List Nat) (hball : ∀ x ∈ bs, x < 2 ^ B)
    (buf : Nat → Nat) (hbuf : ∀ j, buf j = packedByte B bs j) :
    ∀ (m k : Nat), k + m = bs.length →
      bpUnpackList B A m ⟨k % 8, k * B / 8, buf⟩ = bs.drop k := by
  intro m
  induction m with
  | zero =>
    intro k hkm
    rw [show k = bs.length from by omega, List.drop_length]
    rfl
  | succ m ih =>
    intro k hkm
    have hk : k < bs.length := by omega
    show (match bpUnpack B A ⟨k % 8, k * B / 8, buf⟩ with
          | (b, st2) => b :: bpUnpackList B A m st2) = bs.drop k
    rw [bpUnpack_inv t B A ht1 ht4 hB hA bs hball buf hbuf k hk]
    show bs.getD k 0 :: bpUnpackList B A m ⟨(k + 1) % 8, (k + 1) * B / 8, buf⟩ = bs.drop k
    rw [ih (k + 1) (by omega), List.drop_eq_getElem_cons hk,
      List.getD_eq_getElem bs 0 hk]

/-- Claim C8 (amended): the round trip only holds for block widths of
the form B = 8t - 1 (7, 15, 23, 31 - the shipped test uses B = 23) with
A = t + 1 affected bytes: `pack` advances its bit cursor `shift_` by one
per call, which matches the B bits it consumes exactly when B ≡ 7 (mod
8).  For such B, packing any sequence of B-bit blocks into a zeroed
buffer and unpacking the same number of blocks returns the original
sequence, and the packed data occupies exactly ⌈n·B/8⌉ bytes: every
byte at or beyond that index is still zero.  For other widths the round
trip fails - see `bitpacker_b8_roundtrip_fails`. -/
theorem bitpacker_roundtrip_b_mod8_eq_7 (t : Nat) (ht1 : 1 ≤ t) (ht4 : t ≤ 4)
    (blocks : List Nat) (hb : ∀ b ∈ blocks, b < 2 ^ (8 * t - 1)) :
    bpUnpackList (8 * t - 1) (t + 1) blocks.length
        ⟨0, 0, (bpPackAll (8 * t - 1) (t + 1) blocks).buf⟩ = blocks ∧
    ∀ j, (blocks.length * (8 * t - 1) + 7) / 8 ≤ j →
      (bpPackAll (8 * t - 1) (t + 1) blocks).buf j = 0 := by
  obtain ⟨h1, h2, h3⟩ := bpPackAll_inv t (8 * t - 1) (t + 1) ht1 ht4 rfl rfl blocks hb
  constructor
  · have := bpUnpackList_inv t (8 * t - 1) (t + 1) ht1 ht4 rfl rfl blocks hb
      (bpPackAll (8 * t - 1) (t + 1) blocks).buf h3 blocks.length 0 (by omega)
    rw [show (0 : Nat) % 8 = 0 from rfl, show 0 * (8 * t - 1) / 8 = 0 from by omega,
      List.drop_zero] at this
    exact this
  · intro j hj
    rw [h3 j, packedByte_past_end (8 * t - 1) blocks j (by omega)]

/-- Witness for C8 at B = 7 (t = 1), A = 2, blocks [5, 100]. -/
theorem bitpacker_roundtrip_witness :
    (1 ≤ 1 ∧ 1 ≤ 4 ∧ ∀ b ∈ [5, 100], b < 2 ^ (8 * 1 - 1)) ∧
    (bpUnpackList (8 * 1 - 1) (1 + 1) (List.length [5, 100])
        ⟨0, 0, (bpPackAll (8 * 1 - 1) (1 + 1) [5, 100]).buf⟩ = [5, 100] ∧
     ∀ j, (List.length [5, 100] * (8 * 1 - 1) + 7) / 8 ≤ j →
       (bpPackAll (8 * 1 - 1) (1 + 1) [5, 100]).buf j = 0) :=
  ⟨⟨by decide, by decide, by decide⟩,
    bitpacker_roundtrip_b_mod8_eq_7 1 (by decide) (by decide) [5, 100] (by decide)⟩

/-! ### Claim C6: BinaryMatrix transpose (binarymatrix.h)

A `BinaryMatrix<Rows, Cols>` is its byte array `bytes` (a map `Nat →
Nat` whose values are bytes), with `Rows` and `Cols` multiples of 8.
`transpose` has an SSE2 path (16x8 tiles via `_mm_movemask_epi8` /
`_mm_slli_epi64`, plus an 8-row remainder pass) and a scalar path (8x8
tiles via a 32-bit multiply trick); both are modelled below.  Union
type-punning between byte arrays and `uint32_t`/`__m128i` follows
little-endian layout, and the `uint16_t` store of the SSE2 path writes
its low byte first. -/

/-- Models `BinaryMatrix::getBit(row, col)` for column count `C`. -/
def getBitM (C : Nat) (bytes : Nat → Nat) (row col : Nat) : Nat :=
  (bytes (row * (C / 8) + col / 8) >>> (7 - col % 8)) &&& 1

/-- Models `BinaryMatrix::getMultiplyUpperPart` (upper 32 bits of the
64-bit product of two 32-bit values). -/
def getMultiplyUpperPart (i1 i2 : Nat) : Nat := (i1 * i2) >>> 32

/-- `x[0]` of the scalar path's `m4x8d` union after its fill loop
`b[7 - i] = bytes[(row + i) * (Cols / 8) + col / 8]` (little-endian:
`x[0] = b[0..3]`, holding input rows `row + 4 … row + 7`). -/
def m4x8dX0 (bytes : Nat → Nat) (C row col : Nat) : Nat :=
  bytes ((row + 7) * (C / 8) + col / 8) |||
    bytes ((row + 6) * (C / 8) + col / 8) <<< 8 |||
    bytes ((row + 5) * (C / 8) + col / 8) <<< 16 |||
    bytes ((row + 4) * (C / 8) + col / 8) <<< 24

/-- `x[1]` of `m4x8d` (`b[4..7]`, holding input rows `row … row + 3`). -/
def m4x8dX1 (bytes : Nat → Nat) (C row col : Nat) : Nat :=
  bytes ((row + 3) * (C / 8) + col / 8) |||
    bytes ((row + 2) * (C / 8) + col / 8) <<< 8 |||
    bytes ((row + 1) * (C / 8) + col / 8) <<< 16 |||
    bytes (row * (C / 8) + col / 8) <<< 24

/-- The byte the scalar path stores at `(col + i) * (Rows / 8) + row /
8`: the two multiply-trick nibbles (the `i = 7` subcolumn pre-shifts the
register by 7 and uses the `i = 0` mask and multiplier). -/
def scalarBlockByte (bytes : Nat → Nat) (C row col i : Nat) : Nat :=
  if i = 7 then
    ((getMultiplyUpperPart (((m4x8dX1 bytes C row col <<< 7) % 2 ^ 32) &&& (0x80808080 >>> 0))
        ((0x02040810 <<< 0) % 2 ^ 32) &&& 0x0f) <<< 4) |||
    (getMultiplyUpperPart (((m4x8dX0 bytes C row col <<< 7) % 2 ^ 32) &&& (0x80808080 >>> 0))
        ((0x02040810 <<< 0) % 2 ^ 32) &&& 0x0f)
  else
    ((getMultiplyUpperPart (m4x8dX1 bytes C row col &&& (0x80808080 >>> i))
        ((0x02040810 <<< i) % 2 ^ 32) &&& 0x0f) <<< 4) |||
    (getMultiplyUpperPart (m4x8dX0 bytes C row col &&& (0x80808080 >>> i))
        ((0x02040810 <<< i) % 2 ^ 32) &&& 0x0f)

/-- The scalar (non-SSE2) path of `BinaryMatrix::transpose`, writing
into the zero-initialized result matrix. -/
def scalarTranspose (bytes : Nat → Nat) (R C : Nat) : Nat → Nat :=
  (List.range' 0 (R / 8) 8).foldl (fun acc row =>
    (List.range' 0 (C / 8) 8).foldl (fun acc2 col =>
      (List.range 8).foldl (fun acc3 i =>
        updByte acc3 ((col + i) * (R / 8) + row / 8) (scalarBlockByte bytes C row col i))
        acc2) acc)
    (fun _ => 0)

/-- `_mm_movemask_epi8` on a 128-bit register given as its two 64-bit
lanes: the MSB of each of the 16 bytes. -/
def mmByte (x : Nat) : Nat :=
  ((x >>> 7) &&& 1) ||| (((x >>> 15) &&& 1) <<< 1) ||| (((x >>> 23) &&& 1) <<< 2) |||
  (((x >>> 31) &&& 1) <<< 3) ||| (((x >>> 39) &&& 1) <<< 4) |||
  (((x >>> 47) &&& 1) <<< 5) ||| (((x >>> 55) &&& 1) <<< 6) ||| (((x >>> 63) &&& 1) <<< 7)

def movemask (lo hi : Nat) : Nat := mmByte lo ||| (mmByte hi <<< 8)

/-- The low 64-bit lane of `m16x8` after `b[7 - i] = bytes[(row + i) *
(Cols / 8) + col / 8]` for `i < 8` (little-endian). -/
def m16x8Lo (bytes : Nat → Nat) (C row col : Nat) : Nat :=
  bytes ((row + 7) * (C / 8) + col / 8) |||
    bytes ((row + 6) * (C / 8) + col / 8) <<< 8 |||
    bytes ((row + 5) * (C / 8) + col / 8) <<< 16 |||
    bytes ((row + 4) * (C / 8) + col / 8) <<< 24 |||
    bytes ((row + 3) * (C / 8) + col / 8) <<< 32 |||
    bytes ((row + 2) * (C / 8) + col / 8) <<< 40 |||
    bytes ((row + 1) * (C / 8) + col / 8) <<< 48 |||
    bytes (row * (C / 8) + col / 8) <<< 56

/-- The high 64-bit lane of `m16x8`: `b[15 - i + 8] = bytes[(row + i) *
(Cols / 8) + col / 8]` for `8 ≤ i < 16`. -/
def m16x8Hi (bytes : Nat → Nat) (C row col : Nat) : Nat :=
  m16x8Lo bytes C (row + 8) col

/-- The 8-iteration store loop of one SSE2 16x8 tile: emit the movemask
as a little-endian `uint16_t` at `(col + i) * (Rows / 8) + row / 8`,
then `_mm_slli_epi64` the register by one. -/
def sseTileLoop (R row col : Nat) : List Nat → (Nat → Nat) → Nat → Nat → Nat → Nat
| [], out, _, _ => out
| i :: rest, out, lo, hi =>
  let tr := movemask lo hi
  let addr := (col + i) * (R / 8) + row / 8
  sseTileLoop R row col rest
    (updByte (updByte out addr (tr % 256)) (addr + 1) (tr >>> 8))
    ((lo <<< 1) % 2 ^ 64) ((hi <<< 1) % 2 ^ 64)

/-- The 8-iteration store loop of one remainder 8x8 tile (register high
lane zeroed, single-byte stores of the truncated movemask). -/
def sse8TileLoop (R row col : Nat) : List Nat → (Nat → Nat) → Nat → Nat → Nat
| [], out, _ => out
| i :: rest, out, lo =>
  let tr := movemask lo 0 % 256
  let addr := (col + i) * (R / 8) + row / 8
  sse8TileLoop R row col rest (updByte out addr tr) ((lo <<< 1) % 2 ^ 64)

/-- The SSE2 path of `BinaryMatrix::transpose`: 16x8 tiles while `row +
16 ≤ Rows`, then one 8-row remainder pass when 8 rows are left. -/
def sseTranspose (bytes : Nat → Nat) (R C : Nat) : Nat → Nat :=
  let main := (List.range' 0 (R / 16) 16).foldl (fun acc row =>
    (List.range' 0 (C / 8) 8).foldl (fun acc2 col =>
      sseTileLoop R row col (List.range 8) acc2
        (m16x8Lo bytes C row col) (m16x8Hi bytes C row col)) acc)
    (fun _ => 0)
  if 16 * (R / 16) = R then main
  else
    (List.range' 0 (C / 8) 8).foldl (fun acc2 col =>
      sse8TileLoop R (16 * (R / 16)) col (List.range 8) acc2
        (m16x8Lo bytes C (16 * (R / 16)) col)) main

theorem and_one_eq_ite_testBit (z : Nat) : z &&& 1 = if z.testBit 0 then 1 else 0 := by
  rw [Nat.and_one_is_mod, Nat.testBit_zero]
  rcases Nat.mod_two_eq_zero_or_one z with h | h <;> rw [h] <;> simp

theorem bitVal (y m : Nat) : (y >>> m) &&& 1 = if y.testBit m then 1 else 0 := by
  rw [and_one_eq_ite_testBit,
    show (y >>> m).testBit 0 = y.testBit m from by rw [Nat.testBit_shiftRight, Nat.add_zero]]

theorem testBit_0x80808080 (u : Nat) :
    (0x80808080 : Nat).testBit u = decide (u = 7 ∨ u = 15 ∨ u = 23 ∨ u = 31) := by
  by_cases hu : u < 32
  · interval_cases u <;> decide
  · rw [testBit_false_of_lt_pow 32 u (by decide) (by omega),
      decide_eq_false (by omega)]

theorem packed4_testBit (b0 b1 b2 b3 : Nat) (h0 : b0 < 256) (h1 : b1 < 256)
    (h2 : b2 < 256) (h3 : b3 < 256) (w : Nat) :
    (b3 ||| b2 <<< 8 ||| b1 <<< 16 ||| b0 <<< 24).testBit w =
      if w < 8 then b3.testBit w
      else if w < 16 then b2.testBit (w - 8)
      else if w < 24 then b1.testBit (w - 16)
      else if w < 32 then b0.testBit (w - 24)
      else false := by
  simp only [Nat.testBit_or, Nat.testBit_shiftLeft]
  by_cases c0 : w < 8
  · rw [if_pos c0, decide_eq_false (show ¬(8 ≤ w) from by omega),
      decide_eq_false (show ¬(16 ≤ w) from by omega),
      decide_eq_false (show ¬(24 ≤ w) from by omega)]
    simp
  · rw [if_neg c0, testBit_false_of_lt_pow 8 w h3 (by omega)]
    by_cases c1 : w < 16
    · rw [if_pos c1, decide_eq_true (show 8 ≤ w from by omega),
        decide_eq_false (show ¬(16 ≤ w) from by omega),
        decide_eq_false (show ¬(24 ≤ w) from by omega)]
      simp
    · rw [if_neg c1, testBit_false_of_lt_pow 8 (w - 8) h2 (by omega)]
      by_cases c2 : w < 24
      · rw [if_pos c2, decide_eq_true (show 8 ≤ w from by omega),
          decide_eq_true (show 16 ≤ w from by omega),
          decide_eq_false (show ¬(24 ≤ w) from by omega)]
        simp
      · rw [if_neg c2, testBit_false_of_lt_pow 8 (w - 16) h1 (by omega)]
        by_cases c3 : w < 32
        · rw [if_pos c3, decide_eq_true (show 8 ≤ w from by omega),
            decide_eq_true (show 16 ≤ w from by omega),
            decide_eq_true (show 24 ≤ w from by omega)]
          simp
        · rw [if_neg c3, testBit_false_of_lt_pow 8 (w - 24) h0 (by omega),
            decide_eq_true (show 8 ≤ w from by omega),
            decide_eq_true (show 16 ≤ w from by omega),
            decide_eq_true (show 24 ≤ w from by omega)]
          simp

theorem spread4_testBit (pa pb pc pd : Nat) (hdc : pd < pc) (hcb : pc < pb)
    (hba : pb < pa) (βa βb βc βd : Nat) (ha : βa ≤ 1) (hb : βb ≤ 1) (hc : βc ≤ 1)
    (hd : βd ≤ 1) (w : Nat) :
    (βa <<< pa ||| βb <<< pb ||| βc <<< pc ||| βd <<< pd).testBit w =
      if w = pa then βa.testBit 0
      else if w = pb then βb.testBit 0
      else if w = pc then βc.testBit 0
      else if w = pd then βd.testBit 0
      else false := by
  simp only [Nat.testBit_or, Nat.testBit_shiftLeft]
  have hterm : ∀ (β p : Nat), β ≤ 1 →
      (decide (p ≤ w) && β.testBit (w - p)) = (if w = p then β.testBit 0 else false) := by
    intro β p hβ
    by_cases hw : w = p
    · rw [if_pos hw, decide_eq_true (by omega), Bool.true_and, hw, Nat.sub_self]
    · rw [if_neg hw]
      by_cases hpw : p ≤ w
      · rw [decide_eq_true hpw, Bool.true_and]
        exact le_one_testBit hβ (w - p) (by omega)
      · rw [decide_eq_false hpw, Bool.false_and]
  rw [hterm βa pa ha, hterm βb pb hb, hterm βc pc hc, hterm βd pd hd]
  by_cases w1 : w = pa
  · rw [if_pos w1, if_pos w1, if_neg (by omega), if_neg (by omega), if_neg (by omega)]
    simp
  · rw [if_neg w1, if_neg w1]
    by_cases w2 : w = pb
    · rw [if_pos w2, if_pos w2, if_neg (by omega), if_neg (by omega)]
      simp
    · rw [if_neg w2, if_neg w2]
      by_cases w3 : w = pc
      · rw [if_pos w3, if_pos w3, if_neg (by omega)]
        simp
      · rw [if_neg w3, if_neg w3]
        by_cases w4 : w = pd
        · rw [if_pos w4]
          simp
        · rw [if_neg w4]
          simp

/-- `m4x8d.x & (0x80808080 >> i)` isolates bit `7 - i` of each packed
byte, at positions 31-i, 23-i, 15-i, 7-i. -/
theorem maskExtract (i : Nat) (hi : i < 8) (b0 b1 b2 b3 : Nat) (h0 : b0 < 256)
    (h1 : b1 < 256) (h2 : b2 < 256) (h3 : b3 < 256) :
    (b3 ||| b2 <<< 8 ||| b1 <<< 16 ||| b0 <<< 24) &&& (0x80808080 >>> i)
      = ((b0 >>> (7 - i)) &&& 1) <<< (31 - i) ||| ((b1 >>> (7 - i)) &&& 1) <<< (23 - i)
        ||| ((b2 >>> (7 - i)) &&& 1) <<< (15 - i) ||| ((b3 >>> (7 - i)) &&& 1) <<< (7 - i) := by
  apply Nat.eq_of_testBit_eq
  intro w
  rw [Nat.testBit_and, Nat.testBit_shiftRight, testBit_0x80808080,
    packed4_testBit b0 b1 b2 b3 h0 h1 h2 h3 w,
    spread4_testBit (31 - i) (23 - i) (15 - i) (7 - i) (by omega) (by omega) (by omega)
      _ _ _ _ Nat.and_le_right Nat.and_le_right Nat.and_le_right Nat.and_le_right w]
  by_cases w1 : w = 31 - i
  · rw [decide_eq_true (show i + w = 7 ∨ i + w = 15 ∨ i + w = 23 ∨ i + w = 31 from by omega),
      Bool.and_true, if_neg (show ¬(w < 8) from by omega),
      if_neg (show ¬(w < 16) from by omega), if_neg (show ¬(w < 24) from by omega),
      if_pos (show w < 32 from by omega), if_pos w1,
      show (((b0 >>> (7 - i)) &&& 1) : Nat).testBit 0 = b0.testBit (7 - i) from by
        rw [Nat.testBit_and, Nat.testBit_shiftRight, Nat.add_zero]
        simp,
      show w - 24 = 7 - i from by omega]
  · by_cases w2 : w = 23 - i
    · rw [decide_eq_true (show i + w = 7 ∨ i + w = 15 ∨ i + w = 23 ∨ i + w = 31 from by omega),
        Bool.and_true, if_neg (show ¬(w < 8) from by omega),
        if_neg (show ¬(w < 16) from by omega), if_pos (show w < 24 from by omega),
        if_neg w1, if_pos w2,
        show (((b1 >>> (7 - i)) &&& 1) : Nat).testBit 0 = b1.testBit (7 - i) from by
          rw [Nat.testBit_and, Nat.testBit_shiftRight, Nat.add_zero]
          simp,
        show w - 16 = 7 - i from by omega]
    · by_cases w3 : w = 15 - i
      · rw [decide_eq_true (show i + w = 7 ∨ i + w = 15 ∨ i + w = 23 ∨ i + w = 31 from by omega),
          Bool.and_true, if_neg (show ¬(w < 8) from by omega),
          if_pos (show w < 16 from by omega),
          if_neg w1, if_neg w2, if_pos w3,
          show (((b2 >>> (7 - i)) &&& 1) : Nat).testBit 0 = b2.testBit (7 - i) from by
            rw [Nat.testBit_and, Nat.testBit_shiftRight, Nat.add_zero]
            simp,
          show w - 8 = 7 - i from by omega]
      · by_cases w4 : w = 7 - i
        · rw [decide_eq_true (show i + w = 7 ∨ i + w = 15 ∨ i + w = 23 ∨ i + w = 31 from by omega),
            Bool.and_true, if_pos (show w < 8 from by omega),
            if_neg w1, if_neg w2, if_neg w3, if_pos w4,
            show (((b3 >>> (7 - i)) &&& 1) : Nat).testBit 0 = b3.testBit (7 - i) from by
              rw [Nat.testBit_and, Nat.testBit_shiftRight, Nat.add_zero]
              simp,
            w4]
        · rw [decide_eq_false (show ¬(i + w = 7 ∨ i + w = 15 ∨ i + w = 23 ∨ i + w = 31) from by
              omega),
            Bool.and_false, if_neg w1, if_neg w2, if_neg w3, if_neg w4]

/-- The `i = 7` subcolumn: shifting the register left by 7 and masking
with `0x80808080` isolates bit 0 of each packed byte. -/
theorem maskExtract7 (b0 b1 b2 b3 : Nat) (h0 : b0 < 256) (h1 : b1 < 256)
    (h2 : b2 < 256) (h3 : b3 < 256) :
    (((b3 ||| b2 <<< 8 ||| b1 <<< 16 ||| b0 <<< 24) <<< 7) % 2 ^ 32) &&& (0x80808080 >>> 0)
      = (b0 &&& 1) <<< 31 ||| (b1 &&& 1) <<< 23 ||| (b2 &&& 1) <<< 15 ||| (b3 &&& 1) <<< 7 := by
  apply Nat.eq_of_testBit_eq
  intro w
  rw [Nat.testBit_and, Nat.testBit_mod_two_pow, Nat.testBit_shiftLeft,
    Nat.testBit_shiftRight, testBit_0x80808080,
    spread4_testBit 31 23 15 7 (by omega) (by omega) (by omega) _ _ _ _
      Nat.and_le_right Nat.and_le_right Nat.and_le_right Nat.and_le_right w]
  by_cases hw : w < 32
  · rw [decide_eq_true hw, Bool.true_and]
    by_cases h7 : 7 ≤ w
    · rw [decide_eq_true h7, Bool.true_and,
        packed4_testBit b0 b1 b2 b3 h0 h1 h2 h3 (w - 7)]
      by_cases w31 : w = 31
      · rw [decide_eq_true (show 0 + w = 7 ∨ 0 + w = 15 ∨ 0 + w = 23 ∨ 0 + w = 31 from by
            omega),
          Bool.and_true, if_neg (show ¬(w - 7 < 8) from by omega),
          if_neg (show ¬(w - 7 < 16) from by omega),
          if_neg (show ¬(w - 7 < 24) from by omega),
          if_pos (show w - 7 < 32 from by omega), if_pos w31,
          show ((b0 &&& 1 : Nat)).testBit 0 = b0.testBit 0 from by
            rw [Nat.testBit_and]
            simp,
          show w - 7 - 24 = 0 from by omega]
      · by_cases w23 : w = 23
        · rw [decide_eq_true (show 0 + w = 7 ∨ 0 + w = 15 ∨ 0 + w = 23 ∨ 0 + w = 31 from by
              omega),
            Bool.and_true, if_neg (show ¬(w - 7 < 8) from by omega),
            if_neg (show ¬(w - 7 < 16) from by omega),
            if_pos (show w - 7 < 24 from by omega), if_neg w31, if_pos w23,
            show ((b1 &&& 1 : Nat)).testBit 0 = b1.testBit 0 from by
              rw [Nat.testBit_and]
              simp,
            show w - 7 - 16 = 0 from by omega]
        · by_cases w15 : w = 15
          · rw [decide_eq_true (show 0 + w = 7 ∨ 0 + w = 15 ∨ 0 + w = 23 ∨ 0 + w = 31 from by
                omega),
              Bool.and_true, if_neg (show ¬(w - 7 < 8) from by omega),
              if_pos (show w - 7 < 16 from by omega), if_neg w31, if_neg w23, if_pos w15,
              show ((b2 &&& 1 : Nat)).testBit 0 = b2.testBit 0 from by
                rw [Nat.testBit_and]
                simp,
              show w - 7 - 8 = 0 from by omega]
          · by_cases w7 : w = 7
            · rw [decide_eq_true (show 0 + w = 7 ∨ 0 + w = 15 ∨ 0 + w = 23 ∨ 0 + w = 31 from by
                  omega),
                Bool.and_true, if_pos (show w - 7 < 8 from by omega),
                if_neg w31, if_neg w23, if_neg w15, if_pos w7,
                show ((b3 &&& 1 : Nat)).testBit 0 = b3.testBit 0 from by
                  rw [Nat.testBit_and]
                  simp,
                show w - 7 = 0 from by omega]
            · rw [decide_eq_false (show
                  ¬(0 + w = 7 ∨ 0 + w = 15 ∨ 0 + w = 23 ∨ 0 + w = 31) from by omega),
                Bool.and_false, if_neg w31, if_neg w23, if_neg w15, if_neg w7]
    · rw [decide_eq_false h7, Bool.false_and,
        decide_eq_false (show ¬(0 + w = 7 ∨ 0 + w = 15 ∨ 0 + w = 23 ∨ 0 + w = 31) from by
          omega),
        Bool.and_false, if_neg (by omega), if_neg (by omega), if_neg (by omega),
        if_neg (by omega)]
  · rw [decide_eq_false hw, Bool.false_and, Bool.false_and, if_neg (by omega),
      if_neg (by omega), if_neg (by omega), if_neg (by omega)]

/-- The multiply trick gathers the four isolated bits into a nibble. -/
theorem mulGather : ∀ i, i < 7 → ∀ a, a < 2 → ∀ b, b < 2 → ∀ c, c < 2 → ∀ d, d < 2 →
    getMultiplyUpperPart
        (a <<< (31 - i) ||| b <<< (23 - i) ||| c <<< (15 - i) ||| d <<< (7 - i))
        ((0x02040810 <<< i) % 2 ^ 32) &&& 0x0f
      = (a <<< 3 ||| b <<< 2 ||| c <<< 1 ||| d) := by
  decide

/-- One nibble of a scalar-path output byte (subcolumns 0-6). -/
theorem scalarNibble (i : Nat) (hi : i < 7) (b0 b1 b2 b3 : Nat) (h0 : b0 < 256)
    (h1 : b1 < 256) (h2 : b2 < 256) (h3 : b3 < 256) :
    getMultiplyUpperPart ((b3 ||| b2 <<< 8 ||| b1 <<< 16 ||| b0 <<< 24) &&& (0x80808080 >>> i))
        ((0x02040810 <<< i) % 2 ^ 32) &&& 0x0f
      = ((b0 >>> (7 - i)) &&& 1) <<< 3 ||| ((b1 >>> (7 - i)) &&& 1) <<< 2
        ||| ((b2 >>> (7 - i)) &&& 1) <<< 1 ||| ((b3 >>> (7 - i)) &&& 1) := by
  rw [maskExtract i (by omega) b0 b1 b2 b3 h0 h1 h2 h3]
  exact mulGather i hi _ (by have := @Nat.and_le_right (b0 >>> (7 - i)) 1; omega)
    _ (by have := @Nat.and_le_right (b1 >>> (7 - i)) 1; omega)
    _ (by have := @Nat.and_le_right (b2 >>> (7 - i)) 1; omega)
    _ (by have := @Nat.and_le_right (b3 >>> (7 - i)) 1; omega)

/-- One nibble of a scalar-path output byte (subcolumn 7). -/
theorem scalarNibble7 (b0 b1 b2 b3 : Nat) (h0 : b0 < 256) (h1 : b1 < 256)
    (h2 : b2 < 256) (h3 : b3 < 256) :
    getMultiplyUpperPart
        ((((b3 ||| b2 <<< 8 ||| b1 <<< 16 ||| b0 <<< 24) <<< 7) % 2 ^ 32) &&& (0x80808080 >>> 0))
        ((0x02040810 <<< 0) % 2 ^ 32) &&& 0x0f
      = ((b0 &&& 1) <<< 3 ||| (b1 &&& 1) <<< 2 ||| (b2 &&& 1) <<< 1 ||| (b3 &&& 1)) := by
  rw [maskExtract7 b0 b1 b2 b3 h0 h1 h2 h3]
  exact mulGather 0 (by omega)
    _ (by have := @Nat.and_le_right b0 1; omega)
    _ (by have := @Nat.and_le_right b1 1; omega)
    _ (by have := @Nat.and_le_right b2 1; omega)
    _ (by have := @Nat.and_le_right b3 1; omega)

/-- Extracting bit `7 - k` of a byte assembled as two bit-nibbles. -/
theorem byteBitsScalar : ∀ k ∈ List.range 8, ∀ a ∈ List.range 2, ∀ b ∈ List.range 2,
    ∀ c ∈ List.range 2, ∀ d ∈ List.range 2, ∀ e ∈ List.range 2, ∀ f ∈ List.range 2,
    ∀ g ∈ List.range 2, ∀ h ∈ List.range 2,
    ((((a <<< 3 ||| b <<< 2 ||| c <<< 1 ||| d) <<< 4) |||
      (e <<< 3 ||| f <<< 2 ||| g <<< 1 ||| h)) >>> (7 - k)) &&& 1 =
      [a, b, c, d, e, f, g, h].getD k 0 := by
  decide

/-- Extracting bit `7 - k` of a movemask byte. -/
theorem byteBitsSse : ∀ k ∈ List.range 8, ∀ a ∈ List.range 2, ∀ b ∈ List.range 2,
    ∀ c ∈ List.range 2, ∀ d ∈ List.range 2, ∀ e ∈ List.range 2, ∀ f ∈ List.range 2,
    ∀ g ∈ List.range 2, ∀ h ∈ List.range 2,
    ((a ||| b <<< 1 ||| c <<< 2 ||| d <<< 3 ||| e <<< 4 ||| f <<< 5 ||| g <<< 6 ||| h <<< 7)
        >>> (7 - k)) &&& 1 =
      [h, g, f, e, d, c, b, a].getD k 0 := by
  decide

theorem packed8_testBit (b0 b1 b2 b3 b4 b5 b6 b7 : Nat) (h0 : b0 < 256) (h1 : b1 < 256)
    (h2 : b2 < 256) (h3 : b3 < 256) (h4 : b4 < 256) (h5 : b5 < 256) (h6 : b6 < 256)
    (h7 : b7 < 256) (w : Nat) :
    (b7 ||| b6 <<< 8 ||| b5 <<< 16 ||| b4 <<< 24 ||| b3 <<< 32 ||| b2 <<< 40 |||
        b1 <<< 48 ||| b0 <<< 56).testBit w =
      if w < 8 then b7.testBit w
      else if w < 16 then b6.testBit (w - 8)
      else if w < 24 then b5.testBit (w - 16)
      else if w < 32 then b4.testBit (w - 24)
      else if w < 40 then b3.testBit (w - 32)
      else if w < 48 then b2.testBit (w - 40)
      else if w < 56 then b1.testBit (w - 48)
      else if w < 64 then b0.testBit (w - 56)
      else false := by
  have hfls : ∀ (b : Nat), b < 256 → ∀ m, 8 ≤ m → b.testBit m = false := by
    intro b hb m hm
    exact testBit_false_of_lt_pow 8 m hb hm
  have hoff : ∀ (b : Nat), ∀ p, (decide (p ≤ w) && b.testBit (w - p)) =
      if p ≤ w then b.testBit (w - p) else false := by
    intro b p
    by_cases hp : p ≤ w
    · rw [if_pos hp, decide_eq_true hp, Bool.true_and]
    · rw [if_neg hp, decide_eq_false hp, Bool.false_and]
  simp only [Nat.testBit_or, Nat.testBit_shiftLeft, hoff]
  by_cases c0 : w < 8
  · rw [if_pos c0, if_neg (show ¬(8 ≤ w) from by omega),
      if_neg (show ¬(16 ≤ w) from by omega), if_neg (show ¬(24 ≤ w) from by omega),
      if_neg (show ¬(32 ≤ w) from by omega), if_neg (show ¬(40 ≤ w) from by omega),
      if_neg (show ¬(48 ≤ w) from by omega), if_neg (show ¬(56 ≤ w) from by omega)]
    simp
  · rw [if_neg c0, hfls b7 h7 w (by omega)]
    by_cases c1 : w < 16
    · rw [if_pos c1, if_pos (show 8 ≤ w from by omega),
        if_neg (show ¬(16 ≤ w) from by omega), if_neg (show ¬(24 ≤ w) from by omega),
        if_neg (show ¬(32 ≤ w) from by omega), if_neg (show ¬(40 ≤ w) from by omega),
        if_neg (show ¬(48 ≤ w) from by omega), if_neg (show ¬(56 ≤ w) from by omega)]
      simp
    · rw [if_neg c1, hfls b6 h6 (w - 8) (by omega)]
      by_cases c2 : w < 24
      · rw [if_pos c2, if_pos (show 8 ≤ w from by omega),
          if_pos (show 16 ≤ w from by omega), if_neg (show ¬(24 ≤ w) from by omega),
          if_neg (show ¬(32 ≤ w) from by omega), if_neg (show ¬(40 ≤ w) from by omega),
          if_neg (show ¬(48 ≤ w) from by omega), if_neg (show ¬(56 ≤ w) from by omega)]
        simp
      · rw [if_neg c2, hfls b5 h5 (w - 16) (by omega)]
        by_cases c3 : w < 32
        · rw [if_pos c3, if_pos (show 8 ≤ w from by omega),
            if_pos (show 16 ≤ w from by omega), if_pos (show 24 ≤ w from by omega),
            if_neg (show ¬(32 ≤ w) from by omega), if_neg (show ¬(40 ≤ w) from by omega),
            if_neg (show ¬(48 ≤ w) from by omega), if_neg (show ¬(56 ≤ w) from by omega)]
          simp
        · rw [if_neg c3, hfls b4 h4 (w - 24) (by omega)]
          by_cases c4 : w < 40
          · rw [if_pos c4, if_pos (show 8 ≤ w from by omega),
              if_pos (show 16 ≤ w from by omega), if_pos (show 24 ≤ w from by omega),
              if_pos (show 32 ≤ w from by omega), if_neg (show ¬(40 ≤ w) from by omega),
              if_neg (show ¬(48 ≤ w) from by omega), if_neg (show ¬(56 ≤ w) from by omega)]
            simp
          · rw [if_neg c4, hfls b3 h3 (w - 32) (by omega)]
            by_cases c5 : w < 48
            · rw [if_pos c5, if_pos (show 8 ≤ w from by omega),
                if_pos (show 16 ≤ w from by omega), if_pos (show 24 ≤ w from by omega),
                if_pos (show 32 ≤ w from by omega), if_pos (show 40 ≤ w from by omega),
                if_neg (show ¬(48 ≤ w) from by omega),
                if_neg (show ¬(56 ≤ w) from by omega)]
              simp
            · rw [if_neg c5, hfls b2 h2 (w - 40) (by omega)]
              by_cases c6 : w < 56
              · rw [if_pos c6, if_pos (show 8 ≤ w from by omega),
                  if_pos (show 16 ≤ w from by omega), if_pos (show 24 ≤ w from by omega),
                  if_pos (show 32 ≤ w from by omega), if_pos (show 40 ≤ w from by omega),
                  if_pos (show 48 ≤ w from by omega),
                  if_neg (show ¬(56 ≤ w) from by omega)]
                simp
              · rw [if_neg c6, hfls b1 h1 (w - 48) (by omega)]
                by_cases c7 : w < 64
                · rw [if_pos c7, if_pos (show 8 ≤ w from by omega),
                    if_pos (show 16 ≤ w from by omega), if_pos (show 24 ≤ w from by omega),
                    if_pos (show 32 ≤ w from by omega), if_pos (show 40 ≤ w from by omega),
                    if_pos (show 48 ≤ w from by omega), if_pos (show 56 ≤ w from by omega)]
                  simp
                · rw [if_neg c7, hfls b0 h0 (w - 56) (by omega),
                    if_pos (show 8 ≤ w from by omega), if_pos (show 16 ≤ w from by omega),
                    if_pos (show 24 ≤ w from by omega), if_pos (show 32 ≤ w from by omega),
                    if_pos (show 40 ≤ w from by omega), if_pos (show 48 ≤ w from by omega),
                    if_pos (show 56 ≤ w from by omega)]
                  simp

/-- Bit `8j + v` of an 8-byte little-endian lane is bit `v` of byte
`j`. -/
theorem packed8_bit (b0 b1 b2 b3 b4 b5 b6 b7 : Nat) (h0 : b0 < 256) (h1 : b1 < 256)
    (h2 : b2 < 256) (h3 : b3 < 256) (h4 : b4 < 256) (h5 : b5 < 256) (h6 : b6 < 256)
    (h7 : b7 < 256) (j v : Nat) (hv : v < 8) (hj : j < 8) :
    ((b7 ||| b6 <<< 8 ||| b5 <<< 16 ||| b4 <<< 24 ||| b3 <<< 32 ||| b2 <<< 40 |||
        b1 <<< 48 ||| b0 <<< 56) >>> (8 * j + v)) &&& 1 =
      (([b7, b6, b5, b4, b3, b2, b1, b0].getD j 0) >>> v) &&& 1 := by
  rw [bitVal, bitVal,
    packed8_testBit b0 b1 b2 b3 b4 b5 b6 b7 h0 h1 h2 h3 h4 h5 h6 h7 (8 * j + v)]
  interval_cases j
  · rw [if_pos (show 8 * 0 + v < 8 from by omega), show 8 * 0 + v = v from by omega]
    rfl
  · rw [if_neg (show ¬(8 * 1 + v < 8) from by omega),
      if_pos (show 8 * 1 + v < 16 from by omega), show 8 * 1 + v - 8 = v from by omega]
    rfl
  · rw [if_neg (show ¬(8 * 2 + v < 8) from by omega),
      if_neg (show ¬(8 * 2 + v < 16) from by omega),
      if_pos (show 8 * 2 + v < 24 from by omega), show 8 * 2 + v - 16 = v from by omega]
    rfl
  · rw [if_neg (show ¬(8 * 3 + v < 8) from by omega),
      if_neg (show ¬(8 * 3 + v < 16) from by omega),
      if_neg (show ¬(8 * 3 + v < 24) from by omega),
      if_pos (show 8 * 3 + v < 32 from by omega), show 8 * 3 + v - 24 = v from by omega]
    rfl
  · rw [if_neg (show ¬(8 * 4 + v < 8) from by omega),
      if_neg (show ¬(8 * 4 + v < 16) from by omega),
      if_neg (show ¬(8 * 4 + v < 24) from by omega),
      if_neg (show ¬(8 * 4 + v < 32) from by omega),
      if_pos (show 8 * 4 + v < 40 from by omega), show 8 * 4 + v - 32 = v from by omega]
    rfl
  · rw [if_neg (show ¬(8 * 5 + v < 8) from by omega),
      if_neg (show ¬(8 * 5 + v < 16) from by omega),
      if_neg (show ¬(8 * 5 + v < 24) from by omega),
      if_neg (show ¬(8 * 5 + v < 32) from by omega),
      if_neg (show ¬(8 * 5 + v < 40) from by omega),
      if_pos (show 8 * 5 + v < 48 from by omega), show 8 * 5 + v - 40 = v from by omega]
    rfl
  · rw [if_neg (show ¬(8 * 6 + v < 8) from by omega),
      if_neg (show ¬(8 * 6 + v < 16) from by omega),
      if_neg (show ¬(8 * 6 + v < 24) from by omega),
      if_neg (show ¬(8 * 6 + v < 32) from by omega),
      if_neg (show ¬(8 * 6 + v < 40) from by omega),
      if_neg (show ¬(8 * 6 + v < 48) from by omega),
      if_pos (show 8 * 6 + v < 56 from by omega), show 8 * 6 + v - 48 = v from by omega]
    rfl
  · rw [if_neg (show ¬(8 * 7 + v < 8) from by omega),
      if_neg (show ¬(8 * 7 + v < 16) from by omega),
      if_neg (show ¬(8 * 7 + v < 24) from by omega),
      if_neg (show ¬(8 * 7 + v < 32) from by omega),
      if_neg (show ¬(8 * 7 + v < 40) from by omega),
      if_neg (show ¬(8 * 7 + v < 48) from by omega),
      if_neg (show ¬(8 * 7 + v < 56) from by omega),
      if_pos (show 8 * 7 + v < 64 from by omega), show 8 * 7 + v - 56 = v from by omega]
    rfl

theorem shl_mod_bit (x i m : Nat) (him : i ≤ m) (hm : m < 64) :
    (((x <<< i) % 2 ^ 64) >>> m) &&& 1 = (x >>> (m - i)) &&& 1 := by
  have h : ((x <<< i) % 2 ^ 64).testBit m = x.testBit (m - i) := by
    rw [Nat.testBit_mod_two_pow, decide_eq_true hm, Bool.true_and, Nat.testBit_shiftLeft,
      decide_eq_true him, Bool.true_and]
  rw [bitVal, bitVal, h]

theorem or_mod256 (a b : Nat) (ha : a < 256) : (a ||| b <<< 8) % 256 = a := by
  apply Nat.eq_of_testBit_eq
  intro w
  rw [testBit_mod256, Nat.testBit_or, Nat.testBit_shiftLeft]
  by_cases hw : w < 8
  · rw [decide_eq_true hw, Bool.true_and,
      decide_eq_false (show ¬(8 ≤ w) from by omega), Bool.false_and, Bool.or_false]
  · rw [decide_eq_false hw, Bool.false_and, testBit_false_of_lt_pow 8 w ha (by omega)]

theorem or_shr8 (a b : Nat) (ha : a < 256) : (a ||| b <<< 8) >>> 8 = b := by
  apply Nat.eq_of_testBit_eq
  intro w
  rw [Nat.testBit_shiftRight, Nat.testBit_or, Nat.testBit_shiftLeft,
    testBit_false_of_lt_pow 8 (8 + w) ha (by omega), Bool.false_or,
    decide_eq_true (show 8 ≤ 8 + w from by omega), Bool.true_and,
    show 8 + w - 8 = w from by omega]

theorem mmByte_lt (x : Nat) : mmByte x < 256 := by
  unfold mmByte
  have h : ∀ m j : Nat, j ≤ 7 → ((x >>> m) &&& 1) <<< j < 2 ^ 8 := by
    intro m j hj
    have h1 : (x >>> m) &&& 1 ≤ 1 := Nat.and_le_right
    rw [Nat.shiftLeft_eq]
    have h2 : (2 : Nat) ^ j ≤ 2 ^ 7 := Nat.pow_le_pow_right (by omega) hj
    have h3 : ((x >>> m) &&& 1) * 2 ^ j ≤ 1 * 2 ^ 7 :=
      Nat.mul_le_mul h1 h2
    omega
  have hfirst : (x >>> 7) &&& 1 < 2 ^ 8 := by
    have := @Nat.and_le_right (x >>> 7) 1
    omega
  show _ < 2 ^ 8
  exact Nat.or_lt_two_pow (Nat.or_lt_two_pow (Nat.or_lt_two_pow (Nat.or_lt_two_pow
    (Nat.or_lt_two_pow (Nat.or_lt_two_pow (Nat.or_lt_two_pow hfirst
      (h 15 1 (by omega))) (h 23 2 (by omega))) (h 31 3 (by omega)))
        (h 39 4 (by omega))) (h 47 5 (by omega))) (h 55 6 (by omega))) (h 63 7 (by omega))

/-- A step function that never writes address `a` leaves the fold's
value there unchanged. -/
theorem foldl_blocks_frame (G : Nat → (Nat → Nat) → Nat → Nat) (a : Nat) :
    ∀ (l : List Nat) (f : Nat → Nat),
      (∀ col ∈ l, ∀ acc, G col acc a = acc a) →
      (l.foldl (fun acc col => G col acc) f) a = f a := by
  intro l
  induction l with
  | nil => intro f _; rfl
  | cons y rest ih =>
    intro f hp
    rw [List.foldl_cons, ih (G y f) (fun col hc acc => hp col (List.mem_cons_of_mem y hc) acc),
      hp y (List.mem_cons_self y rest) f]

/-- If every step either leaves address `a` alone or writes the fixed
value `v` there, and some step writes it, the fold ends with `v`. -/
theorem foldl_blocks_hit (G : Nat → (Nat → Nat) → Nat → Nat) (a v : Nat) :
    ∀ (l : List Nat) (f : Nat → Nat),
      (∀ col ∈ l, (∀ acc, G col acc a = acc a) ∨ (∀ acc, G col acc a = v)) →
      ∀ col0 ∈ l, (∀ acc, G col0 acc a = v) →
      (l.foldl (fun acc col => G col acc) f) a = v := by
  intro l
  induction l with
  | nil => intro f _ col0 h0; cases h0
  | cons y rest ih =>
    intro f hp col0 hmem hhit
    rw [List.foldl_cons]
    by_cases hr : ∃ c ∈ rest, ∀ acc, G c acc a = v
    · obtain ⟨c1, hc1, hv1⟩ := hr
      exact ih (G y f) (fun col hc => hp col (List.mem_cons_of_mem y hc)) c1 hc1 hv1
    · have hcol0 : col0 = y := by
        rcases List.mem_cons.mp hmem with h | h
        · exact h
        · exact absurd ⟨col0, h, hhit⟩ hr
      subst hcol0
      have hframe : ∀ col ∈ rest, ∀ acc, G col acc a = acc a := by
        intro col hc acc
        rcases hp col (List.mem_cons_of_mem col0 hc) with hf | hv
        · exact hf acc
        · exact absurd ⟨col, hc, hv⟩ hr
      rw [foldl_blocks_frame G a rest (G col0 f) hframe, hhit f]

/-- A chain of `updByte`s whose addresses all avoid `a` leaves `a`
unchanged. -/
theorem foldl_updByte_ne (addr val : Nat → Nat) :
    ∀ (l : List Nat) (f : Nat → Nat) (a : Nat), (∀ x ∈ l, addr x ≠ a) →
      (l.foldl (fun acc x => updByte acc (addr x) (val x)) f) a = f a := by
  intro l
  induction l with
  | nil => intro f a _; rfl
  | cons y rest ih =>
    intro f a hp
    rw [List.foldl_cons, ih (updByte f (addr y) (val y)) a
      (fun x hx => hp x (List.mem_cons_of_mem y hx))]
    show (if a = addr y then val y else f a) = f a
    rw [if_neg (fun h => hp y (List.mem_cons_self y rest) h.symm)]

/-- A chain of `updByte`s in which every write to `a` stores the same
value ends with that value at `a`. -/
theorem foldl_updByte_hit (addr val : Nat → Nat) :
    ∀ (l : List Nat) (f : Nat → Nat) (a x0 : Nat), x0 ∈ l → addr x0 = a →
      (∀ x ∈ l, addr x = a → val x = val x0) →
      (l.foldl (fun acc x => updByte acc (addr x) (val x)) f) a = val x0 := by
  intro l
  induction l with
  | nil => intro f a x0 h _ _; cases h
  | cons y rest ih =>
    intro f a x0 hmem haddr hagree
    rw [List.foldl_cons]
    by_cases hr : ∃ x ∈ rest, addr x = a
    · obtain ⟨x1, hx1, ha1⟩ := hr
      rw [ih (updByte f (addr y) (val y)) a x1 hx1 ha1
        (fun x hx hxa => (hagree x (List.mem_cons_of_mem y hx) hxa).trans
          (hagree x1 (List.mem_cons_of_mem y hx1) ha1).symm),
        hagree x1 (List.mem_cons_of_mem y hx1) ha1]
    · have hx0 : x0 = y := by
        rcases List.mem_cons.mp hmem with h | h
        · exact h
        · exact absurd ⟨x0, h, haddr⟩ hr
      subst hx0
      rw [foldl_updByte_ne addr val rest (updByte f (addr x0) (val x0)) a
        (fun x hx he => hr ⟨x, hx, he⟩)]
      show (if a = addr x0 then val x0 else f a) = val x0
      rw [if_pos haddr.symm]

/-- Result addresses `p * D + r` with `r < D` decompose uniquely. -/
theorem block_addr_inj (D p q r1 r2 : Nat) (hD : 0 < D) (h1 : r1 < D) (h2 : r2 < D)
    (he : p * D + r1 = q * D + r2) : p = q ∧ r1 = r2 := by
  have hp : (p * D + r1) / D = p := by
    rw [Nat.add_comm, Nat.add_mul_div_right r1 p hD, Nat.div_eq_of_lt h1, Nat.zero_add]
  have hq : (q * D + r2) / D = q := by
    rw [Nat.add_comm, Nat.add_mul_div_right r2 q hD, Nat.div_eq_of_lt h2, Nat.zero_add]
  have hpq : p = q := by rw [← hp, ← hq, he]
  refine ⟨hpq, ?_⟩
  subst hpq
  omega

/-- The scalar transpose's byte at result address `c * (R/8) + rb` is the
block byte computed by the 8x8 tile containing source column `c` and
source rows `8rb .. 8rb+7`. -/
theorem scalarTranspose_char (bytes : Nat → Nat) (R C : Nat)
    (hR : R % 8 = 0) (hR0 : 8 ≤ R) (hC : C % 8 = 0) (hC0 : 8 ≤ C)
    (c rb : Nat) (hc : c < C) (hrb : rb < R / 8) :
    scalarTranspose bytes R C (c * (R / 8) + rb)
      = scalarBlockByte bytes C (8 * rb) (8 * (c / 8)) (c % 8) := by
  have hD : 0 < R / 8 := by omega
  have hcolhit : ∀ acc2 : Nat → Nat,
      ((List.range 8).foldl (fun acc3 i =>
        updByte acc3 ((8 * (c / 8) + i) * (R / 8) + 8 * rb / 8)
          (scalarBlockByte bytes C (8 * rb) (8 * (c / 8)) i)) acc2) (c * (R / 8) + rb)
        = scalarBlockByte bytes C (8 * rb) (8 * (c / 8)) (c % 8) := by
    intro acc2
    apply foldl_updByte_hit (fun i => (8 * (c / 8) + i) * (R / 8) + 8 * rb / 8)
      (fun i => scalarBlockByte bytes C (8 * rb) (8 * (c / 8)) i)
      (List.range 8) acc2 (c * (R / 8) + rb) (c % 8)
      (List.mem_range.mpr (by omega))
      (by show (8 * (c / 8) + c % 8) * (R / 8) + 8 * rb / 8 = c * (R / 8) + rb
          rw [show 8 * (c / 8) + c % 8 = c from by omega,
            show 8 * rb / 8 = rb from by omega])
    intro x hx hxa
    rw [show 8 * rb / 8 = rb from by omega] at hxa
    obtain ⟨h1, _⟩ := block_addr_inj (R / 8) (8 * (c / 8) + x) c rb rb hD hrb hrb hxa
    rw [show x = c % 8 from by omega]
  have hcolframe : ∀ col, col % 8 = 0 → col ≠ 8 * (c / 8) → ∀ acc2 : Nat → Nat,
      ((List.range 8).foldl (fun acc3 i =>
        updByte acc3 ((col + i) * (R / 8) + 8 * rb / 8)
          (scalarBlockByte bytes C (8 * rb) col i)) acc2) (c * (R / 8) + rb)
        = acc2 (c * (R / 8) + rb) := by
    intro col hcol8 hcolne acc2
    apply foldl_updByte_ne
    intro i hi he
    rw [show 8 * rb / 8 = rb from by omega] at he
    obtain ⟨h1, _⟩ := block_addr_inj (R / 8) (col + i) c rb rb hD hrb hrb he
    have hi8 : i < 8 := List.mem_range.mp hi
    omega
  have hrowframe : ∀ row, row / 8 ≠ rb → row / 8 < R / 8 → ∀ acc : Nat → Nat,
      ((List.range' 0 (C / 8) 8).foldl (fun acc2 col =>
        (List.range 8).foldl (fun acc3 i =>
          updByte acc3 ((col + i) * (R / 8) + row / 8) (scalarBlockByte bytes C row col i))
          acc2) acc) (c * (R / 8) + rb) = acc (c * (R / 8) + rb) := by
    intro row hrow hrowlt acc
    apply foldl_blocks_frame
    intro col hcol acc2
    apply foldl_updByte_ne
    intro i hi he
    obtain ⟨_, h2⟩ := block_addr_inj (R / 8) (col + i) c (row / 8) rb hD hrowlt hrb he
    exact hrow h2
  have hrowhit : ∀ acc : Nat → Nat,
      ((List.range' 0 (C / 8) 8).foldl (fun acc2 col =>
        (List.range 8).foldl (fun acc3 i =>
          updByte acc3 ((col + i) * (R / 8) + 8 * rb / 8)
            (scalarBlockByte bytes C (8 * rb) col i)) acc2) acc) (c * (R / 8) + rb)
        = scalarBlockByte bytes C (8 * rb) (8 * (c / 8)) (c % 8) := by
    intro acc
    apply foldl_blocks_hit _ _ _ (List.range' 0 (C / 8) 8) acc ?_ (8 * (c / 8)) ?_ hcolhit
    · intro col hcol
      obtain ⟨k, hk, hcolk⟩ := List.mem_range'.mp hcol
      by_cases hcc : col = 8 * (c / 8)
      · subst hcc
        exact Or.inr hcolhit
      · exact Or.inl (hcolframe col (by omega) hcc)
    · exact List.mem_range'.mpr ⟨c / 8, by omega, by omega⟩
  unfold scalarTranspose
  apply foldl_blocks_hit _ _ _ (List.range' 0 (R / 8) 8) _ ?_ (8 * rb) ?_ hrowhit
  · intro row hrow
    obtain ⟨m, hm, hrowm⟩ := List.mem_range'.mp hrow
    by_cases hmr : row = 8 * rb
    · subst hmr
      exact Or.inr hrowhit
    · exact Or.inl (hrowframe row (by omega) (by omega))
  · exact List.mem_range'.mpr ⟨rb, hrb, by omega⟩

/-- Scalar-path correctness: bit `(c, r)` of the transposed matrix is
bit `(r, c)` of the source matrix. -/
theorem scalarTranspose_getBit (bytes : Nat → Nat) (R C : Nat) (hbytes : ∀ x, bytes x < 256)
    (hR : R % 8 = 0) (hR0 : 8 ≤ R) (hC : C % 8 = 0) (hC0 : 8 ≤ C)
    (r c : Nat) (hr : r < R) (hc : c < C) :
    getBitM R (scalarTranspose bytes R C) c r = getBitM C bytes r c := by
  unfold getBitM
  rw [scalarTranspose_char bytes R C hR hR0 hC hC0 c (r / 8) hc (by omega)]
  have hm2 : ∀ z : Nat, z &&& 1 ∈ List.range 2 :=
    fun z => List.mem_range.mpr (by have := @Nat.and_le_right z 1; omega)
  have haddr : ∀ j, r % 8 = j →
      (8 * (r / 8) + j) * (C / 8) + 8 * (c / 8) / 8 = r * (C / 8) + c / 8 := by
    intro j hj
    rw [show 8 * (c / 8) / 8 = c / 8 from by omega,
      show 8 * (r / 8) + j = r from by omega]
  obtain ⟨k, hk8, hkr⟩ : ∃ k, k < 8 ∧ r % 8 = k := ⟨r % 8, by omega, rfl⟩
  rw [hkr]
  unfold scalarBlockByte
  by_cases hc7 : c % 8 = 7
  · rw [if_pos hc7]
    unfold m4x8dX0 m4x8dX1
    rw [scalarNibble7 _ _ _ _ (hbytes _) (hbytes _) (hbytes _) (hbytes _),
      scalarNibble7 _ _ _ _ (hbytes _) (hbytes _) (hbytes _) (hbytes _),
      byteBitsScalar k (List.mem_range.mpr hk8) _ (hm2 _) _ (hm2 _) _ (hm2 _) _ (hm2 _)
        _ (hm2 _) _ (hm2 _) _ (hm2 _) _ (hm2 _), hc7]
    interval_cases k
    · simp only [List.getD_cons_zero, List.getD_cons_succ]
      rw [show 8 * (r / 8) * (C / 8) + 8 * (c / 8) / 8 = r * (C / 8) + c / 8 from by
        rw [show 8 * (c / 8) / 8 = c / 8 from by omega, show 8 * (r / 8) = r from by omega]]
      rfl
    · simp only [List.getD_cons_zero, List.getD_cons_succ]
      rw [haddr 1 hkr]
      rfl
    · simp only [List.getD_cons_zero, List.getD_cons_succ]
      rw [haddr 2 hkr]
      rfl
    · simp only [List.getD_cons_zero, List.getD_cons_succ]
      rw [haddr 3 hkr]
      rfl
    · simp only [List.getD_cons_zero, List.getD_cons_succ]
      rw [haddr 4 hkr]
      rfl
    · simp only [List.getD_cons_zero, List.getD_cons_succ]
      rw [haddr 5 hkr]
      rfl
    · simp only [List.getD_cons_zero, List.getD_cons_succ]
      rw [haddr 6 hkr]
      rfl
    · simp only [List.getD_cons_zero, List.getD_cons_succ]
      rw [haddr 7 hkr]
      rfl
  · rw [if_neg hc7]
    unfold m4x8dX0 m4x8dX1
    rw [scalarNibble (c % 8) (by omega) _ _ _ _ (hbytes _) (hbytes _) (hbytes _) (hbytes _),
      scalarNibble (c % 8) (by omega) _ _ _ _ (hbytes _) (hbytes _) (hbytes _) (hbytes _),
      byteBitsScalar k (List.mem_range.mpr hk8) _ (hm2 _) _ (hm2 _) _ (hm2 _) _ (hm2 _)
        _ (hm2 _) _ (hm2 _) _ (hm2 _) _ (hm2 _)]
    interval_cases k
    · simp only [List.getD_cons_zero, List.getD_cons_succ]
      rw [show 8 * (r / 8) * (C / 8) + 8 * (c / 8) / 8 = r * (C / 8) + c / 8 from by
        rw [show 8 * (c / 8) / 8 = c / 8 from by omega, show 8 * (r / 8) = r from by omega]]
    · simp only [List.getD_cons_zero, List.getD_cons_succ]
      rw [haddr 1 hkr]
    · simp only [List.getD_cons_zero, List.getD_cons_succ]
      rw [haddr 2 hkr]
    · simp only [List.getD_cons_zero, List.getD_cons_succ]
      rw [haddr 3 hkr]
    · simp only [List.getD_cons_zero, List.getD_cons_succ]
      rw [haddr 4 hkr]
    · simp only [List.getD_cons_zero, List.getD_cons_succ]
      rw [haddr 5 hkr]
    · simp only [List.getD_cons_zero, List.getD_cons_succ]
      rw [haddr 6 hkr]
    · simp only [List.getD_cons_zero, List.getD_cons_succ]
      rw [haddr 7 hkr]

/-- Shifting an already-truncated 64-bit lane left by one more bit. -/
theorem shl_mod_shl (x a : Nat) :
    (((x <<< a) % 2 ^ 64) <<< 1) % 2 ^ 64 = (x <<< (a + 1)) % 2 ^ 64 := by
  apply Nat.eq_of_testBit_eq
  intro w
  simp only [Nat.testBit_mod_two_pow, Nat.testBit_shiftLeft]
  by_cases h1 : w < 64
  · by_cases h2 : a + 1 ≤ w
    · rw [decide_eq_true h1, decide_eq_true h2, decide_eq_true (show 1 ≤ w from by omega),
        decide_eq_true (show w - 1 < 64 from by omega),
        decide_eq_true (show a ≤ w - 1 from by omega),
        show w - 1 - a = w - (a + 1) from by omega]
      simp
    · rw [decide_eq_true h1, decide_eq_false h2]
      by_cases h3 : 1 ≤ w
      · rw [decide_eq_true h3, decide_eq_false (show ¬(a ≤ w - 1) from by omega)]
        simp
      · rw [decide_eq_false h3]
        simp
  · rw [decide_eq_false h1]
    simp

theorem m16x8Lo_lt (bytes : Nat → Nat) (C row col : Nat) (hbytes : ∀ x, bytes x < 256) :
    m16x8Lo bytes C row col < 2 ^ 64 := by
  unfold m16x8Lo
  have h : ∀ z : Nat, z < 256 → ∀ j, j ≤ 56 → z <<< j < 2 ^ 64 := by
    intro z hz j hj
    rw [Nat.shiftLeft_eq]
    have h2 : (2 : Nat) ^ j ≤ 2 ^ 56 := Nat.pow_le_pow_right (by omega) hj
    have h3 : z * 2 ^ j ≤ 255 * 2 ^ 56 := Nat.mul_le_mul (by omega) h2
    have h4 : (255 : Nat) * 2 ^ 56 < 2 ^ 64 := by norm_num
    omega
  exact Nat.or_lt_two_pow (Nat.or_lt_two_pow (Nat.or_lt_two_pow (Nat.or_lt_two_pow
    (Nat.or_lt_two_pow (Nat.or_lt_two_pow (Nat.or_lt_two_pow
      (by have := hbytes ((row + 7) * (C / 8) + col / 8); omega)
      (h _ (hbytes _) 8 (by omega))) (h _ (hbytes _) 16 (by omega)))
      (h _ (hbytes _) 24 (by omega))) (h _ (hbytes _) 32 (by omega)))
      (h _ (hbytes _) 40 (by omega))) (h _ (hbytes _) 48 (by omega)))
      (h _ (hbytes _) 56 (by omega))

theorem shl_zero_mod (x : Nat) (hx : x < 2 ^ 64) : (x <<< 0) % 2 ^ 64 = x := by
  rw [Nat.shiftLeft_zero, Nat.mod_eq_of_lt hx]

/-- A 16x8 tile whose 16 write addresses all avoid `a` leaves `a`
unchanged. -/
theorem sseTileLoop_frame (R row col : Nat) :
    ∀ (n s : Nat) (out : Nat → Nat) (lo hi a : Nat),
      (∀ i, s ≤ i → i < s + n →
        (col + i) * (R / 8) + row / 8 ≠ a ∧ (col + i) * (R / 8) + row / 8 + 1 ≠ a) →
      sseTileLoop R row col (List.range' s n) out lo hi a = out a := by
  intro n
  induction n with
  | zero => intro s out lo hi a _; rfl
  | succ m ih =>
    intro s out lo hi a hp
    rw [show sseTileLoop R row col (List.range' s (m + 1)) out lo hi a
        = sseTileLoop R row col (List.range' (s + 1) m)
            (updByte (updByte out ((col + s) * (R / 8) + row / 8) (movemask lo hi % 256))
              ((col + s) * (R / 8) + row / 8 + 1) (movemask lo hi >>> 8))
            ((lo <<< 1) % 2 ^ 64) ((hi <<< 1) % 2 ^ 64) a from rfl,
      ih (s + 1) _ _ _ a (fun i h1 h2 => hp i (by omega) (by omega))]
    obtain ⟨hne0, hne1⟩ := hp s (by omega) (by omega)
    show (if a = (col + s) * (R / 8) + row / 8 + 1 then movemask lo hi >>> 8
      else if a = (col + s) * (R / 8) + row / 8 then movemask lo hi % 256 else out a) = out a
    rw [if_neg (fun h => hne1 h.symm), if_neg (fun h => hne0 h.symm)]

/-- The byte a 16x8 tile leaves at its write address for subcolumn `i0`
(low or high half of the stored `uint16_t` as `d0` is 0 or 1). -/
theorem sseTileLoop_byte (R row col lo0 hi0 : Nat) :
    ∀ (n s : Nat), s + n = 8 →
    ∀ (out : Nat → Nat) (a i0 d0 : Nat), s ≤ i0 → i0 < 8 → d0 ≤ 1 →
      (col + i0) * (R / 8) + row / 8 + d0 = a →
      (∀ i d, s ≤ i → i < 8 → d ≤ 1 → (col + i) * (R / 8) + row / 8 + d = a →
        i = i0 ∧ d = d0) →
      sseTileLoop R row col (List.range' s n) out
          ((lo0 <<< s) % 2 ^ 64) ((hi0 <<< s) % 2 ^ 64) a
        = (if d0 = 0 then movemask ((lo0 <<< i0) % 2 ^ 64) ((hi0 <<< i0) % 2 ^ 64) % 256
           else movemask ((lo0 <<< i0) % 2 ^ 64) ((hi0 <<< i0) % 2 ^ 64) >>> 8) := by
  intro n
  induction n with
  | zero =>
    intro s hs out a i0 d0 hsi hi08 _ _ _
    exact absurd hsi (by omega)
  | succ m ih =>
    intro s hs out a i0 d0 hsi hi08 hd0 ha huniq
    rw [show sseTileLoop R row col (List.range' s (m + 1)) out ((lo0 <<< s) % 2 ^ 64)
        ((hi0 <<< s) % 2 ^ 64) a
        = sseTileLoop R row col (List.range' (s + 1) m)
            (updByte (updByte out ((col + s) * (R / 8) + row / 8)
                (movemask ((lo0 <<< s) % 2 ^ 64) ((hi0 <<< s) % 2 ^ 64) % 256))
              ((col + s) * (R / 8) + row / 8 + 1)
              (movemask ((lo0 <<< s) % 2 ^ 64) ((hi0 <<< s) % 2 ^ 64) >>> 8))
            ((((lo0 <<< s) % 2 ^ 64) <<< 1) % 2 ^ 64)
            ((((hi0 <<< s) % 2 ^ 64) <<< 1) % 2 ^ 64) a from rfl,
      shl_mod_shl lo0 s, shl_mod_shl hi0 s]
    by_cases hi0s : i0 = s
    · subst hi0s
      rw [sseTileLoop_frame R row col m (i0 + 1) _ _ _ a (by
        intro i h1 h2
        refine ⟨fun he => ?_, fun he => ?_⟩
        · obtain ⟨hh, _⟩ := huniq i 0 (by omega) (by omega) (by omega)
            (by rw [Nat.add_zero]; exact he)
          omega
        · obtain ⟨hh, _⟩ := huniq i 1 (by omega) (by omega) (by omega) he
          omega)]
      by_cases hd00 : d0 = 0
      · rw [if_pos hd00]
        show (if a = (col + i0) * (R / 8) + row / 8 + 1
            then movemask ((lo0 <<< i0) % 2 ^ 64) ((hi0 <<< i0) % 2 ^ 64) >>> 8
            else if a = (col + i0) * (R / 8) + row / 8
              then movemask ((lo0 <<< i0) % 2 ^ 64) ((hi0 <<< i0) % 2 ^ 64) % 256
              else out a)
          = movemask ((lo0 <<< i0) % 2 ^ 64) ((hi0 <<< i0) % 2 ^ 64) % 256
        rw [if_neg (show ¬(a = (col + i0) * (R / 8) + row / 8 + 1) from by omega),
          if_pos (show a = (col + i0) * (R / 8) + row / 8 from by omega)]
      · rw [if_neg hd00]
        show (if a = (col + i0) * (R / 8) + row / 8 + 1
            then movemask ((lo0 <<< i0) % 2 ^ 64) ((hi0 <<< i0) % 2 ^ 64) >>> 8
            else if a = (col + i0) * (R / 8) + row / 8
              then movemask ((lo0 <<< i0) % 2 ^ 64) ((hi0 <<< i0) % 2 ^ 64) % 256
              else out a)
          = movemask ((lo0 <<< i0) % 2 ^ 64) ((hi0 <<< i0) % 2 ^ 64) >>> 8
        rw [if_pos (show a = (col + i0) * (R / 8) + row / 8 + 1 from by omega)]
    · exact ih (s + 1) (by omega) _ a i0 d0 (by omega) hi08 hd0 ha
        (fun i d h1 h2 h3 h4 => huniq i d (by omega) h2 h3 h4)

/-- An 8x8 remainder tile whose 8 write addresses all avoid `a` leaves
`a` unchanged. -/
theorem sse8TileLoop_frame (R row col : Nat) :
    ∀ (n s : Nat) (out : Nat → Nat) (lo a : Nat),
      (∀ i, s ≤ i → i < s + n → (col + i) * (R / 8) + row / 8 ≠ a) →
      sse8TileLoop R row col (List.range' s n) out lo a = out a := by
  intro n
  induction n with
  | zero => intro s out lo a _; rfl
  | succ m ih =>
    intro s out lo a hp
    rw [show sse8TileLoop R row col (List.range' s (m + 1)) out lo a
        = sse8TileLoop R row col (List.range' (s + 1) m)
            (updByte out ((col + s) * (R / 8) + row / 8) (movemask lo 0 % 256))
            ((lo <<< 1) % 2 ^ 64) a from rfl,
      ih (s + 1) _ _ a (fun i h1 h2 => hp i (by omega) (by omega))]
    show (if a = (col + s) * (R / 8) + row / 8 then movemask lo 0 % 256 else out a) = out a
    rw [if_neg (fun h => hp s (by omega) (by omega) h.symm)]

/-- The byte an 8x8 remainder tile leaves at its write address for
subcolumn `i0`. -/
theorem sse8TileLoop_byte (R row col lo0 : Nat) :
    ∀ (n s : Nat), s + n = 8 →
    ∀ (out : Nat → Nat) (a i0 : Nat), s ≤ i0 → i0 < 8 →
      (col + i0) * (R / 8) + row / 8 = a →
      (∀ i, s ≤ i → i < 8 → (col + i) * (R / 8) + row / 8 = a → i = i0) →
      sse8TileLoop R row col (List.range' s n) out ((lo0 <<< s) % 2 ^ 64) a
        = movemask ((lo0 <<< i0) % 2 ^ 64) 0 % 256 := by
  intro n
  induction n with
  | zero =>
    intro s hs out a i0 hsi hi08 _ _
    exact absurd hsi (by omega)
  | succ m ih =>
    intro s hs out a i0 hsi hi08 ha huniq
    rw [show sse8TileLoop R row col (List.range' s (m + 1)) out ((lo0 <<< s) % 2 ^ 64) a
        = sse8TileLoop R row col (List.range' (s + 1) m)
            (updByte out ((col + s) * (R / 8) + row / 8)
              (movemask ((lo0 <<< s) % 2 ^ 64) 0 % 256))
            ((((lo0 <<< s) % 2 ^ 64) <<< 1) % 2 ^ 64) a from rfl,
      shl_mod_shl lo0 s]
    by_cases hi0s : i0 = s
    · subst hi0s
      rw [sse8TileLoop_frame R row col m (i0 + 1) _ _ a (by
        intro i h1 h2 he
        have := huniq i (by omega) (by omega) he
        omega)]
      show (if a = (col + i0) * (R / 8) + row / 8
          then movemask ((lo0 <<< i0) % 2 ^ 64) 0 % 256 else out a)
        = movemask ((lo0 <<< i0) % 2 ^ 64) 0 % 256
      rw [if_pos ha.symm]
    · exact ih (s + 1) (by omega) _ a i0 (by omega) hi08 ha
        (fun i h1 h2 h3 => huniq i (by omega) h2 h3)

end Fecmagic
